import Mathlib

/-!
Verification of the loan-approval repository (LLMbased_LoanApproval).

Shallow embedding of:
  * src/utils/loan_calculator.py  (LoanApprovalCalculator)
  * src/services/gemini_service.py (_extract_entities, income/employment/credit tables)
  * src/utils/pii_masker.py       (PIIMasker.mask_text / unmask_text)

Python floats are modelled as rationals (ℚ); Python `round(x, 2)` is modelled as
round-half-to-even on x*100 (banker's rounding, Python's semantics).  Strings are
modelled as `String` / `List Char`; regular-expression matching is modelled by an
executable backtracking engine over `List Char` mirroring Python `re` semantics
(leftmost search, greedy quantifiers, ordered alternation, ASCII word boundaries).
-/

/-- Round half to even (Python banker's rounding) to an integer. -/
def roundHalfEven (q : ℚ) : ℤ :=
  let f : ℤ := ⌊q⌋
  let r : ℚ := q - (f : ℚ)
  if r < 1/2 then f
  else if 1/2 < r then f + 1
  else if f % 2 = 0 then f else f + 1

/-- Python `round(x, 2)` on a real value, modelled over ℚ. -/
def pyRound2 (q : ℚ) : ℚ := (roundHalfEven (q * 100) : ℚ) / 100

/-! ## Loan calculator (src/utils/loan_calculator.py) -/

/-- DTI threshold `DTI_APPROVED_MAX = 36.0` (loan_calculator.py line 41). -/
def DTI_APPROVED_MAX : ℚ := 36

/-- DTI threshold `DTI_CONDITIONAL_MAX = 43.0` (loan_calculator.py line 42). -/
def DTI_CONDITIONAL_MAX : ℚ := 43

/-- Minimum monthly income `MIN_INCOME = 15000` (loan_calculator.py line 45). -/
def MIN_INCOME : ℚ := 15000

/-- Applicant data dictionary: the five recognized keys, each possibly absent
(`None` / missing key modelled as `none`). -/
structure ApplicantData where
  gross_monthly_income : Option ℚ
  total_monthly_debt : Option ℚ
  loan_amount : Option ℚ
  employment_status : Option String
  credit_score_range : Option String

/-- A complete applicant record (all five fields present). -/
def completeData (g d l : ℚ) (emp credit : String) : ApplicantData :=
  ⟨some g, some d, some l, some emp, some credit⟩

/-- Result dictionary of `evaluate_application`.  The formatted
`applicant_summary` sub-dictionary is omitted: no claim depends on it and its
content is pure display formatting.  `missing_fields` is present only on the
insufficient-data path in Python; here it defaults to `[]`. -/
structure EvaluationResult where
  status : String
  decision : String
  reason : String
  dti_ratio : Option ℚ
  recommendations : List String
  missing_fields : List String := []

/-- `calculate_dti` (loan_calculator.py lines 57-72): raises ValueError for
non-positive income, modelled as `Except`. -/
def calculate_dti (gross_monthly_income total_monthly_debt : ℚ) : Except String ℚ :=
  if gross_monthly_income ≤ 0 then
    .error "Gross monthly income must be greater than zero"
  else
    .ok (pyRound2 (total_monthly_debt / gross_monthly_income * 100))

/-- `check_data_completeness` (loan_calculator.py lines 74-90): missing fields
in the fixed `required_fields` order. -/
def check_data_completeness (a : ApplicantData) : Bool × List String :=
  let missing :=
    (if a.gross_monthly_income.isNone then ["gross_monthly_income"] else []) ++
    (if a.total_monthly_debt.isNone then ["total_monthly_debt"] else []) ++
    (if a.loan_amount.isNone then ["loan_amount"] else []) ++
    (if a.employment_status.isNone then ["employment_status"] else []) ++
    (if a.credit_score_range.isNone then ["credit_score_range"] else [])
  (missing.isEmpty, missing)

/-- Numeric rendering used inside human-readable reason strings
(Python f-string `{x:,.2f}` / `{dti}` interpolation).  The exact decimal
rendering is abstracted as `toString` on ℚ; no claim depends on its output. -/
def fmtQ (q : ℚ) : String := toString q

/-- Intermediate decision components (the `status`/`decision`/`reasons`/
`recommendations` local variables of `evaluate_application`). -/
structure DecisionParts where
  status : String
  decision : String
  reasons : List String
  recs : List String

/-- Steps 3 and 4 of `evaluate_application` (loan_calculator.py lines 139-189):
hard disqualifiers (minimum income, unemployment) then the DTI-threshold
branches.  `decision` stays `""` when a hard disqualifier fires, because the
Python code initializes `decision = ""` and assigns it only inside the DTI
branches (which are skipped once `status` is set). -/
def preDecision (gross_income : ℚ) (employment_status : String) (dti_ratio : ℚ) :
    DecisionParts :=
  let reasons0 := if gross_income < MIN_INCOME then
      ["Monthly income (₹" ++ fmtQ gross_income ++
       ") is below minimum requirement (₹" ++ fmtQ MIN_INCOME ++ ")"] else []
  let status0 : Option String :=
    if gross_income < MIN_INCOME then some "rejected" else none
  let reasons1 := if employment_status = "unemployed" then
      reasons0 ++ ["Applicant must have employment or income source"] else reasons0
  let status1 : Option String :=
    if employment_status = "unemployed" then some "rejected" else status0
  match status1 with
  | some st => ⟨st, "", reasons1, []⟩
  | none =>
    if dti_ratio ≤ DTI_APPROVED_MAX then
      ⟨"approved", "Application Approved",
        reasons1 ++ ["Debt-to-Income ratio (" ++ fmtQ dti_ratio ++ "%) is excellent"],
        ["Proceed with document submission",
         "Upload proof of income (recent pay stubs)",
         "Upload proof of identity (driver's license)",
         "Submit bank statements (last 2 months)"]⟩
    else if dti_ratio ≤ DTI_CONDITIONAL_MAX then
      ⟨"conditional", "Application Conditionally Approved",
        reasons1 ++ ["Debt-to-Income ratio (" ++ fmtQ dti_ratio ++ "%) requires additional review"],
        ["Application requires manual underwriting review",
         "Consider reducing monthly debt obligations",
         "Provide additional documentation of income stability",
         "May require higher down payment",
         "Co-signer might improve approval chances"]⟩
    else
      ⟨"rejected", "Application Rejected",
        reasons1 ++ ["Debt-to-Income ratio (" ++ fmtQ dti_ratio ++ "%) exceeds maximum threshold (43%)"],
        ["Reduce monthly debt payments before reapplying",
         "Increase gross monthly income",
         "Consider a smaller loan amount",
         "Target DTI ratio below 43% (currently " ++ fmtQ dti_ratio ++ "%)",
         "Seek credit counseling for debt management"]⟩

/-- Step 5 of `evaluate_application` (loan_calculator.py lines 191-197):
credit-score considerations for `poor` / `very_poor` ranges. -/
def creditStep (credit_score : String) (pre : DecisionParts) : DecisionParts :=
  if credit_score = "poor" ∨ credit_score = "very_poor" then
    let st := if pre.status = "approved" then "conditional" else pre.status
    let dec := if pre.status = "approved" then "Application Conditionally Approved" else pre.decision
    ⟨st, dec,
      pre.reasons ++ ["Credit score is below preferred range"],
      pre.recs ++ ["Work on improving credit score for better terms"]⟩
  else pre

/-- Body of `evaluate_application` once data is complete (loan_calculator.py
lines 120-213).  `loan_amount` is used by the Python code only inside the
omitted `applicant_summary`. -/
def evalComplete (gross_income monthly_debt loan_amount : ℚ)
    (employment_status credit_score : String) : EvaluationResult :=
  match calculate_dti gross_income monthly_debt with
  | .error e =>
      { status := "rejected"
        decision := "Application Rejected"
        reason := e
        dti_ratio := none
        recommendations := ["Income must be greater than zero"] }
  | .ok dti_ratio =>
      let final := creditStep credit_score (preDecision gross_income employment_status dti_ratio)
      { status := final.status
        decision := final.decision
        reason := if final.reasons.isEmpty then "Based on financial profile assessment"
                  else String.intercalate " | " final.reasons
        dti_ratio := some dti_ratio
        recommendations := final.recs }

/-- `evaluate_application` (loan_calculator.py lines 92-213). -/
def evaluate_application (a : ApplicantData) : EvaluationResult :=
  match a.gross_monthly_income, a.total_monthly_debt, a.loan_amount,
        a.employment_status, a.credit_score_range with
  | some g, some d, some l, some emp, some credit => evalComplete g d l emp credit
  | _, _, _, _, _ =>
      { status := "insufficient_data"
        decision := "Cannot process application"
        reason := "Missing required information: " ++
                  String.intercalate ", " (check_data_completeness a).2
        dti_ratio := none
        recommendations := ["Please provide all required information to proceed"]
        missing_fields := (check_data_completeness a).2 }

/-! ## Regular-expression engine (executable Python `re` subset) -/

/-- ASCII word character (Python `\w` on this repository's ASCII inputs). -/
def isWordChar (c : Char) : Bool := c.isAlphanum || c = '_'

/-- Python `\s` (ASCII subset). -/
def isPySpace (c : Char) : Bool :=
  c = ' ' || c = '\t' || c = '\n' || c = '\r' || c = '\x0b' || c = '\x0c'

/-- Regex abstract syntax: exactly the constructs used by the repository's
patterns (character classes, concatenation, ordered alternation, bounded and
unbounded greedy repetition, word boundary, one capture group). -/
inductive RE where
  | eps : RE
  | cls : (Char → Bool) → RE
  | seq : RE → RE → RE
  | alt : RE → RE → RE
  | rep : RE → Nat → Option Nat → RE
  | wordB : RE
  | group : RE → RE

/-- Word-ness of the character at position `p` (false past the ends). -/
def wordAt (t : List Char) (p : Nat) : Bool :=
  match t.get? p with
  | some c => isWordChar c
  | none => false

/-- Python `\b` between positions `p-1` and `p`. -/
def boundaryAt (t : List Char) (p : Nat) : Bool :=
  (if p = 0 then false else wordAt t (p - 1)) != wordAt t p

/-- Backtracking matcher: the successful continuations (end position, group-1
span) from position `p`, in Python preference order (greedy quantifiers,
left alternative first).  `fuel` bounds recursion depth. -/
def mrun (t : List Char) : Nat → RE → Nat → Option (Nat × Nat) →
    List (Nat × Option (Nat × Nat))
  | 0, _, _, _ => []
  | _ + 1, .eps, p, g => [(p, g)]
  | _ + 1, .cls f, p, g =>
      match t.get? p with
      | some c => if f c then [(p + 1, g)] else []
      | none => []
  | fuel + 1, .seq a b, p, g =>
      (mrun t fuel a p g).flatMap fun s => mrun t fuel b s.1 s.2
  | fuel + 1, .alt a b, p, g => mrun t fuel a p g ++ mrun t fuel b p g
  | _ + 1, .wordB, p, g => if boundaryAt t p then [(p, g)] else []
  | fuel + 1, .group a, p, g =>
      (mrun t fuel a p g).map fun s => (s.1, some (p, s.1))
  | fuel + 1, .rep a min mx, p, g =>
      match min with
      | m + 1 =>
          (mrun t fuel a p g).flatMap fun s =>
            mrun t fuel (.rep a m (mx.map (· - 1))) s.1 s.2
      | 0 =>
          match mx with
          | some 0 => [(p, g)]
          | _ =>
              ((mrun t fuel a p g).flatMap fun s =>
                if p < s.1 then mrun t fuel (.rep a 0 (mx.map (· - 1))) s.1 s.2
                else []) ++ [(p, g)]

/-- Fuel sufficient for this repository's fixed patterns. -/
def fuelFor (t : List Char) : Nat := 100 * (t.length + 10)

/-- A regex match: start, end, and the span of capture group 1 if any. -/
structure RMatch where
  s : Nat
  e : Nat
  grp : Option (Nat × Nat)
deriving DecidableEq, Repr

def searchFromAux (t : List Char) (r : RE) : Nat → Nat → Option RMatch
  | _, 0 => none
  | p, steps + 1 =>
      match mrun t (fuelFor t) r p none with
      | (e, g) :: _ => some ⟨p, e, g⟩
      | [] => if p < t.length then searchFromAux t r (p + 1) steps else none

/-- Python `re.search` semantics starting the scan at position `p`. -/
def searchFrom (t : List Char) (r : RE) (p : Nat) : Option RMatch :=
  searchFromAux t r p (t.length + 1 - p)

/-- Python `re.search`. -/
def reSearch (t : List Char) (r : RE) : Option RMatch := searchFrom t r 0

def finditerAux (t : List Char) (r : RE) : Nat → Nat → List RMatch
  | _, 0 => []
  | p, steps + 1 =>
      match searchFrom t r p with
      | none => []
      | some m => m :: finditerAux t r (if m.s < m.e then m.e else m.s + 1) steps

/-- Python `re.finditer`: non-overlapping matches, left to right. -/
def finditer (t : List Char) (r : RE) : List RMatch :=
  finditerAux t r 0 (t.length + 1)

/-- Contiguous slice `t[s:e]`. -/
def sliceL (t : List Char) (s e : Nat) : List Char := (t.drop s).take (e - s)

/-! Pattern construction helpers. -/

def chrRE (c : Char) : RE := .cls (fun x => x = c)

/-- Case-insensitive literal character (for patterns compiled with
`re.IGNORECASE`). -/
def ichrRE (c : Char) : RE := .cls (fun x => x.toLower = c.toLower)

def litRE (s : String) : RE := s.data.foldr (fun c r => .seq (chrRE c) r) .eps

def ilitRE (s : String) : RE := s.data.foldr (fun c r => .seq (ichrRE c) r) .eps

def digitRE : RE := .cls Char.isDigit

def spaceRE : RE := .cls isPySpace

def altsRE : List RE → RE
  | [] => .eps
  | [r] => r
  | r :: rs => .alt r (altsRE rs)

def seqsRE : List RE → RE
  | [] => .eps
  | [r] => r
  | r :: rs => .seq r (seqsRE rs)

def starRE (r : RE) : RE := .rep r 0 none

def plusRE (r : RE) : RE := .rep r 1 none

def optRE (r : RE) : RE := .rep r 0 (some 1)

def repeatRE (r : RE) (n : Nat) : RE := .rep r n (some n)

/-! ## Entity extraction (src/services/gemini_service.py, `_extract_entities`) -/

/-- The amount capture group `(\d{1,3}(?:,\d{3})*(?:\.\d{2})?)`. -/
def amountGroupRE : RE :=
  .group (seqsRE [.rep digitRE 1 (some 3),
                  starRE (seqsRE [chrRE ',', repeatRE digitRE 3]),
                  optRE (seqsRE [chrRE '.', repeatRE digitRE 2])])

/-- Income pattern 1: amount before a monthly-frequency keyword. -/
def incomePattern1 : RE :=
  seqsRE [optRE (chrRE '$'), amountGroupRE, starRE spaceRE,
          altsRE [litRE "per month", litRE "monthly", litRE "a month", litRE "/month"]]

/-- Income pattern 2: `(?:make|earn|income of)`-prefixed amount. -/
def incomePattern2 : RE :=
  seqsRE [altsRE [litRE "make", litRE "earn", litRE "income of"],
          starRE spaceRE, optRE (chrRE '$'), amountGroupRE]

/-- Income pattern 3: `(\d+)k` before a monthly-frequency keyword. -/
def incomePattern3 : RE :=
  seqsRE [.group (plusRE digitRE), chrRE 'k', starRE spaceRE,
          altsRE [litRE "per month", litRE "monthly", litRE "a month"]]

def incomePatterns : List RE := [incomePattern1, incomePattern2, incomePattern3]

def parseDigits (l : List Char) : ℕ := l.foldl (fun a c => a * 10 + (c.toNat - 48)) 0

/-- Python `float(...)` on the numeric literals the amount groups produce:
integer digits with an optional two-digit decimal part. -/
def parseAmount (l : List Char) : ℚ :=
  let intPart := l.takeWhile (· ≠ '.')
  let fracPart := (l.dropWhile (· ≠ '.')).drop 1
  (parseDigits intPart : ℚ) + (parseDigits fracPart : ℚ) / (10 ^ fracPart.length)

def lowerText (t : List Char) : List Char := t.map Char.toLower

/-- Occurrence of `sub` as a contiguous sublist of `t`. -/
def occursIn (sub : List Char) : List Char → Bool
  | [] => sub.isEmpty
  | c :: rest => sub.isPrefixOf (c :: rest) || occursIn sub rest

/-- Python `sub in text` literal substring test. -/
def containsSub (t : List Char) (sub : String) : Bool := occursIn sub.data t

/-- Amount computation from an income match (gemini_service.py lines 283-291):
strip commas from group 1, multiply by 1000 when the whole matched literal
contains a 'k', divide by 12 when the utterance mentions "year"/"annual". -/
def matchGroup1 (low : List Char) (m : RMatch) : List Char :=
  match m.grp with
  | some (a, b) => sliceL low a b
  | none => []

def incomeFromMatch (low : List Char) (m : RMatch) : ℚ :=
  let g0 := sliceL low m.s m.e
  let amountStr := (matchGroup1 low m).filter (· ≠ ',')
  let amount := if g0.contains 'k' then parseAmount amountStr * 1000
                else parseAmount amountStr
  if containsSub low "year" || containsSub low "annual" then amount / 12 else amount

/-- First income pattern with a match, in table order. -/
def incomeSearch (low : List Char) : Option RMatch :=
  incomePatterns.findSome? fun r => reSearch low r

/-- Income extraction step of `_extract_entities` (lines 274-296). -/
def extractIncome (msg : List Char) : Option ℚ :=
  let low := lowerText msg
  (incomeSearch low).map (incomeFromMatch low)

/-- Employment keyword table (gemini_service.py lines 327-333), in Python dict
insertion order. -/
def employment_keywords : List (String × List String) :=
  [("full_time", ["full-time", "full time", "fulltime", "employed full"]),
   ("part_time", ["part-time", "part time", "parttime"]),
   ("self_employed", ["self-employed", "self employed", "freelance", "own business", "contractor"]),
   ("unemployed", ["unemployed", "not working", "no job"]),
   ("retired", ["retired", "retirement"])]

/-- Employment extraction loop (gemini_service.py lines 335-341): categories in
table order; a keyword hit stores the category and breaks only the inner
keyword loop, so a later matching category overwrites an earlier one. -/
def extractEmployment (msg : List Char) : Option String :=
  let low := lowerText msg
  employment_keywords.foldl
    (fun acc kv =>
      match kv.2.find? (fun kw => containsSub low kw) with
      | some _ => some kv.1
      | none => acc)
    none

/-- Credit-score keyword table (gemini_service.py lines 344-349). -/
def credit_keywords : List (String × List String) :=
  [("excellent", ["excellent", "750", "800", "great credit", "perfect credit"]),
   ("good", ["good", "700", "decent credit"]),
   ("fair", ["fair", "650", "average credit", "okay credit"]),
   ("poor", ["poor", "600", "bad credit", "low credit"])]

/-- Credit-score extraction loop (gemini_service.py lines 351-355), same shape
as the employment loop. -/
def extractCreditScore (msg : List Char) : Option String :=
  let low := lowerText msg
  credit_keywords.foldl
    (fun acc kv =>
      match kv.2.find? (fun kw => containsSub low kw) with
      | some _ => some kv.1
      | none => acc)
    none


/-! ## PII masker (src/utils/pii_masker.py) -/

def isAsciiUpper (c : Char) : Bool := 'A' ≤ c && c ≤ 'Z'

def isAsciiLower (c : Char) : Bool := 'a' ≤ c && c ≤ 'z'

/-- Class `[A-Za-z0-9._%+-]` (email local part). -/
def emailLocalChar (c : Char) : Bool :=
  isAsciiUpper c || isAsciiLower c || c.isDigit ||
  c = '.' || c = '_' || c = '%' || c = '+' || c = '-'

/-- Class `[A-Za-z0-9.-]` (email domain). -/
def emailDomainChar (c : Char) : Bool :=
  isAsciiUpper c || isAsciiLower c || c.isDigit || c = '.' || c = '-'

/-- Class `[A-Z|a-z]` (email TLD; the `|` is a literal member of the class as
written in the source pattern). -/
def tldChar (c : Char) : Bool := isAsciiUpper c || isAsciiLower c || c = '|'

/-- Class `[-\s]`. -/
def dashOrSpace (c : Char) : Bool := c = '-' || isPySpace c

/-- Class `[-.\s]`. -/
def dashDotSpace (c : Char) : Bool := c = '-' || c = '.' || isPySpace c

/-- Class `[\s#:]`. -/
def acctSepChar (c : Char) : Bool := isPySpace c || c = '#' || c = ':'

/-- Class `[A-Za-z0-9\s,]` (address body). -/
def addrChar (c : Char) : Bool :=
  isAsciiUpper c || isAsciiLower c || c.isDigit || isPySpace c || c = ','

/-- `\b\d{3}-\d{2}-\d{4}\b|\b\d{9}\b`. -/
def ssnPattern : RE :=
  .alt (seqsRE [.wordB, repeatRE digitRE 3, chrRE '-', repeatRE digitRE 2, chrRE '-',
                repeatRE digitRE 4, .wordB])
       (seqsRE [.wordB, repeatRE digitRE 9, .wordB])

/-- `\b\d{4}[-\s]?\d{4}[-\s]?\d{4}[-\s]?\d{4}\b`. -/
def creditCardPattern : RE :=
  seqsRE [.wordB, repeatRE digitRE 4, optRE (.cls dashOrSpace), repeatRE digitRE 4,
          optRE (.cls dashOrSpace), repeatRE digitRE 4, optRE (.cls dashOrSpace),
          repeatRE digitRE 4, .wordB]

/-- `\b(?:\+?1[-.\s]?)?\(?\d{3}\)?[-.\s]?\d{3}[-.\s]?\d{4}\b`. -/
def phonePattern : RE :=
  seqsRE [.wordB,
          optRE (seqsRE [optRE (chrRE '+'), chrRE '1', optRE (.cls dashDotSpace)]),
          optRE (chrRE '('), repeatRE digitRE 3, optRE (chrRE ')'),
          optRE (.cls dashDotSpace), repeatRE digitRE 3, optRE (.cls dashDotSpace),
          repeatRE digitRE 4, .wordB]

/-- `\b[A-Za-z0-9._%+-]+@[A-Za-z0-9.-]+\.[A-Z|a-z]{2,}\b`. -/
def emailPattern : RE :=
  seqsRE [.wordB, plusRE (.cls emailLocalChar), chrRE '@', plusRE (.cls emailDomainChar),
          chrRE '.', .rep (.cls tldChar) 2 none, .wordB]

/-- `\b(?:account|acct)[\s#:]*(\d{6,18})\b` (IGNORECASE). -/
def accountPattern : RE :=
  seqsRE [.wordB, .alt (ilitRE "account") (ilitRE "acct"), starRE (.cls acctSepChar),
          .group (.rep digitRE 6 (some 18)), .wordB]

/-- `\b(?:routing|aba)[\s#:]*(\d{9})\b` (IGNORECASE). -/
def routingPattern : RE :=
  seqsRE [.wordB, .alt (ilitRE "routing") (ilitRE "aba"), starRE (.cls acctSepChar),
          .group (repeatRE digitRE 9), .wordB]

def addressSuffixes : List String :=
  ["street", "st", "avenue", "ave", "road", "rd", "boulevard", "blvd", "lane", "ln",
   "drive", "dr", "court", "ct", "way"]

/-- `\b\d+\s+[A-Za-z0-9\s,]+(?:street|st|...|way)\b` (IGNORECASE). -/
def addressPattern : RE :=
  seqsRE [.wordB, plusRE digitRE, plusRE spaceRE, plusRE (.cls addrChar),
          altsRE (addressSuffixes.map ilitRE), .wordB]

/-- `self.pii_patterns` (pii_masker.py lines 14-23), in dict insertion order. -/
def pii_patterns : List (String × RE) :=
  [("ssn", ssnPattern), ("credit_card", creditCardPattern), ("phone", phonePattern),
   ("email", emailPattern), ("account_number", accountPattern),
   ("routing_number", routingPattern), ("address", addressPattern)]

/-- Little-endian decimal digit characters of `n` (`fuel`-bounded structural
recursion so that the kernel can evaluate it). -/
def decDigitsAux : Nat → Nat → List Char
  | 0, _ => []
  | _ + 1, 0 => []
  | f + 1, n => Char.ofNat (48 + n % 10) :: decDigitsAux f (n / 10)

/-- Decimal rendering of a counter (Python str(n) inside the f-string). -/
def natToDec (n : Nat) : List Char :=
  if n = 0 then ['0'] else (decDigitsAux n n).reverse

/-- Placeholder literal `<{pii_type.upper()}_{count}>` (pii_masker.py line 60). -/
def placeholderL (ty : String) (n : Nat) : List Char :=
  '<' :: (ty.data.map Char.toUpper ++ '_' :: (natToDec n ++ ['>']))

/-- PIIMasker instance state: `self.pii_counters` and `self.masked_mapping`
(insertion-ordered dictionaries). -/
structure MaskerState where
  pii_counters : List (String × Nat)
  masked_mapping : List (List Char × List Char)

/-- A freshly constructed `PIIMasker()`. -/
def initMasker : MaskerState := ⟨[], []⟩

/-- Dictionary read with default: `d.get(k, default)` via an assoc list. -/
def lookupA {κ β : Type} [DecidableEq κ] (l : List (κ × β)) (k : κ) : Option β :=
  (l.find? fun kv => kv.1 = k).map (·.2)

/-- Dictionary assignment `d[k] = v`: overwrite in place if present (keeping
insertion order), else append. -/
def setA {κ β : Type} [DecidableEq κ] (l : List (κ × β)) (k : κ) (v : β) :
    List (κ × β) :=
  match l with
  | [] => [(k, v)]
  | kv :: rest => if kv.1 = k then (k, v) :: rest else kv :: setA rest k v

/-- One placeholder substitution (body of the `for match in reversed(matches)`
loop, pii_masker.py lines 56-67).  `base` is the text the category's matches
were found in; positions stay valid because matches are processed
right-to-left. -/
def maskMatch (ty : String) (base : List Char)
    (acc : MaskerState × List Char × Nat) (m : RMatch) :
    MaskerState × List Char × Nat :=
  let st := acc.1
  let text := acc.2.1
  let cnt := acc.2.2
  let c := (lookupA st.pii_counters ty).getD 0 + 1
  let ph := placeholderL ty c
  let value := sliceL base m.s m.e
  ({ pii_counters := setA st.pii_counters ty c,
     masked_mapping := setA st.masked_mapping ph value },
   text.take m.s ++ ph ++ text.drop m.e, cnt + 1)

/-- Process one PII category: find all matches in the current text, then
replace them right-to-left. -/
def maskCategory (ty : String) (r : RE) (st : MaskerState) (text : List Char) :
    MaskerState × List Char × Nat :=
  (finditer text r).reverse.foldl (maskMatch ty text) (st, text, 0)

/-- Fold step over the pattern table (pii_masker.py lines 49-67): a category
with matches is recorded in `pii_detected` and its matches are masked. -/
def maskStep (acc : MaskerState × List Char × List String × Nat)
    (pr : String × RE) : MaskerState × List Char × List String × Nat :=
  let st := acc.1
  let text := acc.2.1
  let det := acc.2.2.1
  let cnt := acc.2.2.2
  if (finditer text pr.2).isEmpty then acc
  else
    let r := maskCategory pr.1 pr.2 st text
    (r.1, r.2.1, det ++ [pr.1], cnt + r.2.2)

/-- Metadata dictionary returned by `mask_text`. -/
structure MaskMeta where
  original_length : Nat
  pii_detected : List String
  mask_count : Nat
  masked_length : Nat
deriving DecidableEq, Repr

/-- `PIIMasker.mask_text` (pii_masker.py lines 28-70): resets the per-call
counters (the mapping persists across calls on the same instance), scans the
categories in table order over the evolving text, and returns the masked text,
metadata, and the updated instance state. -/
def maskFoldResult (st0 : MaskerState) (text : List Char) :
    MaskerState × List Char × List String × Nat :=
  pii_patterns.foldl maskStep ({ st0 with pii_counters := [] }, text, [], 0)

def mask_text (st0 : MaskerState) (text : List Char) :
    List Char × MaskMeta × MaskerState :=
  let r := maskFoldResult st0 text
  (r.2.1,
   { original_length := text.length, pii_detected := r.2.2.1,
     mask_count := r.2.2.2, masked_length := r.2.1.length },
   r.1)

/-- Python `str.replace` (all non-overlapping occurrences, left to right);
`fuel` is the length of the scanned text.  The repository only calls this with
non-empty `pat` (placeholders). -/
def replaceAllAux (pat sub : List Char) : Nat → List Char → List Char
  | _, [] => []
  | 0, t => t
  | f + 1, c :: rest =>
      if pat.isPrefixOf (c :: rest) then
        sub ++ replaceAllAux pat sub f ((c :: rest).drop pat.length)
      else c :: replaceAllAux pat sub f rest

def replaceAll (t pat sub : List Char) : List Char := replaceAllAux pat sub t.length t

/-- `PIIMasker.unmask_text` (pii_masker.py lines 72-87): substitute every
stored placeholder with its original value, in mapping insertion order. -/
def unmask_text (st : MaskerState) (masked : List Char) : List Char :=
  st.masked_mapping.foldl (fun t kv => replaceAll t kv.1 kv.2) masked

/-- Detected-category list computed by explicit recursion over the category
table, making the dependence on the evolving (already partially masked) text
explicit: a category is detected iff its pattern matches the text as masked by
the categories before it. -/
def runCategories (st : MaskerState) (t : List Char) :
    List (String × RE) → List String
  | [] => []
  | (ty, r) :: rest =>
      if (finditer t r).isEmpty then runCategories st t rest
      else
        let res := maskCategory ty r st t
        ty :: runCategories res.1 res.2.1 rest



/-! ## Spec-side definition used by the amended claim C3 -/

/-- The last category in table order whose keyword list has a substring match
in the lower-cased text. -/
def lastMatchingCategory (table : List (String × List String)) (low : List Char) :
    Option String :=
  (table.reverse.find? fun kv => kv.2.any fun kw => containsSub low kw).map (·.1)

/-! ## Engine analysis predicates (for the round-trip proof of mask/unmask) -/

/-- Nullability: the pattern can match the empty string. -/

def nullableRE : RE → Bool
  | .eps => true
  | .cls _ => false
  | .seq a b => nullableRE a && nullableRE b
  | .alt a b => nullableRE a || nullableRE b
  | .rep a min _ => (min == 0) || nullableRE a
  | .wordB => true
  | .group a => nullableRE a

/-- Every character class of the pattern implies `P`. -/

def ClsOK (P : Char → Bool) : RE → Prop
  | .eps => True
  | .cls f => ∀ c, f c = true → P c = true
  | .seq a b => ClsOK P a ∧ ClsOK P b
  | .alt a b => ClsOK P a ∧ ClsOK P b
  | .rep a _ _ => ClsOK P a
  | .wordB => True
  | .group a => ClsOK P a

/-- The first consumed character of any nonempty match satisfies `Q`. -/

def FirstOK (Q : Char → Bool) : RE → Prop
  | .eps => True
  | .cls f => ∀ c, f c = true → Q c = true
  | .seq a b => FirstOK Q a ∧ (nullableRE a = true → FirstOK Q b)
  | .alt a b => FirstOK Q a ∧ FirstOK Q b
  | .rep a _ _ => FirstOK Q a
  | .wordB => True
  | .group a => FirstOK Q a

/-- Every successful match consumes at least one character satisfying `Q`. -/

def MustSat (Q : Char → Bool) : RE → Prop
  | .eps => False
  | .cls f => ∀ c, f c = true → Q c = true
  | .seq a b => MustSat Q a ∨ MustSat Q b
  | .alt a b => MustSat Q a ∧ MustSat Q b
  | .rep a min _ => 1 ≤ min ∧ MustSat Q a
  | .wordB => False
  | .group a => MustSat Q a

/-! ## Character safety of the PII patterns -/

/-- Neither `<` nor `>`. -/

def angleFree (c : Char) : Bool := !(c == '<' || c == '>')

/-! ## First-character and mandatory-character facts for the PII patterns -/

/-- First-set bound for the SSN and credit-card patterns: a digit. -/

def firstDigitB (c : Char) : Bool := c.isDigit

/-- First-set bound for the phone pattern. -/

def firstPhone (c : Char) : Bool := c == '+' || c == '1' || c == '(' || c.isDigit

/-- First-set bound for the account pattern: `a`/`A`. -/

def firstAccount (c : Char) : Bool := c.toLower == 'a'

/-- First-set bound for the routing pattern: `r`/`R`/`a`/`A`. -/

def firstRouting (c : Char) : Bool := c.toLower == 'r' || c.toLower == 'a'

/-! ## Segment view of masked text: alternating original-text intervals and
placeholder keys (invariant infrastructure for the mask/unmask round trip). -/

/-- A segment of the masked text: either a still-raw interval `[s, e)` of the
original text, or the placeholder of type `ty` and counter `k` standing where
interval `[s, e)` of the original text was masked. -/

inductive Seg where
  | gap : Nat → Nat → Seg
  | key : String → Nat → Nat → Nat → Seg
deriving DecidableEq, Repr

def segStr (T : List Char) : Seg → List Char
  | .gap s e => sliceL T s e
  | .key ty k _ _ => placeholderL ty k

def flatS (T : List Char) : List Seg → List Char
  | [] => []
  | sg :: rest => segStr T sg ++ flatS T rest

/-- The segments tile the interval `[a, b)` of the original text. -/

def CoversFrom : List Seg → Nat → Nat → Prop
  | [], a, b => a = b
  | .gap s e :: rest, a, b => s = a ∧ a ≤ e ∧ CoversFrom rest e b
  | .key _ _ s e :: rest, a, b => s = a ∧ a ≤ e ∧ CoversFrom rest e b

/-- The masked quads (type, counter, interval) of the segment list, in order. -/

def segKeys : List Seg → List (String × Nat × Nat × Nat)
  | [] => []
  | .gap _ _ :: rest => segKeys rest
  | .key ty k s e :: rest => (ty, k, s, e) :: segKeys rest

/-- The category names of the PII table. -/

def piiNames : List String := pii_patterns.map (·.1)

/-- Interior of a placeholder: upper-cased type name, underscore, decimal counter. -/

def midOf (ty : String) (k : Nat) : List Char :=
  ty.data.map Char.toUpper ++ '_' :: natToDec k

/-! ## Locating spans and occurrences inside a segmented text -/

def isGapB : Seg → Bool
  | .gap _ _ => true
  | .key _ _ _ _ => false

/-- No two adjacent raw segments (mask-phase invariant shape). -/

def NoAdjGaps (segs : List Seg) : Prop :=
  List.Chain' (fun a b => ¬(isGapB a = true ∧ isGapB b = true)) segs

/-- First character of the uppercased type name. -/

def headUp (ty : String) : Char := (ty.data.map Char.toUpper).headD 'x'

/-! ## Interior exclusion: no PII pattern matches strictly inside the interior
of a placeholder left by an earlier category. -/

/-- No match of `r` lies entirely within the interior of a placeholder whose
type is in `E`. -/

def ExclInterior (E : List String) (r : RE) : Prop :=
  ∀ (t : List Char) (fuel : Nat) (p : Nat) (g : Option (Nat × Nat)) (q : Nat)
    (g' : Option (Nat × Nat)) (ty : String) (k o : Nat),
    ty ∈ E →
    (∀ z, z < (placeholderL ty k).length →
        t.get? (o + z) = (placeholderL ty k).get? z) →
    o + 1 ≤ p → q ≤ o + 1 + (midOf ty k).length → p < q →
    (q, g') ∈ mrun t fuel r p g → False

/-! ## Pure computation of one masking pass (reversed-match fold) -/

def ctrList (prev : Nat) : List RMatch → List Nat
  | [] => []
  | _ :: rest => (prev + rest.length + 1) :: ctrList prev rest

/-- The text produced by masking the sorted matches `ms` of one category,
scanning from position `p`: untouched slices alternate with placeholders whose
counters descend from `prev + ms.length` to `prev + 1`. -/

def specSplice (ty : String) (text : List Char) (prev : Nat) :
    List RMatch → Nat → List Char
  | [], p => text.drop p
  | m :: rest, p =>
      sliceL text p m.s ++ placeholderL ty (prev + rest.length + 1) ++
        specSplice ty text prev rest m.e

/-- The mapping entries appended while masking `ms` (in processing order:
rightmost match first, counters ascending from `prev + 1`). -/

def specMap (ty : String) (text : List Char) (prev : Nat) :
    List RMatch → List (List Char × List Char)
  | [] => []
  | m :: rest =>
      specMap ty text prev rest ++
        [(placeholderL ty (prev + rest.length + 1), sliceL text m.s m.e)]

/-- The masking invariant: the current text is the original with the
already-processed categories masked, and the stored mapping mirrors the key
segments exactly. -/

def MaskInv (T : List Char) (E : List String) (st : MaskerState)
    (text : List Char) : Prop :=
  ∃ segs quads,
    text = flatS T segs ∧
    CoversFrom segs 0 T.length ∧
    NoAdjGaps segs ∧
    (∀ q ∈ segKeys segs, q.1 ∈ E) ∧
    (∀ q ∈ segKeys segs, q.2.2.1 ≤ q.2.2.2 ∧ q.2.2.2 ≤ T.length) ∧
    st.masked_mapping = quads.map (fun q =>
      (placeholderL q.1 q.2.1, sliceL T q.2.2.1 q.2.2.2)) ∧
    List.Perm quads (segKeys segs) ∧
    (quads.map (fun q => (q.1, q.2.1))).Nodup ∧
    (∀ kv ∈ st.pii_counters, kv.1 ∈ E)

/-! ## Gap normalisation (merging adjacent raw intervals) -/

def mergeG : List Seg → List Seg
  | [] => []
  | .gap s e :: rest =>
      match mergeG rest with
      | .gap _ e2 :: rest2 => .gap s e2 :: rest2
      | other => .gap s e :: other
  | .key ty k s e :: rest => .key ty k s e :: mergeG rest


/-! ## Helper lemmas for evaluating the calculator on concrete rationals -/

lemma roundHalfEven_intCast (n : ℤ) : roundHalfEven (n : ℚ) = n := by
  unfold roundHalfEven
  norm_num [Int.floor_intCast]

lemma pyRound2_of_mul_eq (q : ℚ) (n : ℤ) (h : q * 100 = (n : ℚ)) :
    pyRound2 q = (n : ℚ) / 100 := by
  unfold pyRound2
  rw [h, roundHalfEven_intCast]

lemma calculate_dti_pos (g d : ℚ) (hg : 0 < g) :
    calculate_dti g d = .ok (pyRound2 (d / g * 100)) := by
  unfold calculate_dti
  rw [if_neg (not_le.mpr hg)]

lemma evaluate_application_complete (g d l : ℚ) (emp credit : String) :
    evaluate_application (completeData g d l emp credit) = evalComplete g d l emp credit := rfl

/-! ## Claims about the loan calculator -/

/-- C1: on the record (income 6000, debt 1800, loan 200000, full_time, good)
the code computes dti_ratio 30.0 but returns status "rejected" (the income
6000 is below the hard minimum MIN_INCOME = 15000), not "approved" as the
claim (and the repository's own `__main__` test named "Approved Application")
states. -/
theorem C1_code_behavior :
    (evaluate_application (completeData 6000 1800 200000 "full_time" "good")).dti_ratio
        = some 30 ∧
    (evaluate_application (completeData 6000 1800 200000 "full_time" "good")).status
        = "rejected" ∧
    "rejected" ≠ "approved" := by
  have hdti : calculate_dti 6000 1800 = .ok 30 := by
    rw [calculate_dti_pos 6000 1800 (by norm_num)]
    have h30 : pyRound2 ((1800 : ℚ) / 6000 * 100) = 30 := by
      rw [pyRound2_of_mul_eq _ 3000 (by norm_num)]; norm_num
    rw [h30]
  have hmin : (6000 : ℚ) < MIN_INCOME := by norm_num [MIN_INCOME]
  rw [evaluate_application_complete]
  unfold evalComplete
  rw [hdti]
  unfold preDecision creditStep
  simp only [if_pos hmin, if_neg (by decide : ¬ ("full_time" = "unemployed")),
    if_neg (by decide : ¬ ("good" = "poor" ∨ "good" = "very_poor"))]
  exact ⟨trivial, trivial, by decide⟩

/-- C5: with no hard disqualifier (positive income at or above the minimum,
not unemployed) and credit range neither poor nor very_poor, the status is
determined exactly by the rounded DTI ratio: approved iff dti ≤ 36,
conditional iff 36 < dti ≤ 43, rejected iff dti > 43. -/
theorem C5_dti_thresholds (g d l : ℚ) (emp credit : String)
    (hg : 0 < g) (hmin : MIN_INCOME ≤ g) (hemp : emp ≠ "unemployed")
    (hp : credit ≠ "poor") (hvp : credit ≠ "very_poor") :
    (evaluate_application (completeData g d l emp credit)).dti_ratio
        = some (pyRound2 (d / g * 100)) ∧
    ((evaluate_application (completeData g d l emp credit)).status = "approved"
        ↔ pyRound2 (d / g * 100) ≤ 36) ∧
    ((evaluate_application (completeData g d l emp credit)).status = "conditional"
        ↔ 36 < pyRound2 (d / g * 100) ∧ pyRound2 (d / g * 100) ≤ 43) ∧
    ((evaluate_application (completeData g d l emp credit)).status = "rejected"
        ↔ 43 < pyRound2 (d / g * 100)) := by
  rw [evaluate_application_complete]
  unfold evalComplete
  rw [calculate_dti_pos g d hg]
  unfold preDecision creditStep
  have hcred : ¬ (credit = "poor" ∨ credit = "very_poor") := by
    rintro (h | h) <;> [exact hp h; exact hvp h]
  simp only [if_neg (not_lt.mpr hmin), if_neg hemp, if_neg hcred]
  set dti := pyRound2 (d / g * 100) with hdti
  by_cases h36 : dti ≤ DTI_APPROVED_MAX
  · simp only [if_pos h36]
    refine ⟨trivial, ?_, ?_, ?_⟩
    · simpa [DTI_APPROVED_MAX] using h36
    · constructor
      · intro h; exact absurd h (by decide)
      · rintro ⟨h, -⟩
        exact absurd (lt_of_lt_of_le h (by simpa [DTI_APPROVED_MAX] using h36)) (lt_irrefl _)
    · constructor
      · intro h; exact absurd h (by decide)
      · intro h
        have : dti ≤ 36 := by simpa [DTI_APPROVED_MAX] using h36
        exact absurd (lt_of_le_of_lt this (by linarith : (36:ℚ) < dti)) (lt_irrefl _)
  · by_cases h43 : dti ≤ DTI_CONDITIONAL_MAX
    · simp only [if_neg h36, if_pos h43]
      have h36' : 36 < dti := by
        simpa [DTI_APPROVED_MAX] using not_le.mp h36
      refine ⟨trivial, ?_, ?_, ?_⟩
      · constructor
        · intro h; exact absurd h (by decide)
        · intro h; exact absurd (lt_of_lt_of_le h36' h) (lt_irrefl _)
      · constructor
        · intro _; exact ⟨h36', by simpa [DTI_CONDITIONAL_MAX] using h43⟩
        · intro _; trivial
      · constructor
        · intro h; exact absurd h (by decide)
        · intro h
          have : dti ≤ 43 := by simpa [DTI_CONDITIONAL_MAX] using h43
          exact absurd (lt_of_le_of_lt this h) (lt_irrefl _)
    · simp only [if_neg h36, if_neg h43]
      have h43' : 43 < dti := by
        simpa [DTI_CONDITIONAL_MAX] using not_le.mp h43
      refine ⟨trivial, ?_, ?_, ?_⟩
      · constructor
        · intro h; exact absurd h (by decide)
        · intro h; exact absurd (lt_of_lt_of_le (by linarith : (36:ℚ) < dti) h) (by linarith)
      · constructor
        · intro h; exact absurd h (by decide)
        · rintro ⟨-, h⟩; exact absurd (lt_of_le_of_lt h h43') (lt_irrefl _)
      · exact ⟨fun _ => h43', fun _ => trivial⟩

/-- Witness for C5 at a concrete record: income 20000, debt 6000, dti 30. -/
theorem C5_witness :
    (evaluate_application (completeData 20000 6000 300000 "full_time" "good")).status
      = "approved" := by
  have h := C5_dti_thresholds 20000 6000 300000 "full_time" "good"
    (by norm_num) (by norm_num [MIN_INCOME]) (by decide) (by decide) (by decide)
  have hdti : pyRound2 ((6000 : ℚ) / 20000 * 100) = 30 := by
    rw [pyRound2_of_mul_eq _ 3000 (by norm_num)]; norm_num
  exact h.2.1.mpr (by rw [hdti]; norm_num)

/-- C6: for a complete record with non-positive income, `evaluate_application`
returns (totally, with no exception escaping) status "rejected", the
ValueError message from `calculate_dti` as the reason, and a null DTI. -/
theorem C6_nonpositive_income (g d l : ℚ) (emp credit : String) (hg : g ≤ 0) :
    (evaluate_application (completeData g d l emp credit)).status = "rejected" ∧
    (evaluate_application (completeData g d l emp credit)).reason
        = "Gross monthly income must be greater than zero" ∧
    (evaluate_application (completeData g d l emp credit)).dti_ratio = none := by
  rw [evaluate_application_complete]
  unfold evalComplete calculate_dti
  rw [if_pos hg]
  exact ⟨rfl, rfl, rfl⟩

/-- Witness for C6 at income 0. -/
theorem C6_witness :
    (evaluate_application (completeData 0 500 100000 "full_time" "good")).status
        = "rejected" ∧
    (evaluate_application (completeData 0 500 100000 "full_time" "good")).reason
        = "Gross monthly income must be greater than zero" ∧
    (evaluate_application (completeData 0 500 100000 "full_time" "good")).dti_ratio
        = none :=
  C6_nonpositive_income 0 500 100000 "full_time" "good" (by norm_num)

/-- C7: for a complete record with positive income and credit range poor or
very_poor, the final status downgrades a pre-credit-step "approved" to
"conditional" and leaves "conditional"/"rejected" unchanged, and in all cases
the sub-preferred-credit reason and the credit-improvement recommendation are
appended. -/
theorem C7_credit_downgrade (g d l : ℚ) (emp credit : String)
    (hg : 0 < g) (hc : credit = "poor" ∨ credit = "very_poor") :
    (evaluate_application (completeData g d l emp credit)).status
        = (if (preDecision g emp (pyRound2 (d / g * 100))).status = "approved"
           then "conditional"
           else (preDecision g emp (pyRound2 (d / g * 100))).status) ∧
    (evaluate_application (completeData g d l emp credit)).reason
        = String.intercalate " | "
            ((preDecision g emp (pyRound2 (d / g * 100))).reasons
              ++ ["Credit score is below preferred range"]) ∧
    (evaluate_application (completeData g d l emp credit)).recommendations
        = (preDecision g emp (pyRound2 (d / g * 100))).recs
            ++ ["Work on improving credit score for better terms"] := by
  rw [evaluate_application_complete]
  unfold evalComplete
  rw [calculate_dti_pos g d hg]
  unfold creditStep
  simp only [if_pos hc]
  refine ⟨trivial, ?_, trivial⟩
  have hne : ((preDecision g emp (pyRound2 (d / g * 100))).reasons
      ++ ["Credit score is below preferred range"]).isEmpty = false := by
    rcases (preDecision g emp (pyRound2 (d / g * 100))).reasons with _ | ⟨a, t⟩ <;> rfl
  simp only [hne, Bool.false_eq_true, if_false]

/-- Witness for C7: approved-profile record (income 20000, debt 2000) with
poor credit is downgraded to conditional. -/
theorem C7_witness :
    (evaluate_application (completeData 20000 2000 300000 "full_time" "poor")).status
        = (if (preDecision 20000 "full_time" (pyRound2 ((2000 : ℚ) / 20000 * 100))).status = "approved"
           then "conditional"
           else (preDecision 20000 "full_time" (pyRound2 ((2000 : ℚ) / 20000 * 100))).status) :=
  (C7_credit_downgrade 20000 2000 300000 "full_time" "poor" (by norm_num) (Or.inl rfl)).1

/-- C10: when a hard disqualifier fires (income below the minimum or
unemployed) on a complete record with positive income, the status is
"rejected" but the human-readable `decision` field is the empty string. -/
theorem C10_hard_disqualifier_empty_decision (g d l : ℚ) (emp credit : String)
    (hg : 0 < g) (hdq : g < MIN_INCOME ∨ emp = "unemployed") :
    (evaluate_application (completeData g d l emp credit)).status = "rejected" ∧
    (evaluate_application (completeData g d l emp credit)).decision = "" := by
  rw [evaluate_application_complete]
  unfold evalComplete
  rw [calculate_dti_pos g d hg]
  unfold preDecision creditStep
  rcases hdq with hlow | hunemp
  · simp only [if_pos hlow]
    by_cases hu : emp = "unemployed" <;>
      simp only [if_pos, if_neg, hu, if_true, if_false] <;>
      by_cases hc : credit = "poor" ∨ credit = "very_poor" <;>
      simp [hc]
  · simp only [if_pos hunemp]
    by_cases hc : credit = "poor" ∨ credit = "very_poor" <;> simp [hc]

/-- Witness for C10 at the repository's own "Approved Application" test record
(income 6000 is below the 15000 minimum). -/
theorem C10_witness :
    (evaluate_application (completeData 6000 1800 200000 "full_time" "good")).status
        = "rejected" ∧
    (evaluate_application (completeData 6000 1800 200000 "full_time" "good")).decision
        = "" :=
  C10_hard_disqualifier_empty_decision 6000 1800 200000 "full_time" "good"
    (by norm_num) (Or.inl (by norm_num [MIN_INCOME]))

/-! ## Claims C2 and C3 (entity extraction) -/

lemma parseAmount_eq (l : List Char) :
    parseAmount l = (parseDigits (l.takeWhile (· ≠ '.')) : ℚ)
      + (parseDigits ((l.dropWhile (· ≠ '.')).drop 1) : ℚ)
          / (10 ^ ((l.dropWhile (· ≠ '.')).drop 1).length) := rfl

lemma incomeFromMatch_eq (low : List Char) (m : RMatch) :
    incomeFromMatch low m =
      if containsSub low "year" || containsSub low "annual"
      then (if (sliceL low m.s m.e).contains 'k'
            then parseAmount ((matchGroup1 low m).filter (· ≠ ',')) * 1000
            else parseAmount ((matchGroup1 low m).filter (· ≠ ','))) / 12
      else (if (sliceL low m.s m.e).contains 'k'
            then parseAmount ((matchGroup1 low m).filter (· ≠ ',')) * 1000
            else parseAmount ((matchGroup1 low m).filter (· ≠ ','))) := rfl

/-- C2 counterexample: on "i make 900" the matched literal (pattern 2) is
"make 900"; the amount group is "900" at positions 7-10 and position 10 is
past the end of the text, so the amount has no `k` suffix — yet the code
returns 900000 = 900 × 1000, because the matched literal contains the 'k' of
the verb "make". -/
theorem C2_counterexample :
    incomeSearch (lowerText "i make 900".data) = some ⟨2, 10, some (7, 10)⟩ ∧
    sliceL (lowerText "i make 900".data) 2 10 = "make 900".data ∧
    (lowerText "i make 900".data).get? 10 = none ∧
    extractIncome "i make 900".data = some 900000 ∧
    (900000 : ℚ) ≠ 900 := by
  have hs : incomeSearch (lowerText "i make 900".data) = some ⟨2, 10, some (7, 10)⟩ := by
    decide
  refine ⟨hs, by decide, by decide, ?_, by norm_num⟩
  show (incomeSearch (lowerText "i make 900".data)).map
      (incomeFromMatch (lowerText "i make 900".data)) = some 900000
  rw [hs]
  show some (incomeFromMatch (lowerText "i make 900".data) ⟨2, 10, some (7, 10)⟩)
      = some 900000
  congr 1
  have hy : (containsSub (lowerText "i make 900".data) "year"
      || containsSub (lowerText "i make 900".data) "annual") = false := by decide
  have hk : (sliceL (lowerText "i make 900".data) 2 10).contains 'k' = true := by decide
  have hg : (matchGroup1 (lowerText "i make 900".data) ⟨2, 10, some (7, 10)⟩).filter (· ≠ ',')
      = ['9', '0', '0'] := by decide
  rw [incomeFromMatch_eq]
  simp only [hy, hk, hg, Bool.false_eq_true, if_false, if_true]
  rw [parseAmount_eq]
  simp only [show (['9', '0', '0'] : List Char).takeWhile (· ≠ '.') = ['9', '0', '0'] from by decide,
    show ((['9', '0', '0'] : List Char).dropWhile (· ≠ '.')).drop 1 = ([] : List Char) from by decide,
    show parseDigits ['9', '0', '0'] = 900 from by decide,
    show parseDigits ([] : List Char) = 0 from by decide, List.length_nil]
  norm_num

/-- C2 amended: the parsed value is multiplied by 1000 iff the whole matched
literal contains the character 'k' anywhere (not necessarily as a suffix of
the amount — e.g. the 'k' of the verb "make" qualifies); absent a
year/annual keyword the extracted income is exactly that amount. -/
theorem C2_amended (msg : List Char) (m : RMatch)
    (hm : incomeSearch (lowerText msg) = some m)
    (hyear : containsSub (lowerText msg) "year" = false)
    (hannual : containsSub (lowerText msg) "annual" = false) :
    extractIncome msg =
      some (if (sliceL (lowerText msg) m.s m.e).contains 'k'
            then parseAmount ((matchGroup1 (lowerText msg) m).filter (· ≠ ',')) * 1000
            else parseAmount ((matchGroup1 (lowerText msg) m).filter (· ≠ ','))) := by
  show (incomeSearch (lowerText msg)).map (incomeFromMatch (lowerText msg)) = _
  rw [hm]
  show some (incomeFromMatch (lowerText msg) m) = _
  congr 1
  rw [incomeFromMatch_eq, hyear, hannual]
  simp

/-- Witness for C2 amended: "i get 500 monthly" matches income pattern 1 with
literal "500 monthly" (no 'k'), extracting 500. -/
theorem C2_amended_witness :
    incomeSearch (lowerText "i get 500 monthly".data) = some ⟨6, 17, some (6, 9)⟩ ∧
    extractIncome "i get 500 monthly".data =
      some (if (sliceL (lowerText "i get 500 monthly".data) 6 17).contains 'k'
            then parseAmount ((matchGroup1 (lowerText "i get 500 monthly".data)
                                ⟨6, 17, some (6, 9)⟩).filter (· ≠ ',')) * 1000
            else parseAmount ((matchGroup1 (lowerText "i get 500 monthly".data)
                                ⟨6, 17, some (6, 9)⟩).filter (· ≠ ','))) :=
  ⟨by decide, C2_amended "i get 500 monthly".data ⟨6, 17, some (6, 9)⟩
    (by decide) (by decide) (by decide)⟩

lemma find?_isSome_iff_any {α : Type} (p : α → Bool) (l : List α) :
    (l.find? p).isSome = l.any p := by
  induction l with
  | nil => rfl
  | cons a l ih =>
      by_cases h : p a
      · simp [List.find?_cons, h]
      · simp only [List.find?_cons, h, List.any_cons]
        simpa [h] using ih

lemma category_foldl_eq_lastMatching (low : List Char)
    (table : List (String × List String)) (acc : Option String) :
    table.foldl
      (fun acc kv =>
        match kv.2.find? (fun kw => containsSub low kw) with
        | some _ => some kv.1
        | none => acc) acc
    = (match lastMatchingCategory table low with
       | some s => some s
       | none => acc) := by
  induction table generalizing acc with
  | nil => rfl
  | cons kv rest ih =>
      rw [List.foldl_cons, ih]
      unfold lastMatchingCategory
      rw [List.reverse_cons, List.find?_append]
      rcases hrest : rest.reverse.find? (fun kv => kv.2.any fun kw => containsSub low kw) with
        _ | kv'
      · rcases hk : kv.2.find? (fun kw => containsSub low kw) with _ | kw
        · have hany : (kv.2.any fun kw => containsSub low kw) = false := by
            rw [← find?_isSome_iff_any, hk]; rfl
          simp [List.find?_cons, hrest, hany, hk]
        · have hany : (kv.2.any fun kw => containsSub low kw) = true := by
            rw [← find?_isSome_iff_any, hk]; rfl
          simp [List.find?_cons, hrest, hany]
      · simp [hrest]

/-- C3 counterexample: "i work full time and part time" contains a keyword of
the earlier category full_time and of the later category part_time; the code
stores the later category, part_time, not the first matching one in table
order as the claim states. -/
theorem C3_counterexample :
    containsSub (lowerText "i work full time and part time".data) "full time" = true ∧
    containsSub (lowerText "i work full time and part time".data) "part time" = true ∧
    extractEmployment "i work full time and part time".data = some "part_time" ∧
    "part_time" ≠ "full_time" :=
  ⟨by decide, by decide, by decide, by decide⟩

/-- C3 amended: within one category a keyword hit stops scanning that
category's remaining keywords, but every category of the table is still
scanned and each matching category overwrites the stored value, so the LAST
matching category in table order wins (for both the employment and the
credit-score tables). -/
theorem C3_amended (msg : List Char) :
    extractEmployment msg = lastMatchingCategory employment_keywords (lowerText msg) ∧
    extractCreditScore msg = lastMatchingCategory credit_keywords (lowerText msg) := by
  constructor
  · simp only [extractEmployment]
    rw [category_foldl_eq_lastMatching]
    rcases lastMatchingCategory employment_keywords (lowerText msg) with _ | s <;> rfl
  · simp only [extractCreditScore]
    rw [category_foldl_eq_lastMatching]
    rcases lastMatchingCategory credit_keywords (lowerText msg) with _ | s <;> rfl

/-! ## Claims C4 and C8 (PII masker: detection text and replacement order) -/

lemma searchFromAux_start (t : List Char) (r : RE) :
    ∀ steps p m, searchFromAux t r p steps = some m → p ≤ m.s := by
  intro steps
  induction steps with
  | zero => intro p m h; exact absurd h (by simp [searchFromAux])
  | succ n ih =>
      intro p m h
      unfold searchFromAux at h
      rcases hm : mrun t (fuelFor t) r p none with _ | ⟨⟨e, g⟩, rest⟩
      · rw [hm] at h
        by_cases hp : p < t.length
        · rw [if_pos hp] at h
          exact le_trans (Nat.le_succ p) (ih (p + 1) m h)
        · rw [if_neg hp] at h; cases h
      · rw [hm] at h
        cases h
        exact le_refl _

lemma searchFrom_start (t : List Char) (r : RE) (p : Nat) (m : RMatch)
    (h : searchFrom t r p = some m) : p ≤ m.s :=
  searchFromAux_start t r _ p m h

lemma finditerAux_lb (t : List Char) (r : RE) :
    ∀ steps p m, m ∈ finditerAux t r p steps → p ≤ m.s := by
  intro steps
  induction steps with
  | zero => intro p m h; exact absurd h (by simp [finditerAux])
  | succ n ih =>
      intro p m h
      unfold finditerAux at h
      rcases hs : searchFrom t r p with _ | m0
      · rw [hs] at h; exact absurd h (List.not_mem_nil m)
      · rw [hs] at h
        rcases List.mem_cons.mp h with rfl | h
        · exact searchFrom_start t r p m hs
        · have h1 := ih _ m h
          have h0 := searchFrom_start t r p m0 hs
          by_cases he : m0.s < m0.e
          · rw [if_pos he] at h1; omega
          · rw [if_neg he] at h1; omega

lemma finditerAux_chain (t : List Char) (r : RE) :
    ∀ steps p, List.Chain' (fun a b => a.s < b.s) (finditerAux t r p steps) := by
  intro steps
  induction steps with
  | zero => intro p; simp [finditerAux]
  | succ n ih =>
      intro p
      unfold finditerAux
      rcases hs : searchFrom t r p with _ | m0
      · exact List.chain'_nil
      · refine List.chain'_cons'.mpr ⟨?_, ih _⟩
        intro y hy
        have hmem : y ∈ finditerAux t r (if m0.s < m0.e then m0.e else m0.s + 1) n :=
          List.mem_of_mem_head? hy
        have := finditerAux_lb t r n _ y hmem
        by_cases he : m0.s < m0.e
        · rw [if_pos he] at this; omega
        · rw [if_neg he] at this; omega

/-- Matches returned by `finditer` have strictly increasing start offsets, so
iterating over the reversed list processes them right-to-left. -/
lemma finditer_chain (t : List Char) (r : RE) :
    List.Chain' (fun a b => a.s < b.s) (finditer t r) :=
  finditerAux_chain t r _ 0

lemma setA_of_not_mem {κ β : Type} [DecidableEq κ] (l : List (κ × β)) (k : κ) (v : β)
    (h : k ∉ l.map (·.1)) : setA l k v = l ++ [(k, v)] := by
  induction l with
  | nil => rfl
  | cons kv rest ih =>
      simp only [List.map_cons, List.mem_cons] at h
      push_neg at h
      unfold setA
      rw [if_neg (fun hk => h.1 hk.symm), ih h.2]
      rfl

lemma lookupA_setA_self {κ β : Type} [DecidableEq κ] (l : List (κ × β)) (k : κ) (v : β) :
    lookupA (setA l k v) k = some v := by
  induction l with
  | nil => simp [setA, lookupA, List.find?_cons]
  | cons kv rest ih =>
      unfold setA
      by_cases hk : kv.1 = k
      · rw [if_pos hk]
        simp [lookupA, List.find?_cons]
      · rw [if_neg hk]
        show lookupA (kv :: setA rest k v) k = some v
        unfold lookupA
        rw [List.find?_cons_of_neg _ (by simpa using hk)]
        exact ih

lemma digitChar_inj (a b : Nat) (ha : a < 10) (hb : b < 10)
    (h : Char.ofNat (48 + a) = Char.ofNat (48 + b)) : a = b := by
  revert h
  interval_cases a <;> interval_cases b <;> decide

lemma map_digitChar_inj :
    ∀ (l1 l2 : List Nat), (∀ d ∈ l1, d < 10) → (∀ d ∈ l2, d < 10) →
      l1.map (fun d => Char.ofNat (48 + d)) = l2.map (fun d => Char.ofNat (48 + d)) →
      l1 = l2 := by
  intro l1
  induction l1 with
  | nil => intro l2 _ _ h; cases l2 <;> simp_all
  | cons a l ih =>
      intro l2 h1 h2 h
      cases l2 with
      | nil => simp_all
      | cons b l2 =>
          simp only [List.map_cons, List.cons.injEq] at h
          have hab : a = b :=
            digitChar_inj a b (h1 a (List.mem_cons_self a l)) (h2 b (List.mem_cons_self b l2)) h.1
          rw [hab, ih l2 (fun d hd => h1 d (List.mem_cons_of_mem _ hd))
            (fun d hd => h2 d (List.mem_cons_of_mem _ hd)) h.2]

lemma decDigitsAux_eq (f : Nat) :
    ∀ n, n ≤ f → decDigitsAux f n = (Nat.digits 10 n).map fun d => Char.ofNat (48 + d) := by
  induction f with
  | zero =>
      intro n hn
      interval_cases n
      simp [decDigitsAux]
  | succ f ih =>
      intro n hn
      cases n with
      | zero => simp [decDigitsAux]
      | succ n =>
          show Char.ofNat (48 + (n + 1) % 10) :: decDigitsAux f ((n + 1) / 10) = _
          rw [Nat.digits_def' (by norm_num : 1 < 10) (Nat.succ_pos n), List.map_cons,
            ih ((n + 1) / 10) (by omega)]

lemma natToDec_eq (n : Nat) :
    natToDec n = if n = 0 then ['0']
                 else ((Nat.digits 10 n).map fun d => Char.ofNat (48 + d)).reverse := by
  unfold natToDec
  by_cases h : n = 0
  · rw [if_pos h, if_pos h]
  · rw [if_neg h, if_neg h, decDigitsAux_eq n n (le_refl n)]

lemma natToDec_inj (a b : Nat) (h : natToDec a = natToDec b) : a = b := by
  rw [natToDec_eq, natToDec_eq] at h
  by_cases ha : a = 0 <;> by_cases hb : b = 0
  · rw [ha, hb]
  · exfalso
    rw [if_pos ha, if_neg hb] at h
    have hdig : Nat.digits 10 b = [0] := by
      have hrev := congrArg List.reverse h
      rw [List.reverse_reverse] at hrev
      have : (Nat.digits 10 b).map (fun d => Char.ofNat (48 + d)) = ['0'] := by
        rw [← hrev]; rfl
      have := map_digitChar_inj (Nat.digits 10 b) [0]
        (fun d hd => Nat.digits_lt_base (by norm_num) hd) (by simp) (by simpa using this)
      simpa using this
    have := Nat.ofDigits_digits 10 b
    rw [hdig] at this
    simp [Nat.ofDigits] at this
    exact hb this.symm
  · exfalso
    rw [if_neg ha, if_pos hb] at h
    have hdig : Nat.digits 10 a = [0] := by
      have hrev := congrArg List.reverse h
      rw [List.reverse_reverse] at hrev
      have : (Nat.digits 10 a).map (fun d => Char.ofNat (48 + d)) = ['0'] := by
        rw [hrev]; rfl
      have := map_digitChar_inj (Nat.digits 10 a) [0]
        (fun d hd => Nat.digits_lt_base (by norm_num) hd) (by simp) (by simpa using this)
      simpa using this
    have := Nat.ofDigits_digits 10 a
    rw [hdig] at this
    simp [Nat.ofDigits] at this
    exact ha this.symm
  · rw [if_neg ha, if_neg hb] at h
    have hmap := List.reverse_injective h
    have hdig := map_digitChar_inj (Nat.digits 10 a) (Nat.digits 10 b)
      (fun d hd => Nat.digits_lt_base (by norm_num) hd)
      (fun d hd => Nat.digits_lt_base (by norm_num) hd) hmap
    have h1 := Nat.ofDigits_digits 10 a
    have h2 := Nat.ofDigits_digits 10 b
    rw [hdig] at h1
    rw [h2] at h1
    exact h1.symm

lemma placeholderL_inj (ty : String) (a b : Nat)
    (h : placeholderL ty a = placeholderL ty b) : a = b := by
  unfold placeholderL at h
  have h1 := List.cons.inj h
  have h2 := List.append_cancel_left h1.2
  have h3 := (List.cons.inj h2).2
  have h4 := List.append_cancel_right h3
  exact natToDec_inj a b h4

lemma maskMatch_eq (ty : String) (base : List Char) (st : MaskerState)
    (text : List Char) (cnt : Nat) (m : RMatch) :
    maskMatch ty base (st, text, cnt) m =
      ({ pii_counters := setA st.pii_counters ty ((lookupA st.pii_counters ty).getD 0 + 1),
         masked_mapping := setA st.masked_mapping
           (placeholderL ty ((lookupA st.pii_counters ty).getD 0 + 1))
           (sliceL base m.s m.e) },
       text.take m.s ++ placeholderL ty ((lookupA st.pii_counters ty).getD 0 + 1)
         ++ text.drop m.e, cnt + 1) := rfl

lemma maskFold_mapping (ty : String) (base : List Char) :
    ∀ (L : List RMatch) (st : MaskerState) (text : List Char) (cnt k : Nat),
    (lookupA st.pii_counters ty).getD 0 = k →
    (∀ n, k < n → placeholderL ty n ∉ st.masked_mapping.map (·.1)) →
    (L.foldl (maskMatch ty base) (st, text, cnt)).1.masked_mapping
      = st.masked_mapping ++ (L.enumFrom k).map
          (fun p => (placeholderL ty (p.1 + 1), sliceL base p.2.s p.2.e)) := by
  intro L
  induction L with
  | nil => intro st text cnt k _ _; simp [List.enumFrom]
  | cons m L ih =>
      intro st text cnt k hk hfresh
      rw [List.foldl_cons, maskMatch_eq, hk,
        setA_of_not_mem st.masked_mapping _ _ (hfresh (k + 1) (Nat.lt_succ_self k))]
      rw [ih _ _ _ (k + 1) (by rw [lookupA_setA_self]; rfl) ?_]
      · rw [List.enumFrom_cons, List.map_cons, List.append_assoc]
        rfl
      · intro n hn hmem
        simp only [List.map_append, List.mem_append] at hmem
        rcases hmem with hmem | hmem
        · exact hfresh n (by omega) hmem
        · simp only [List.map_cons, List.map_nil, List.mem_singleton] at hmem
          have := placeholderL_inj ty n (k + 1) hmem
          omega

/-- C8: within one mask_text call each category's matches are processed from
the reversed match list — the match list itself is strictly increasing in
start offset, so processing order is right-to-left — and the per-category
counter starts at 1 and increments in that order: the i-th mapping entry
appended (0-based) is placeholder index i+1 paired with the (i+1)-th match
from the right; in particular the rightmost occurrence gets index 1 and the
leftmost the highest index. -/
theorem C8_right_to_left (ty : String) (r : RE) (st : MaskerState) (text : List Char)
    (hc : lookupA st.pii_counters ty = none)
    (hkeys : ∀ n, placeholderL ty n ∉ st.masked_mapping.map (·.1)) :
    List.Chain' (fun a b => a.s < b.s) (finditer text r) ∧
    (maskCategory ty r st text).1.masked_mapping
      = st.masked_mapping ++ (finditer text r).reverse.enum.map
          (fun p => (placeholderL ty (p.1 + 1), sliceL text p.2.s p.2.e)) := by
  refine ⟨finditer_chain text r, ?_⟩
  unfold maskCategory
  rw [maskFold_mapping ty text _ st text 0 0 (by rw [hc]; rfl)
    (fun n _ => hkeys n)]
  rfl

/-- Witness for C8: two SSNs; the rightmost becomes SSN_1, the leftmost SSN_2. -/
theorem C8_witness :
    List.Chain' (fun a b => a.s < b.s)
      (finditer "111-22-3333 and 444-55-6666".data ssnPattern) ∧
    (maskCategory "ssn" ssnPattern initMasker
        "111-22-3333 and 444-55-6666".data).1.masked_mapping
      = initMasker.masked_mapping ++
        (finditer "111-22-3333 and 444-55-6666".data ssnPattern).reverse.enum.map
          (fun p => (placeholderL "ssn" (p.1 + 1),
                     sliceL "111-22-3333 and 444-55-6666".data p.2.s p.2.e)) :=
  C8_right_to_left "ssn" ssnPattern initMasker "111-22-3333 and 444-55-6666".data
    rfl (fun n => by simp [initMasker])

/-- C4 counterexample: on "123456789@example.com" the email pattern matches
the ORIGINAL text, but the code scans each category against the running
masked text: after the ssn category rewrites the digits to `<SSN_1>`, the
email pattern no longer matches, so `pii_detected` is `["ssn"]` only — the
detected set is NOT the set of categories matching the original text. -/
theorem C4_counterexample :
    (reSearch "123456789@example.com".data emailPattern).isSome = true ∧
    (mask_text initMasker "123456789@example.com".data).2.1.pii_detected = ["ssn"] ∧
    "email" ∉ (mask_text initMasker "123456789@example.com".data).2.1.pii_detected ∧
    (mask_text initMasker "123456789@example.com".data).1 = "<SSN_1>@example.com".data :=
  ⟨by decide, by decide, by decide, by decide⟩

lemma runCategories_cons (st : MaskerState) (t : List Char) (ty : String) (r : RE)
    (rest : List (String × RE)) :
    runCategories st t ((ty, r) :: rest)
      = if (finditer t r).isEmpty then runCategories st t rest
        else ty :: runCategories (maskCategory ty r st t).1
            (maskCategory ty r st t).2.1 rest := rfl

lemma mask_text_pii_detected (st0 : MaskerState) (text : List Char) :
    (mask_text st0 text).2.1.pii_detected = (maskFoldResult st0 text).2.2.1 := by
  simp only [mask_text]

lemma maskSteps_detected :
    ∀ (cats : List (String × RE)) (st : MaskerState) (text : List Char)
      (det : List String) (cnt : Nat),
    (cats.foldl maskStep (st, text, det, cnt)).2.2.1 = det ++ runCategories st text cats := by
  intro cats
  induction cats with
  | nil => intro st text det cnt; simp [runCategories]
  | cons pr rest ih =>
      intro st text det cnt
      obtain ⟨ty, r⟩ := pr
      rw [List.foldl_cons, runCategories_cons]
      by_cases h : (finditer text r).isEmpty
      · have hstep : maskStep (st, text, det, cnt) (ty, r) = (st, text, det, cnt) := by
          unfold maskStep
          rw [if_pos h]
        rw [hstep, if_pos h, ih]
      · have hstep : maskStep (st, text, det, cnt) (ty, r)
            = ((maskCategory ty r st text).1, (maskCategory ty r st text).2.1,
               det ++ [ty], cnt + (maskCategory ty r st text).2.2) := by
          unfold maskStep
          rw [if_neg h]
        rw [hstep, if_neg h, ih, List.append_assoc]
        rfl

/-- C4 amended: each category's pattern is matched against the RUNNING masked
text (the text as already rewritten by the categories before it in table
order), not against the original input; `pii_detected` lists exactly the
categories whose pattern matches that intermediate text, in table order. -/
theorem C4_amended (st0 : MaskerState) (text : List Char) :
    (mask_text st0 text).2.1.pii_detected
      = runCategories { st0 with pii_counters := [] } text pii_patterns := by
  rw [mask_text_pii_detected]
  unfold maskFoldResult
  rw [maskSteps_detected]
  rfl

lemma mem_singleton_state {q p : Nat} {g' g : Option (Nat × Nat)}
    (h : (q, g') ∈ ([(p, g)] : List (Nat × Option (Nat × Nat)))) : q = p ∧ g' = g := by
  simp at h
  exact h

lemma mrun_le (t : List Char) :
    ∀ fuel r p g q g', (q, g') ∈ mrun t fuel r p g → p ≤ q := by
  intro fuel
  induction fuel with
  | zero => intro r p g q g' h; exact absurd h (by simp [mrun])
  | succ f ih =>
      intro r p g q g' h
      cases r with
      | eps =>
          obtain ⟨rfl, rfl⟩ := mem_singleton_state (by simpa [mrun] using h)
          omega
      | wordB =>
          simp only [mrun] at h
          split at h
          · obtain ⟨rfl, rfl⟩ := mem_singleton_state h
            omega
          · simp at h
      | cls cf =>
          simp only [mrun] at h
          split at h
          · split at h
            · obtain ⟨rfl, rfl⟩ := mem_singleton_state h
              omega
            · simp at h
          · simp at h
      | seq a b =>
          simp only [mrun, List.mem_flatMap] at h
          obtain ⟨s, hs, hb⟩ := h
          exact le_trans (ih a p g s.1 s.2 hs) (ih b s.1 s.2 q g' hb)
      | alt a b =>
          simp only [mrun, List.mem_append] at h
          rcases h with h | h
          · exact ih a p g q g' h
          · exact ih b p g q g' h
      | group a =>
          simp only [mrun, List.mem_map] at h
          obtain ⟨s, hs, he⟩ := h
          have hle := ih a p g s.1 s.2 hs
          injection he with h1 h2
          omega
      | rep a mn mx =>
          simp only [mrun] at h
          cases mn with
          | succ m =>
              simp only [List.mem_flatMap] at h
              obtain ⟨s, hs, hr⟩ := h
              exact le_trans (ih a p g s.1 s.2 hs) (ih _ s.1 s.2 q g' hr)
          | zero =>
              have hempty : (q, g') ∈ ([(p, g)] : List (Nat × Option (Nat × Nat))) →
                  p ≤ q := by
                intro hh
                obtain ⟨rfl, rfl⟩ := mem_singleton_state hh
                omega
              have hprog : ∀ L, (q, g') ∈ ((mrun t f a p g).flatMap fun s =>
                    if p < s.1 then mrun t f (.rep a 0 L) s.1 s.2 else []) → p ≤ q := by
                intro L hh
                simp only [List.mem_flatMap] at hh
                obtain ⟨s, hs, hr⟩ := hh
                split at hr
                · exact le_trans (ih a p g s.1 s.2 hs) (ih _ s.1 s.2 q g' hr)
                · simp at hr
              rcases hmx : mx with _ | n <;> rw [hmx] at h
              · rcases List.mem_append.mp h with h | h
                · exact hprog _ h
                · exact hempty h
              · cases n with
                | zero => exact hempty h
                | succ n' =>
                    rcases List.mem_append.mp h with h | h
                    · exact hprog _ h
                    · exact hempty h

lemma mrun_ub (t : List Char) :
    ∀ fuel r p g q g', p ≤ t.length → (q, g') ∈ mrun t fuel r p g → q ≤ t.length := by
  intro fuel
  induction fuel with
  | zero => intro r p g q g' _ h; exact absurd h (by simp [mrun])
  | succ f ih =>
      intro r p g q g' hp h
      cases r with
      | eps =>
          obtain ⟨rfl, rfl⟩ := mem_singleton_state (by simpa [mrun] using h)
          exact hp
      | wordB =>
          simp only [mrun] at h
          split at h
          · obtain ⟨rfl, rfl⟩ := mem_singleton_state h
            exact hp
          · simp at h
      | cls cf =>
          simp only [mrun] at h
          split at h
          next c hc =>
            split at h
            · obtain ⟨rfl, rfl⟩ := mem_singleton_state h
              have hlt : p < t.length := by
                by_contra hge
                rw [List.get?_eq_none.mpr (by omega)] at hc
                cases hc
              omega
            · simp at h
          next hc => simp at h
      | seq a b =>
          simp only [mrun, List.mem_flatMap] at h
          obtain ⟨s, hs, hb⟩ := h
          exact ih b s.1 s.2 q g' (ih a p g s.1 s.2 hp hs) hb
      | alt a b =>
          simp only [mrun, List.mem_append] at h
          rcases h with h | h
          · exact ih a p g q g' hp h
          · exact ih b p g q g' hp h
      | group a =>
          simp only [mrun, List.mem_map] at h
          obtain ⟨s, hs, he⟩ := h
          have hub := ih a p g s.1 s.2 hp hs
          injection he with h1 h2
          omega
      | rep a mn mx =>
          simp only [mrun] at h
          cases mn with
          | succ m =>
              simp only [List.mem_flatMap] at h
              obtain ⟨s, hs, hr⟩ := h
              exact ih _ s.1 s.2 q g' (ih a p g s.1 s.2 hp hs) hr
          | zero =>
              have hempty : (q, g') ∈ ([(p, g)] : List (Nat × Option (Nat × Nat))) →
                  q ≤ t.length := by
                intro hh
                obtain ⟨rfl, rfl⟩ := mem_singleton_state hh
                exact hp
              have hprog : ∀ L, (q, g') ∈ ((mrun t f a p g).flatMap fun s =>
                    if p < s.1 then mrun t f (.rep a 0 L) s.1 s.2 else []) →
                  q ≤ t.length := by
                intro L hh
                simp only [List.mem_flatMap] at hh
                obtain ⟨s, hs, hr⟩ := hh
                split at hr
                · exact ih _ s.1 s.2 q g' (ih a p g s.1 s.2 hp hs) hr
                · simp at hr
              rcases hmx : mx with _ | n <;> rw [hmx] at h
              · rcases List.mem_append.mp h with h | h
                · exact hprog _ h
                · exact hempty h
              · cases n with
                | zero => exact hempty h
                | succ n' =>
                    rcases List.mem_append.mp h with h | h
                    · exact hprog _ h
                    · exact hempty h

lemma mrun_chars (t : List Char) (P : Char → Bool) :
    ∀ fuel r p g q g', ClsOK P r → (q, g') ∈ mrun t fuel r p g →
      ∀ i, p ≤ i → i < q → ∃ c, t.get? i = some c ∧ P c = true := by
  intro fuel
  induction fuel with
  | zero => intro r p g q g' _ h; exact absurd h (by simp [mrun])
  | succ f ih =>
      intro r p g q g' hok h i hpi hiq
      cases r with
      | eps =>
          obtain ⟨rfl, rfl⟩ := mem_singleton_state (by simpa [mrun] using h)
          omega
      | wordB =>
          simp only [mrun] at h
          split at h
          · obtain ⟨rfl, rfl⟩ := mem_singleton_state h
            omega
          · simp at h
      | cls cf =>
          simp only [mrun] at h
          split at h
          next c hc =>
            split at h
            next hcf =>
              obtain ⟨rfl, rfl⟩ := mem_singleton_state h
              have : i = p := by omega
              subst this
              exact ⟨c, hc, hok c hcf⟩
            next hcf => simp at h
          next hc => simp at h
      | seq a b =>
          simp only [mrun, List.mem_flatMap] at h
          obtain ⟨s, hs, hb⟩ := h
          by_cases hsp : i < s.1
          · exact ih a p g s.1 s.2 hok.1 hs i hpi hsp
          · exact ih b s.1 s.2 q g' hok.2 hb i (by omega) hiq
      | alt a b =>
          simp only [mrun, List.mem_append] at h
          rcases h with h | h
          · exact ih a p g q g' hok.1 h i hpi hiq
          · exact ih b p g q g' hok.2 h i hpi hiq
      | group a =>
          simp only [mrun, List.mem_map] at h
          obtain ⟨s, hs, he⟩ := h
          injection he with h1 h2
          subst h1
          exact ih a p g s.1 s.2 hok hs i hpi hiq
      | rep a mn mx =>
          simp only [mrun] at h
          cases mn with
          | succ m =>
              simp only [List.mem_flatMap] at h
              obtain ⟨s, hs, hr⟩ := h
              by_cases hsp : i < s.1
              · exact ih a p g s.1 s.2 hok hs i hpi hsp
              · exact ih (.rep a m (mx.map (· - 1))) s.1 s.2 q g' hok hr i (by omega) hiq
          | zero =>
              have hempty : (q, g') ∈ ([(p, g)] : List (Nat × Option (Nat × Nat))) →
                  ∃ c, t.get? i = some c ∧ P c = true := by
                intro hh
                obtain ⟨rfl, rfl⟩ := mem_singleton_state hh
                omega
              have hprog : ∀ L, (q, g') ∈ ((mrun t f a p g).flatMap fun s =>
                    if p < s.1 then mrun t f (.rep a 0 L) s.1 s.2 else []) →
                  ∃ c, t.get? i = some c ∧ P c = true := by
                intro L hh
                simp only [List.mem_flatMap] at hh
                obtain ⟨s, hs, hr⟩ := hh
                split at hr
                · by_cases hsp : i < s.1
                  · exact ih a p g s.1 s.2 hok hs i hpi hsp
                  · exact ih (.rep a 0 L) s.1 s.2 q g' hok hr i (by omega) hiq
                · simp at hr
              rcases hmx : mx with _ | n <;> rw [hmx] at h
              · rcases List.mem_append.mp h with h | h
                · exact hprog _ h
                · exact hempty h
              · cases n with
                | zero => exact hempty h
                | succ n' =>
                    rcases List.mem_append.mp h with h | h
                    · exact hprog _ h
                    · exact hempty h

lemma mrun_nullable (t : List Char) :
    ∀ fuel r p g g', (p, g') ∈ mrun t fuel r p g → nullableRE r = true := by
  intro fuel
  induction fuel with
  | zero => intro r p g g' h; exact absurd h (by simp [mrun])
  | succ f ih =>
      intro r p g g' h
      cases r with
      | eps => rfl
      | wordB => rfl
      | cls cf =>
          simp only [mrun] at h
          split at h
          next c hc =>
            split at h
            · obtain ⟨h1, _⟩ := mem_singleton_state h
              omega
            · simp at h
          next hc => simp at h
      | seq a b =>
          simp only [mrun, List.mem_flatMap] at h
          obtain ⟨⟨s1, s2⟩, hs, hb⟩ := h
          have h1 := mrun_le t f a p g s1 s2 hs
          have h2 := mrun_le t f b s1 s2 p g' hb
          have hsp : s1 = p := by omega
          subst hsp
          show (nullableRE a && nullableRE b) = true
          rw [Bool.and_eq_true]
          exact ⟨ih a s1 g s2 hs, ih b s1 s2 g' hb⟩
      | alt a b =>
          simp only [mrun, List.mem_append] at h
          show (nullableRE a || nullableRE b) = true
          rw [Bool.or_eq_true]
          rcases h with h | h
          · exact Or.inl (ih a p g g' h)
          · exact Or.inr (ih b p g g' h)
      | group a =>
          simp only [mrun, List.mem_map] at h
          obtain ⟨⟨s1, s2⟩, hs, he⟩ := h
          injection he with h1 h2
          subst h1
          exact ih a s1 g s2 hs
      | rep a mn mx =>
          simp only [mrun] at h
          cases mn with
          | succ m =>
              simp only [List.mem_flatMap] at h
              obtain ⟨⟨s1, s2⟩, hs, hr⟩ := h
              have h1 := mrun_le t f a p g s1 s2 hs
              have h2 := mrun_le t f _ s1 s2 p g' hr
              have hsp : s1 = p := by omega
              subst hsp
              show ((m + 1 == 0) || nullableRE a) = true
              rw [Bool.or_eq_true]
              exact Or.inr (ih a s1 g s2 hs)
          | zero => rfl

lemma mrun_first (t : List Char) (Q : Char → Bool) :
    ∀ fuel r p g q g', FirstOK Q r → (q, g') ∈ mrun t fuel r p g → p < q →
      ∃ c, t.get? p = some c ∧ Q c = true := by
  intro fuel
  induction fuel with
  | zero => intro r p g q g' _ h; exact absurd h (by simp [mrun])
  | succ f ih =>
      intro r p g q g' hok h hpq
      cases r with
      | eps =>
          obtain ⟨rfl, rfl⟩ := mem_singleton_state (by simpa [mrun] using h)
          omega
      | wordB =>
          simp only [mrun] at h
          split at h
          · obtain ⟨rfl, rfl⟩ := mem_singleton_state h
            omega
          · simp at h
      | cls cf =>
          simp only [mrun] at h
          split at h
          next c hc =>
            split at h
            next hcf =>
              obtain ⟨rfl, rfl⟩ := mem_singleton_state h
              exact ⟨c, hc, hok c hcf⟩
            next hcf => simp at h
          next hc => simp at h
      | seq a b =>
          simp only [mrun, List.mem_flatMap] at h
          obtain ⟨⟨s1, s2⟩, hs, hb⟩ := h
          have h1 := mrun_le t f a p g s1 s2 hs
          by_cases hsp : p < s1
          · exact ih a p g s1 s2 hok.1 hs hsp
          · have hsp' : s1 = p := by omega
            subst hsp'
            have hnull := mrun_nullable t f a s1 g s2 hs
            exact ih b s1 s2 q g' (hok.2 hnull) hb hpq
      | alt a b =>
          simp only [mrun, List.mem_append] at h
          rcases h with h | h
          · exact ih a p g q g' hok.1 h hpq
          · exact ih b p g q g' hok.2 h hpq
      | group a =>
          simp only [mrun, List.mem_map] at h
          obtain ⟨s, hs, he⟩ := h
          injection he with h1 h2
          subst h1
          exact ih a p g s.1 s.2 hok hs hpq
      | rep a mn mx =>
          simp only [mrun] at h
          cases mn with
          | succ m =>
              simp only [List.mem_flatMap] at h
              obtain ⟨⟨s1, s2⟩, hs, hr⟩ := h
              have h1 := mrun_le t f a p g s1 s2 hs
              by_cases hsp : p < s1
              · exact ih a p g s1 s2 hok hs hsp
              · have hsp' : s1 = p := by omega
                subst hsp'
                exact ih (.rep a m (mx.map (· - 1))) s1 s2 q g' hok hr hpq
          | zero =>
              have hempty : (q, g') ∈ ([(p, g)] : List (Nat × Option (Nat × Nat))) →
                  ∃ c, t.get? p = some c ∧ Q c = true := by
                intro hh
                obtain ⟨rfl, rfl⟩ := mem_singleton_state hh
                omega
              have hprog : ∀ L, (q, g') ∈ ((mrun t f a p g).flatMap fun s =>
                    if p < s.1 then mrun t f (.rep a 0 L) s.1 s.2 else []) →
                  ∃ c, t.get? p = some c ∧ Q c = true := by
                intro L hh
                simp only [List.mem_flatMap] at hh
                obtain ⟨s, hs, hr⟩ := hh
                split at hr
                next hps => exact ih a p g s.1 s.2 hok hs hps
                next hps => simp at hr
              rcases hmx : mx with _ | n <;> rw [hmx] at h
              · rcases List.mem_append.mp h with h | h
                · exact hprog _ h
                · exact hempty h
              · cases n with
                | zero => exact hempty h
                | succ n' =>
                    rcases List.mem_append.mp h with h | h
                    · exact hprog _ h
                    · exact hempty h

lemma mrun_must (t : List Char) (Q : Char → Bool) :
    ∀ fuel r p g q g', MustSat Q r → (q, g') ∈ mrun t fuel r p g →
      ∃ i c, p ≤ i ∧ i < q ∧ t.get? i = some c ∧ Q c = true := by
  intro fuel
  induction fuel with
  | zero => intro r p g q g' _ h; exact absurd h (by simp [mrun])
  | succ f ih =>
      intro r p g q g' hok h
      cases r with
      | eps => exact absurd hok (by simp [MustSat])
      | wordB => exact absurd hok (by simp [MustSat])
      | cls cf =>
          simp only [mrun] at h
          split at h
          next c hc =>
            split at h
            next hcf =>
              obtain ⟨rfl, rfl⟩ := mem_singleton_state h
              exact ⟨p, c, le_refl p, by omega, hc, hok c hcf⟩
            next hcf => simp at h
          next hc => simp at h
      | seq a b =>
          simp only [mrun, List.mem_flatMap] at h
          obtain ⟨s, hs, hb⟩ := h
          have h1 := mrun_le t f a p g s.1 s.2 hs
          have h2 := mrun_le t f b s.1 s.2 q g' hb
          rcases hok with hok | hok
          · obtain ⟨i, c, hi1, hi2, hi3, hi4⟩ := ih a p g s.1 s.2 hok hs
            exact ⟨i, c, hi1, by omega, hi3, hi4⟩
          · obtain ⟨i, c, hi1, hi2, hi3, hi4⟩ := ih b s.1 s.2 q g' hok hb
            exact ⟨i, c, by omega, hi2, hi3, hi4⟩
      | alt a b =>
          simp only [mrun, List.mem_append] at h
          rcases h with h | h
          · exact ih a p g q g' hok.1 h
          · exact ih b p g q g' hok.2 h
      | group a =>
          simp only [mrun, List.mem_map] at h
          obtain ⟨s, hs, he⟩ := h
          injection he with h1 h2
          subst h1
          exact ih a p g s.1 s.2 hok hs
      | rep a mn mx =>
          simp only [mrun] at h
          obtain ⟨hmin, hok⟩ := hok
          cases mn with
          | succ m =>
              simp only [List.mem_flatMap] at h
              obtain ⟨s, hs, hr⟩ := h
              have h2 := mrun_le t f _ s.1 s.2 q g' hr
              obtain ⟨i, c, hi1, hi2, hi3, hi4⟩ := ih a p g s.1 s.2 hok hs
              exact ⟨i, c, hi1, by omega, hi3, hi4⟩
          | zero => omega

lemma mrun_seq_wordB (t : List Char) (r : RE) :
    ∀ fuel p g q g', (q, g') ∈ mrun t fuel (.seq .wordB r) p g →
      boundaryAt t p = true ∧ ∃ f', (q, g') ∈ mrun t f' r p g := by
  intro fuel
  cases fuel with
  | zero => intro p g q g' h; exact absurd h (by simp [mrun])
  | succ f =>
      intro p g q g' h
      simp only [mrun, List.mem_flatMap] at h
      obtain ⟨s, hs, hr⟩ := h
      cases f with
      | zero => exact absurd hs (by simp [mrun])
      | succ f' =>
          simp only [mrun] at hs
          split at hs
          next hb =>
            obtain ⟨h1, h2⟩ := mem_singleton_state hs
            rw [h1, h2] at hr
            exact ⟨hb, _, hr⟩
          next hb => simp at hs

lemma mrun_ichars (t : List Char) :
    ∀ (cs : List Char) fuel p g q g',
      (q, g') ∈ mrun t fuel (cs.foldr (fun c r => .seq (ichrRE c) r) .eps) p g →
      q = p + cs.length ∧
        ∀ i, (hi : i < cs.length) → ∃ c, t.get? (p + i) = some c ∧
          c.toLower = (cs.get ⟨i, hi⟩).toLower := by
  intro cs
  induction cs with
  | nil =>
      intro fuel p g q g' h
      cases fuel with
      | zero => exact absurd h (by simp [mrun])
      | succ f =>
          obtain ⟨rfl, rfl⟩ := mem_singleton_state (by simpa [mrun] using h)
          exact ⟨by simp, fun i hi => absurd hi (by simp)⟩
  | cons ch cs ih =>
      intro fuel p g q g' h
      cases fuel with
      | zero => exact absurd h (by simp [mrun])
      | succ f =>
          simp only [List.foldr_cons, mrun, List.mem_flatMap] at h
          obtain ⟨s, hs, hr⟩ := h
          cases f with
          | zero => exact absurd hs (by simp [mrun])
          | succ f' =>
              simp only [mrun, ichrRE] at hs
              split at hs
              next c hc =>
                split at hs
                next hcf =>
                  obtain ⟨h1, h2⟩ := mem_singleton_state hs
                  rw [h1, h2] at hr
                  obtain ⟨hq, hall⟩ := ih _ (p + 1) g q g' hr
                  refine ⟨by simp [hq]; omega, ?_⟩
                  intro i hi
                  cases i with
                  | zero => exact ⟨c, by simpa using hc, of_decide_eq_true hcf⟩
                  | succ j =>
                      obtain ⟨c', hc', hl⟩ := hall j (by simpa using hi)
                      exact ⟨c', by rw [show p + (j+1) = p + 1 + j by omega]; exact hc', hl⟩
                next hcf => simp at hs
              next hc => simp at hs

/-! ## Search and finditer soundness -/

lemma searchFromAux_mem (t : List Char) (r : RE) :
    ∀ steps p m, p ≤ t.length → searchFromAux t r p steps = some m →
      (m.e, m.grp) ∈ mrun t (fuelFor t) r m.s none ∧ m.s ≤ t.length := by
  intro steps
  induction steps with
  | zero => intro p m _ h; exact absurd h (by simp [searchFromAux])
  | succ n ih =>
      intro p m hp h
      unfold searchFromAux at h
      rcases hm : mrun t (fuelFor t) r p none with _ | ⟨⟨e, g⟩, rest⟩
      · rw [hm] at h
        by_cases hlt : p < t.length
        · rw [if_pos hlt] at h
          exact ih (p + 1) m (by omega) h
        · rw [if_neg hlt] at h; cases h
      · rw [hm] at h
        cases h
        exact ⟨by rw [hm]; exact List.mem_cons_self _ _, hp⟩

lemma finditer_sound (t : List Char) (r : RE) :
    ∀ m ∈ finditer t r, (m.e, m.grp) ∈ mrun t (fuelFor t) r m.s none ∧
      m.s ≤ m.e ∧ m.e ≤ t.length := by
  have haux : ∀ steps p, p ≤ t.length → ∀ m ∈ finditerAux t r p steps,
      (m.e, m.grp) ∈ mrun t (fuelFor t) r m.s none ∧ m.s ≤ m.e ∧ m.e ≤ t.length := by
    intro steps
    induction steps with
    | zero => intro p _ m h; exact absurd h (by simp [finditerAux])
    | succ n ih =>
        intro p hp m h
        unfold finditerAux at h
        rcases hs : searchFrom t r p with _ | m0
        · rw [hs] at h; exact absurd h (List.not_mem_nil m)
        · rw [hs] at h
          obtain ⟨hmem, hub⟩ := searchFromAux_mem t r _ p m0 hp hs
          have hse : m0.s ≤ m0.e := mrun_le t (fuelFor t) r m0.s none m0.e m0.grp hmem
          have heub : m0.e ≤ t.length := mrun_ub t (fuelFor t) r m0.s none m0.e m0.grp hub hmem
          rcases List.mem_cons.mp h with rfl | h
          · exact ⟨hmem, hse, heub⟩
          · by_cases hlt : m0.s < m0.e
            · rw [if_pos hlt] at h
              exact ih m0.e heub m h
            · rw [if_neg hlt] at h
              by_cases hlt2 : m0.s + 1 ≤ t.length
              · exact ih (m0.s + 1) hlt2 m h
              · -- m0.s = t.length; finditerAux from t.length + 1 gives nothing
                have : finditerAux t r (m0.s + 1) n = [] := by
                  cases n with
                  | zero => rfl
                  | succ n' =>
                      unfold finditerAux
                      have hnone : searchFrom t r (m0.s + 1) = none := by
                        unfold searchFrom
                        have : t.length + 1 - (m0.s + 1) = 0 := by omega
                        rw [this]
                        rfl
                      rw [hnone]
                rw [this] at h
                exact absurd h (List.not_mem_nil m)
  intro m hm
  exact haux (t.length + 1) 0 (by omega) m hm

/-- Consecutive `finditer` matches do not overlap. -/

lemma finditer_sep (t : List Char) (r : RE) :
    List.Chain' (fun a b => a.e ≤ b.s) (finditer t r) := by
  have haux : ∀ steps p, p ≤ t.length →
      List.Chain' (fun a b => a.e ≤ b.s) (finditerAux t r p steps) := by
    intro steps
    induction steps with
    | zero => intro p _; simp [finditerAux]
    | succ n ih =>
        intro p hp
        unfold finditerAux
        rcases hs : searchFrom t r p with _ | m0
        · exact List.chain'_nil
        · obtain ⟨hmem, hub⟩ := searchFromAux_mem t r _ p m0 hp hs
          have hse : m0.s ≤ m0.e := mrun_le t (fuelFor t) r m0.s none m0.e m0.grp hmem
          have heub : m0.e ≤ t.length := mrun_ub t (fuelFor t) r m0.s none m0.e m0.grp hub hmem
          refine List.chain'_cons'.mpr ⟨?_, ?_⟩
          · intro y hy
            have hmemy : y ∈ finditerAux t r (if m0.s < m0.e then m0.e else m0.s + 1) n :=
              List.mem_of_mem_head? hy
            have hlb := finditerAux_lb t r n _ y hmemy
            by_cases he : m0.s < m0.e
            · rw [if_pos he] at hlb; omega
            · rw [if_neg he] at hlb; omega
          · by_cases he : m0.s < m0.e
            · rw [if_pos he]
              exact ih m0.e heub
            · rw [if_neg he]
              by_cases hlt2 : m0.s + 1 ≤ t.length
              · exact ih (m0.s + 1) hlt2
              · have : finditerAux t r (m0.s + 1) n = [] := by
                  cases n with
                  | zero => rfl
                  | succ n' =>
                      unfold finditerAux
                      have hnone : searchFrom t r (m0.s + 1) = none := by
                        unfold searchFrom
                        have : t.length + 1 - (m0.s + 1) = 0 := by omega
                        rw [this]
                        rfl
                      rw [hnone]
                rw [this]
                exact List.chain'_nil
  exact haux (t.length + 1) 0 (by omega)

lemma leaf_angleFree (f : Char → Bool) (h1 : f '<' = false) (h2 : f '>' = false) :
    ∀ c, f c = true → angleFree c = true := by
  intro c hc
  unfold angleFree
  by_cases e1 : c = '<'
  · subst e1; rw [hc] at h1; cases h1
  · by_cases e2 : c = '>'
    · subst e2; rw [hc] at h2; cases h2
    · simp [e1, e2]

lemma clsOK_ssn : ClsOK angleFree ssnPattern := by
  simp only [ssnPattern, seqsRE, repeatRE, digitRE, chrRE, ClsOK]
  repeat' apply And.intro
  all_goals first | trivial | (apply leaf_angleFree <;> decide)

lemma ichars_angleFree (cs : List Char)
    (h : ∀ ch ∈ cs, ch.toLower ≠ '<' ∧ ch.toLower ≠ '>') :
    ClsOK angleFree (cs.foldr (fun c r => .seq (ichrRE c) r) .eps) := by
  induction cs with
  | nil => trivial
  | cons ch cs ih =>
      refine ⟨?_, ih (fun c hc => h c (List.mem_cons_of_mem _ hc))⟩
      intro c hc
      have hl : c.toLower = ch.toLower := of_decide_eq_true hc
      have hch := h ch (List.mem_cons_self _ _)
      unfold angleFree
      by_cases e1 : c = '<'
      · exfalso; apply hch.1; rw [← hl, e1]; decide
      · by_cases e2 : c = '>'
        · exfalso; apply hch.2; rw [← hl, e2]; decide
        · simp [e1, e2]

lemma ilit_angleFree (s : String)
    (h : ∀ ch ∈ s.data, ch.toLower ≠ '<' ∧ ch.toLower ≠ '>') :
    ClsOK angleFree (ilitRE s) :=
  ichars_angleFree s.data h

lemma clsOK_credit : ClsOK angleFree creditCardPattern := by
  simp only [creditCardPattern, seqsRE, repeatRE, optRE, digitRE, ClsOK]
  repeat' apply And.intro
  all_goals first | trivial | (apply leaf_angleFree <;> decide)

lemma clsOK_phone : ClsOK angleFree phonePattern := by
  simp only [phonePattern, seqsRE, repeatRE, optRE, digitRE, chrRE, ClsOK]
  repeat' apply And.intro
  all_goals first | trivial | (apply leaf_angleFree <;> decide)

lemma clsOK_email : ClsOK angleFree emailPattern := by
  simp only [emailPattern, seqsRE, plusRE, chrRE, ClsOK]
  repeat' apply And.intro
  all_goals first | trivial | (apply leaf_angleFree <;> decide)

lemma clsOK_account : ClsOK angleFree accountPattern := by
  simp only [accountPattern, seqsRE, starRE, digitRE, ClsOK]
  repeat' apply And.intro
  all_goals
    first
      | trivial
      | (apply leaf_angleFree <;> decide)
      | (apply ilit_angleFree; decide)

lemma clsOK_routing : ClsOK angleFree routingPattern := by
  simp only [routingPattern, seqsRE, starRE, repeatRE, digitRE, ClsOK]
  repeat' apply And.intro
  all_goals
    first
      | trivial
      | (apply leaf_angleFree <;> decide)
      | (apply ilit_angleFree; decide)

lemma clsOK_address : ClsOK angleFree addressPattern := by
  simp only [addressPattern, addressSuffixes, List.map_cons, List.map_nil, altsRE,
    seqsRE, plusRE, digitRE, spaceRE, ClsOK]
  repeat' apply And.intro
  all_goals
    first
      | trivial
      | (apply leaf_angleFree <;> decide)
      | (apply ilit_angleFree; decide)

/-- The pattern table paired with its angle-free guarantees. -/

lemma clsOK_pii : ∀ pr ∈ pii_patterns, ClsOK angleFree pr.2 := by
  intro pr hpr
  simp only [pii_patterns, List.mem_cons, List.not_mem_nil, or_false] at hpr
  rcases hpr with rfl | rfl | rfl | rfl | rfl | rfl | rfl
  · exact clsOK_ssn
  · exact clsOK_credit
  · exact clsOK_phone
  · exact clsOK_email
  · exact clsOK_account
  · exact clsOK_routing
  · exact clsOK_address

lemma firstOK_ssn : FirstOK firstDigitB ssnPattern := by
  refine ⟨⟨trivial, fun _ => ⟨?_, fun hnull => absurd hnull (by decide)⟩⟩,
          ⟨trivial, fun _ => ⟨?_, fun hnull => absurd hnull (by decide)⟩⟩⟩ <;>
    exact fun c hc => hc

lemma firstOK_credit : FirstOK firstDigitB creditCardPattern := by
  refine ⟨trivial, fun _ => ⟨?_, fun hnull => absurd hnull (by decide)⟩⟩
  exact fun c hc => hc

lemma firstOK_phone : FirstOK firstPhone phonePattern := by
  refine ⟨trivial, fun _ => ⟨⟨?_, fun _ => ⟨?_, fun hnull => absurd hnull (by decide)⟩⟩,
    fun _ => ⟨?_, fun _ => ⟨?_, fun hnull => absurd hnull (by decide)⟩⟩⟩⟩
  · intro c hc
    rw [of_decide_eq_true hc]; decide
  · intro c hc
    rw [of_decide_eq_true hc]; decide
  · intro c hc
    rw [of_decide_eq_true hc]; decide
  · intro c hc
    unfold firstPhone
    rw [hc]
    simp

lemma FirstOK_ichars_head (Q : Char → Bool) (ch : Char) (cs : List Char)
    (h : ∀ c, c.toLower = ch.toLower → Q c = true) :
    FirstOK Q ((ch :: cs).foldr (fun c r => .seq (ichrRE c) r) .eps) := by
  refine ⟨?_, fun hnull => absurd hnull (by simp [ichrRE, nullableRE])⟩
  intro c hc
  exact h c (of_decide_eq_true hc)

lemma FirstOK_ilit_of (Q : Char → Bool) (s : String) (ch : Char)
    (hd : s.data.headD 'x' = ch) (hne : s.data ≠ [])
    (h : ∀ c, c.toLower = ch.toLower → Q c = true) : FirstOK Q (ilitRE s) := by
  unfold ilitRE
  rcases he : s.data with _ | ⟨ch', cs⟩
  · exact absurd he hne
  · rw [he] at hd
    simp at hd
    subst hd
    exact FirstOK_ichars_head Q ch' cs h

lemma firstOK_account : FirstOK firstAccount accountPattern := by
  refine ⟨trivial, fun _ => ⟨⟨?_, ?_⟩, fun hnull => absurd hnull (by decide)⟩⟩
  · exact FirstOK_ilit_of _ "account" 'a' (by decide) (by decide)
      (by intro c hc; unfold firstAccount; rw [hc]; decide)
  · exact FirstOK_ilit_of _ "acct" 'a' (by decide) (by decide)
      (by intro c hc; unfold firstAccount; rw [hc]; decide)

lemma firstOK_routing : FirstOK firstRouting routingPattern := by
  refine ⟨trivial, fun _ => ⟨⟨?_, ?_⟩, fun hnull => absurd hnull (by decide)⟩⟩
  · exact FirstOK_ilit_of _ "routing" 'r' (by decide) (by decide)
      (by intro c hc; unfold firstRouting; rw [hc]; decide)
  · exact FirstOK_ilit_of _ "aba" 'a' (by decide) (by decide)
      (by intro c hc; unfold firstRouting; rw [hc]; decide)

lemma mustTrue_ssn : MustSat (fun _ => true) ssnPattern :=
  ⟨Or.inr (Or.inl ⟨by omega, fun c _ => rfl⟩),
   Or.inr (Or.inl ⟨by omega, fun c _ => rfl⟩)⟩

lemma mustTrue_credit : MustSat (fun _ => true) creditCardPattern :=
  Or.inr (Or.inl ⟨by omega, fun c _ => rfl⟩)

lemma mustTrue_phone : MustSat (fun _ => true) phonePattern :=
  Or.inr (Or.inr (Or.inr (Or.inl ⟨by omega, fun c _ => rfl⟩)))

lemma mustTrue_email : MustSat (fun _ => true) emailPattern :=
  Or.inr (Or.inl ⟨by omega, fun c _ => rfl⟩)

lemma mustTrue_account : MustSat (fun _ => true) accountPattern :=
  Or.inr (Or.inr (Or.inr (Or.inl ⟨by omega, fun c _ => rfl⟩)))

lemma mustTrue_routing : MustSat (fun _ => true) routingPattern :=
  Or.inr (Or.inr (Or.inr (Or.inl ⟨by omega, fun c _ => rfl⟩)))

lemma mustTrue_address : MustSat (fun _ => true) addressPattern :=
  Or.inr (Or.inl ⟨by omega, fun c _ => rfl⟩)

lemma mustTrue_pii : ∀ pr ∈ pii_patterns, MustSat (fun _ => true) pr.2 := by
  intro pr hpr
  simp only [pii_patterns, List.mem_cons, List.not_mem_nil, or_false] at hpr
  rcases hpr with rfl | rfl | rfl | rfl | rfl | rfl | rfl
  · exact mustTrue_ssn
  · exact mustTrue_credit
  · exact mustTrue_phone
  · exact mustTrue_email
  · exact mustTrue_account
  · exact mustTrue_routing
  · exact mustTrue_address

/-- Every email match contains an `@`. -/

lemma mustAt_email : MustSat (fun c => c == '@') emailPattern :=
  Or.inr (Or.inr (Or.inl (fun c hc => by rw [of_decide_eq_true hc]; decide)))

/-- Every address match contains a whitespace character. -/

lemma mustSpace_address : MustSat isPySpace addressPattern :=
  Or.inr (Or.inr (Or.inl ⟨by omega, fun c hc => hc⟩))

lemma placeholderL_decomp (ty : String) (k : Nat) :
    placeholderL ty k = '<' :: (midOf ty k ++ ['>']) := by
  unfold placeholderL midOf
  simp

lemma sliceL_append_adjacent (T : List Char) (s e f : Nat) (h1 : s ≤ e) (h2 : e ≤ f) :
    sliceL T s e ++ sliceL T e f = sliceL T s f := by
  unfold sliceL
  have hdrop : T.drop e = (T.drop s).drop (e - s) := by
    rw [List.drop_drop]
    congr 1
    omega
  rw [hdrop, show f - s = (e - s) + (f - e) by omega, List.take_add]

/-- End bound of a cover. -/

lemma coversFrom_le :
    ∀ (segs : List Seg) a b, CoversFrom segs a b → a ≤ b := by
  intro segs
  induction segs with
  | nil => intro a b hc; exact le_of_eq hc
  | cons sg rest ih =>
      intro a b hc
      cases sg with
      | gap s e =>
          obtain ⟨h1, h2, h3⟩ := hc
          exact le_trans h2 (ih e b h3)
      | key ty k s e =>
          obtain ⟨h1, h2, h3⟩ := hc
          exact le_trans h2 (ih e b h3)

/-- Flat text of all-gap segments is the covered slice of the original. -/

lemma flatS_all_gaps (T : List Char) :
    ∀ segs a b, CoversFrom segs a b → a ≤ b → b ≤ T.length →
      segKeys segs = [] → flatS T segs = sliceL T a b := by
  intro segs
  induction segs with
  | nil =>
      intro a b hc _ _ _
      have : a = b := hc
      subst this
      show ([] : List Char) = sliceL T a a
      unfold sliceL
      simp
  | cons sg rest ih =>
      intro a b hc hab hb hk
      cases sg with
      | key ty k s e => exact absurd hk (by simp [segKeys])
      | gap s e =>
          obtain ⟨hs, hse, hcr⟩ := hc
          subst hs
          have hbound : e ≤ b := coversFrom_le rest e b hcr
          show sliceL T s e ++ flatS T rest = sliceL T s b
          rw [ih e b hcr hbound hb (by simpa [segKeys] using hk)]
          exact sliceL_append_adjacent T s e b hse hbound

lemma coversFrom_append :
    ∀ (xs ys : List Seg) a b c, CoversFrom xs a b → CoversFrom ys b c →
      CoversFrom (xs ++ ys) a c := by
  intro xs
  induction xs with
  | nil =>
      intro ys a b c h1 h2
      have : a = b := h1
      subst this
      exact h2
  | cons sg rest ih =>
      intro ys a b c h1 h2
      cases sg with
      | gap s e =>
          obtain ⟨hs, hse, hcr⟩ := h1
          exact ⟨hs, hse, ih ys e b c hcr h2⟩
      | key ty k s e =>
          obtain ⟨hs, hse, hcr⟩ := h1
          exact ⟨hs, hse, ih ys e b c hcr h2⟩

/-! ## Occurrence infrastructure -/

lemma occursIn_iff (sub : List Char) :
    ∀ t, occursIn sub t = true ↔ ∃ i, sub.isPrefixOf (t.drop i) = true := by
  intro t
  induction t with
  | nil =>
      constructor
      · intro h
        refine ⟨0, ?_⟩
        unfold occursIn at h
        rcases sub with _ | ⟨c, cs⟩
        · rfl
        · simp [List.isEmpty] at h
      · rintro ⟨i, hi⟩
        rw [List.drop_nil] at hi
        rcases sub with _ | ⟨c, cs⟩
        · rfl
        · simp [List.isPrefixOf] at hi
  | cons c rest ih =>
      constructor
      · intro h
        unfold occursIn at h
        rw [Bool.or_eq_true] at h
        rcases h with h | h
        · exact ⟨0, h⟩
        · obtain ⟨i, hi⟩ := ih.mp h
          exact ⟨i + 1, by simpa using hi⟩
      · rintro ⟨i, hi⟩
        unfold occursIn
        rw [Bool.or_eq_true]
        cases i with
        | zero => exact Or.inl hi
        | succ j => exact Or.inr (ih.mpr ⟨j, by simpa using hi⟩)

lemma occursIn_slice (sub T : List Char) (s e : Nat)
    (h : occursIn sub (sliceL T s e) = true) : occursIn sub T = true := by
  obtain ⟨i, hi⟩ := (occursIn_iff _ _).mp h
  rw [List.isPrefixOf_iff_prefix] at hi
  have h1 : ((T.drop s).take (e - s)).drop i <+: (T.drop s).drop i := by
    rw [List.drop_take]
    exact List.take_prefix _ _
  have h2 : sub <+: (T.drop s).drop i := hi.trans h1
  rw [List.drop_drop] at h2
  exact (occursIn_iff _ _).mpr ⟨s + i, List.isPrefixOf_iff_prefix.mpr h2⟩

/-! ## Decimal-counter and placeholder-shape facts -/

lemma decDigitsAux_digits :
    ∀ f n, ∀ c ∈ decDigitsAux f n, c.isDigit = true := by
  intro f
  induction f with
  | zero => intro n c hc; exact absurd hc (by simp [decDigitsAux])
  | succ f ih =>
      intro n c hc
      cases n with
      | zero => exact absurd hc (by simp [decDigitsAux])
      | succ n =>
          rcases List.mem_cons.mp hc with rfl | hc
          · have hm : (n + 1) % 10 < 10 := Nat.mod_lt _ (by omega)
            revert hm
            generalize (n + 1) % 10 = m
            intro hm
            interval_cases m <;> decide
          · exact ih _ c hc

lemma natToDec_digits (n : Nat) : ∀ c ∈ natToDec n, c.isDigit = true := by
  intro c hc
  unfold natToDec at hc
  by_cases h : n = 0
  · rw [if_pos h] at hc
    simp at hc
    rw [hc]; decide
  · rw [if_neg h] at hc
    rw [List.mem_reverse] at hc
    exact decDigitsAux_digits n n c hc

lemma natToDec_ne_nil (n : Nat) : natToDec n ≠ [] := by
  unfold natToDec
  by_cases h : n = 0
  · rw [if_pos h]; simp
  · rw [if_neg h]
    rcases n with _ | m
    · exact absurd rfl h
    · show (decDigitsAux (m + 1) (m + 1)).reverse ≠ []
      simp [decDigitsAux]

lemma isWordChar_of_digit (c : Char) (h : c.isDigit = true) : isWordChar c = true := by
  unfold isWordChar Char.isAlphanum
  rw [h]
  simp

lemma piiNames_upper_word :
    ∀ ty ∈ piiNames, ∀ c ∈ ty.data.map Char.toUpper, isWordChar c = true := by decide

lemma piiNames_upper_not_digit :
    ∀ ty ∈ piiNames, ∀ c ∈ ty.data.map Char.toUpper, c.isDigit = false := by decide

lemma piiNames_upper_inj :
    ∀ ty ∈ piiNames, ∀ ty' ∈ piiNames,
      ty.data.map Char.toUpper = ty'.data.map Char.toUpper → ty = ty' := by decide

/-- Characters of a placeholder interior are word characters (for types of the
PII table). -/

lemma mid_word (ty : String) (hty : ty ∈ piiNames) (k : Nat) :
    ∀ c ∈ midOf ty k, isWordChar c = true := by
  intro c hc
  unfold midOf at hc
  rcases List.mem_append.mp hc with hc | hc
  · exact piiNames_upper_word ty hty c hc
  · rcases List.mem_cons.mp hc with rfl | hc
    · decide
    · exact isWordChar_of_digit c (natToDec_digits k c hc)

lemma takeWhile_not_digit_append (u : List Char) (hu : ∀ c ∈ u, c.isDigit = false) :
    ∀ (d : List Char), (∀ hne : d ≠ [], (d.headD 'x').isDigit = true) →
      (u ++ d).takeWhile (fun c => !c.isDigit) = u := by
  induction u with
  | nil =>
      intro d hd
      rcases d with _ | ⟨c, cs⟩
      · rfl
      · rw [List.nil_append, List.takeWhile_cons]
        have := hd (by simp)
        simp at this
        rw [this]
        rfl
  | cons a u ih =>
      intro d hd
      rw [List.cons_append, List.takeWhile_cons]
      have ha := hu a (List.mem_cons_self _ _)
      rw [ha]
      simp only [Bool.not_false, if_true]
      rw [ih (fun c hc => hu c (List.mem_cons_of_mem _ hc)) d hd]

/-- Placeholders of PII-table types are injective in (type, counter). -/

lemma placeholder_inj_names (ty ty' : String) (k k' : Nat)
    (hty : ty ∈ piiNames) (hty' : ty' ∈ piiNames)
    (h : placeholderL ty k = placeholderL ty' k') : ty = ty' ∧ k = k' := by
  rw [placeholderL_decomp, placeholderL_decomp] at h
  have hmid : midOf ty k ++ ['>'] = midOf ty' k' ++ ['>'] := (List.cons.inj h).2
  have hmid2 : midOf ty k = midOf ty' k' := List.append_cancel_right hmid
  unfold midOf at hmid2
  have hform : ∀ (s : String), s ∈ piiNames → ∀ (m : Nat),
      (s.data.map Char.toUpper ++ '_' :: natToDec m).takeWhile (fun c => !c.isDigit)
        = s.data.map Char.toUpper ++ ['_'] := by
    intro s hs m
    have : s.data.map Char.toUpper ++ '_' :: natToDec m
        = (s.data.map Char.toUpper ++ ['_']) ++ natToDec m := by simp
    rw [this]
    apply takeWhile_not_digit_append
    · intro c hc
      rcases List.mem_append.mp hc with hc | hc
      · exact piiNames_upper_not_digit s hs c hc
      · simp at hc
        rw [hc]; decide
    · intro _
      rcases hnd : natToDec m with _ | ⟨c, cs⟩
      · exact absurd hnd (natToDec_ne_nil m)
      · have : c ∈ natToDec m := by rw [hnd]; exact List.mem_cons_self _ _
        simpa using natToDec_digits m c this
  have hupper : ty.data.map Char.toUpper ++ ['_'] = ty'.data.map Char.toUpper ++ ['_'] := by
    rw [← hform ty hty k, ← hform ty' hty' k', hmid2]
  have hup2 : ty.data.map Char.toUpper = ty'.data.map Char.toUpper :=
    List.append_cancel_right hupper
  have hts : ty = ty' := piiNames_upper_inj ty hty ty' hty' hup2
  subst hts
  refine ⟨rfl, ?_⟩
  have hdec : natToDec k = natToDec k' := by
    have := List.append_cancel_left hmid2
    exact List.cons.inj this |>.2
  exact natToDec_inj k k' hdec

lemma flatS_cons (T : List Char) (sg : Seg) (rest : List Seg) :
    flatS T (sg :: rest) = segStr T sg ++ flatS T rest := rfl

lemma placeholderL_length (ty : String) (k : Nat) :
    (placeholderL ty k).length = (midOf ty k).length + 2 := by
  rw [placeholderL_decomp]
  simp

lemma placeholderL_get_zero (ty : String) (k : Nat) :
    (placeholderL ty k).get? 0 = some '<' := by
  rw [placeholderL_decomp]
  rfl

lemma placeholderL_get_last (ty : String) (k : Nat) :
    (placeholderL ty k).get? ((midOf ty k).length + 1) = some '>' := by
  rw [placeholderL_decomp]
  rw [List.get?_cons_succ]
  rw [List.get?_append_right (by omega)]
  simp

lemma placeholderL_get_mid (ty : String) (k : Nat) (j : Nat) (hj : j < (midOf ty k).length) :
    (placeholderL ty k).get? (j + 1) = (midOf ty k).get? j := by
  rw [placeholderL_decomp]
  rw [List.get?_cons_succ]
  rw [List.get?_append hj]

lemma span_locate (T : List Char) :
    ∀ (segs : List Seg), NoAdjGaps segs →
    ∀ i j, i < j → j ≤ (flatS T segs).length →
    (∀ x, i ≤ x → x < j → ∃ c, (flatS T segs).get? x = some c ∧ angleFree c = true) →
    (∃ pre s e post, segs = pre ++ .gap s e :: post ∧
        (flatS T pre).length ≤ i ∧ j ≤ (flatS T pre).length + (sliceL T s e).length) ∨
    (∃ pre ty k s e post, segs = pre ++ .key ty k s e :: post ∧
        (flatS T pre).length + 1 ≤ i ∧
        j ≤ (flatS T pre).length + 1 + (midOf ty k).length) := by
  intro segs
  induction segs with
  | nil =>
      intro _ i j hij hj _
      simp [flatS] at hj
      omega
  | cons sg rest ih =>
      intro hadj i j hij hj hchars
      have hlen : (flatS T (sg :: rest)).length = (segStr T sg).length + (flatS T rest).length := by
        rw [flatS_cons, List.length_append]
      by_cases hLi : (segStr T sg).length ≤ i
      · -- span entirely in the tail
        have htail := ih (List.Chain'.tail hadj) (i - (segStr T sg).length)
          (j - (segStr T sg).length) (by omega) (by omega) ?_
        · rcases htail with ⟨pre, s, e, post, heq, h1, h2⟩ | ⟨pre, ty, k, s, e, post, heq, h1, h2⟩
          · refine Or.inl ⟨sg :: pre, s, e, post, by rw [heq, List.cons_append], ?_, ?_⟩ <;>
              · rw [flatS_cons, List.length_append]
                omega
          · refine Or.inr ⟨sg :: pre, ty, k, s, e, post, by rw [heq, List.cons_append], ?_, ?_⟩ <;>
              · rw [flatS_cons, List.length_append]
                omega
        · intro x hx1 hx2
          obtain ⟨c, hc, hfree⟩ := hchars (x + (segStr T sg).length) (by omega) (by omega)
          refine ⟨c, ?_, hfree⟩
          rw [flatS_cons, List.get?_append_right (by omega)] at hc
          rw [show x + (segStr T sg).length - (segStr T sg).length = x by omega] at hc
          exact hc
      · push_neg at hLi
        cases sg with
        | gap s e =>
            by_cases hjL : j ≤ (sliceL T s e).length
            · exact Or.inl ⟨[], s, e, rest, rfl, by simp [flatS], by simp [flatS]; omega⟩
            · -- the span crosses the end of the gap; the next segment must be a key,
              -- whose first character is '<' — contradicting angle-freeness
              exfalso
              push_neg at hjL
              have hL : (segStr T (.gap s e)).length = (sliceL T s e).length := rfl
              obtain ⟨c, hc, hfree⟩ := hchars (sliceL T s e).length (by omega) (by omega)
              rw [flatS_cons, List.get?_append_right (by rw [hL])] at hc
              rw [hL, Nat.sub_self] at hc
              cases rest with
              | nil =>
                  rw [show flatS T [] = [] from rfl] at hc
                  simp at hc
              | cons sg2 rest2 =>
                  cases sg2 with
                  | gap s2 e2 =>
                      rcases hadj with _ | ⟨hrel, _⟩
                      exact hrel ⟨rfl, rfl⟩
                  | key ty2 k2 s2 e2 =>
                      rw [flatS_cons, List.get?_append (by
                        rw [show segStr T (.key ty2 k2 s2 e2) = placeholderL ty2 k2 from rfl,
                          placeholderL_length]
                        omega)] at hc
                      rw [show segStr T (.key ty2 k2 s2 e2) = placeholderL ty2 k2 from rfl,
                        placeholderL_get_zero] at hc
                      injection hc with hc
                      rw [← hc] at hfree
                      exact absurd hfree (by decide)
        | key ty k s e =>
            have hL : (segStr T (.key ty k s e)).length = (midOf ty k).length + 2 := by
              rw [show segStr T (.key ty k s e) = placeholderL ty k from rfl, placeholderL_length]
            rcases Nat.eq_zero_or_pos i with rfl | hipos
            · -- span starts at the '<'
              exfalso
              obtain ⟨c, hc, hfree⟩ := hchars 0 (le_refl 0) (by omega)
              rw [flatS_cons, List.get?_append (by omega)] at hc
              rw [show segStr T (.key ty k s e) = placeholderL ty k from rfl,
                placeholderL_get_zero] at hc
              injection hc with hc
              rw [← hc] at hfree
              exact absurd hfree (by decide)
            · by_cases hjmid : j ≤ (midOf ty k).length + 1
              · exact Or.inr ⟨[], ty, k, s, e, rest, rfl, by simp [flatS]; omega,
                  by simp [flatS]; omega⟩
              · -- the span covers the closing '>'
                exfalso
                push_neg at hjmid
                obtain ⟨c, hc, hfree⟩ := hchars ((midOf ty k).length + 1) (by omega) (by omega)
                rw [flatS_cons, List.get?_append (by omega)] at hc
                rw [show segStr T (.key ty k s e) = placeholderL ty k from rfl,
                  placeholderL_get_last] at hc
                injection hc with hc
                rw [← hc] at hfree
                exact absurd hfree (by decide)

/-! ## Flat/segment utilities -/

lemma flatS_append (T : List Char) :
    ∀ xs ys, flatS T (xs ++ ys) = flatS T xs ++ flatS T ys := by
  intro xs ys
  induction xs with
  | nil => rfl
  | cons sg rest ih =>
      show segStr T sg ++ flatS T (rest ++ ys) = (segStr T sg ++ flatS T rest) ++ flatS T ys
      rw [ih, List.append_assoc]

lemma segKeys_append :
    ∀ xs ys, segKeys (xs ++ ys) = segKeys xs ++ segKeys ys := by
  intro xs ys
  induction xs with
  | nil => rfl
  | cons sg rest ih =>
      cases sg with
      | gap s e => simpa [segKeys] using ih
      | key ty k s e => simpa [segKeys] using ih

lemma coversFrom_split :
    ∀ xs ys a b, CoversFrom (xs ++ ys) a b →
      ∃ mp, CoversFrom xs a mp ∧ CoversFrom ys mp b := by
  intro xs
  induction xs with
  | nil => intro ys a b h; exact ⟨a, rfl, h⟩
  | cons sg rest ih =>
      intro ys a b h
      cases sg with
      | gap s e =>
          obtain ⟨h1, h2, h3⟩ := h
          obtain ⟨mp, hxs, hys⟩ := ih ys e b h3
          exact ⟨mp, ⟨h1, h2, hxs⟩, hys⟩
      | key ty k s e =>
          obtain ⟨h1, h2, h3⟩ := h
          obtain ⟨mp, hxs, hys⟩ := ih ys e b h3
          exact ⟨mp, ⟨h1, h2, hxs⟩, hys⟩

lemma mem_segKeys_decomp :
    ∀ segs (q : String × Nat × Nat × Nat), q ∈ segKeys segs →
      ∃ pre post, segs = pre ++ .key q.1 q.2.1 q.2.2.1 q.2.2.2 :: post := by
  intro segs
  induction segs with
  | nil => intro q h; exact absurd h (by simp [segKeys])
  | cons sg rest ih =>
      intro q h
      cases sg with
      | gap s e =>
          obtain ⟨pre, post, heq⟩ := ih q (by simpa [segKeys] using h)
          exact ⟨.gap s e :: pre, post, by rw [heq]; rfl⟩
      | key ty k s e =>
          rw [show segKeys (.key ty k s e :: rest) = (ty, k, s, e) :: segKeys rest from rfl]
            at h
          rcases List.mem_cons.mp h with rfl | h
          · exact ⟨[], rest, rfl⟩
          · obtain ⟨pre, post, heq⟩ := ih q h
            exact ⟨.key ty k s e :: pre, post, by rw [heq]; rfl⟩

lemma decomp_mem_segKeys (ty : String) (k s e : Nat) :
    ∀ pre post, (ty, k, s, e) ∈ segKeys (pre ++ .key ty k s e :: post) := by
  intro pre post
  rw [segKeys_append]
  refine List.mem_append_right _ ?_
  rw [show segKeys (.key ty k s e :: post) = (ty, k, s, e) :: segKeys post from rfl]
  exact List.mem_cons_self _ _

/-! ## Slice arithmetic -/

lemma sliceL_length (T : List Char) (s e : Nat) (he : e ≤ T.length) (hse : s ≤ e) :
    (sliceL T s e).length = e - s := by
  unfold sliceL
  rw [List.length_take, List.length_drop]
  omega

lemma sliceL_take (T : List Char) (s e n : Nat) (h : s + n ≤ e) :
    (sliceL T s e).take n = sliceL T s (s + n) := by
  unfold sliceL
  rw [List.take_take]
  congr 1
  omega

lemma sliceL_drop (T : List Char) (s e n : Nat) :
    (sliceL T s e).drop n = sliceL T (s + n) e := by
  unfold sliceL
  rw [List.drop_take, List.drop_drop]
  congr 1
  omega

lemma sliceL_slice (T : List Char) (s e x y : Nat) (hx : x ≤ y) (hy : s + y ≤ e) :
    sliceL (sliceL T s e) x y = sliceL T (s + x) (s + y) := by
  unfold sliceL
  rw [List.drop_take, List.drop_drop, List.take_take]
  congr 1
  omega

lemma sliceL_zero_len (T : List Char) : sliceL T 0 T.length = T := by
  unfold sliceL
  simp

/-! ## Prefix-of utilities -/

lemma isPrefixOf_length {p l : List Char} (h : p.isPrefixOf l = true) :
    p.length ≤ l.length := by
  rw [List.isPrefixOf_iff_prefix] at h
  exact h.length_le

lemma isPrefixOf_get? {p l : List Char} (h : p.isPrefixOf l = true) :
    ∀ z, z < p.length → l.get? z = p.get? z := by
  rw [List.isPrefixOf_iff_prefix] at h
  obtain ⟨t, rfl⟩ := h
  intro z hz
  rw [List.get?_append hz]

lemma isPrefixOf_append_left {p x y : List Char} (h : p.isPrefixOf (x ++ y) = true)
    (hlen : p.length ≤ x.length) : p.isPrefixOf x = true := by
  rw [List.isPrefixOf_iff_prefix] at h ⊢
  obtain ⟨t, ht⟩ := h
  have hp : p = (x ++ y).take p.length := by
    rw [← ht, List.take_append_of_le_length (le_refl _), List.take_length]
  rw [List.take_append_of_le_length hlen] at hp
  rw [hp]
  exact List.take_prefix _ _

/-! ## Characters of placeholders -/

lemma word_not_angle (c : Char) (h : isWordChar c = true) : c ≠ '<' ∧ c ≠ '>' := by
  constructor <;> rintro rfl <;> exact absurd h (by decide)

lemma piiNames_ne_nil : ∀ ty ∈ piiNames, ty.data ≠ [] := by decide

lemma midOf_get_name (ty : String) (k : Nat) (z : Nat) (hz : z < ty.data.length) :
    (midOf ty k).get? z = (ty.data.map Char.toUpper).get? z := by
  unfold midOf
  rw [List.get?_append (by simpa using hz)]

lemma midOf_get_zero (ty : String) (h : ty.data ≠ []) (k : Nat) :
    (midOf ty k).get? 0 = some (headUp ty) := by
  rcases he : ty.data with _ | ⟨c, cs⟩
  · exact absurd he h
  · rw [midOf_get_name ty k 0 (by rw [he]; simp), headUp, he]
    rfl

lemma midOf_length_lb (ty : String) (k : Nat) :
    ty.data.length + 2 ≤ (midOf ty k).length := by
  unfold midOf
  rw [List.length_append]
  have : 1 ≤ (natToDec k).length := by
    rcases he : natToDec k with _ | ⟨c, cs⟩
    · exact absurd he (natToDec_ne_nil k)
    · simp
  simp only [List.length_map, List.length_cons]
  omega

/-- In a placeholder of a PII-table type, the character value determines
whether the position is the opening bracket, the interior, or the close. -/

lemma placeholder_char_pos (ty : String) (hty : ty ∈ piiNames) (k : Nat) :
    ∀ z c, (placeholderL ty k).get? z = some c →
      (c = '<' → z = 0) ∧ (c = '>' → z = (placeholderL ty k).length - 1) := by
  intro z c hzc
  have hlen := placeholderL_length ty k
  rcases Nat.eq_zero_or_pos z with rfl | hz
  · rw [placeholderL_get_zero] at hzc
    injection hzc with hzc
    subst hzc
    exact ⟨fun _ => rfl, fun h => absurd h (by decide)⟩
  · have hzlt : z < (placeholderL ty k).length := by
      by_contra hge
      rw [List.get?_eq_none.mpr (by omega)] at hzc
      cases hzc
    by_cases hlast : z = (midOf ty k).length + 1
    · subst hlast
      rw [placeholderL_get_last] at hzc
      injection hzc with hzc
      subst hzc
      exact ⟨fun h => absurd h (by decide), fun _ => by omega⟩
    · have hzmid : z - 1 < (midOf ty k).length := by omega
      have := placeholderL_get_mid ty k (z - 1) hzmid
      rw [show z - 1 + 1 = z by omega] at this
      rw [this] at hzc
      have hcmem : c ∈ midOf ty k := List.get?_mem hzc
      have hw := mid_word ty hty k c hcmem
      obtain ⟨h1, h2⟩ := word_not_angle c hw
      exact ⟨fun h => absurd h h1, fun h => absurd h h2⟩

/-- Positional character decomposition of a flattened segment list. -/

lemma flat_get_decomp (T : List Char) (pre : List Seg) (sg : Seg) (post : List Seg)
    (z : Nat) (hz : z < (segStr T sg).length) :
    (flatS T (pre ++ sg :: post)).get? ((flatS T pre).length + z) = (segStr T sg).get? z := by
  rw [flatS_append, List.get?_append_right (by omega),
    show (flatS T pre).length + z - (flatS T pre).length = z by omega]
  rw [show flatS T (sg :: post) = segStr T sg ++ flatS T post from rfl,
    List.get?_append hz]

/-! ## mrun destructuring -/

lemma mrun_seq_split (t : List Char) (a b : RE) :
    ∀ fuel p g q g', (q, g') ∈ mrun t fuel (.seq a b) p g →
      ∃ f m gm, (m, gm) ∈ mrun t f a p g ∧ (q, g') ∈ mrun t f b m gm := by
  intro fuel p g q g' h
  cases fuel with
  | zero => exact absurd h (by simp [mrun])
  | succ f =>
      simp only [mrun, List.mem_flatMap] at h
      obtain ⟨s, hs, hr⟩ := h
      exact ⟨f, s.1, s.2, hs, hr⟩

lemma mrun_alt_split (t : List Char) (a b : RE) :
    ∀ fuel p g q g', (q, g') ∈ mrun t fuel (.alt a b) p g →
      ∃ f, (q, g') ∈ mrun t f a p g ∨ (q, g') ∈ mrun t f b p g := by
  intro fuel p g q g' h
  cases fuel with
  | zero => exact absurd h (by simp [mrun])
  | succ f =>
      simp only [mrun, List.mem_append] at h
      exact ⟨f, h⟩

/-- Every match of a PII-table pattern starts at a word boundary. -/

lemma mrun_pii_boundary : ∀ pr ∈ pii_patterns, ∀ (t : List Char) fuel p g q g',
    (q, g') ∈ mrun t fuel pr.2 p g → boundaryAt t p = true := by
  intro pr hpr t fuel p g q g' h
  simp only [pii_patterns, List.mem_cons, List.not_mem_nil, or_false] at hpr
  rcases hpr with rfl | rfl | rfl | rfl | rfl | rfl | rfl
  · -- ssn: alternation of two boundary-headed branches
    obtain ⟨f, hbr⟩ := mrun_alt_split t _ _ fuel p g q g' h
    rcases hbr with hbr | hbr
    · exact (mrun_seq_wordB t _ f p g q g' hbr).1
    · exact (mrun_seq_wordB t _ f p g q g' hbr).1
  · exact (mrun_seq_wordB t _ fuel p g q g' h).1
  · exact (mrun_seq_wordB t _ fuel p g q g' h).1
  · exact (mrun_seq_wordB t _ fuel p g q g' h).1
  · exact (mrun_seq_wordB t _ fuel p g q g' h).1
  · exact (mrun_seq_wordB t _ fuel p g q g' h).1
  · exact (mrun_seq_wordB t _ fuel p g q g' h).1

lemma exclInterior_nil (r : RE) : ExclInterior [] r := by
  intro t fuel p g q g' ty k o hty
  exact absurd hty (List.not_mem_nil ty)

lemma exclInterior_mono {E E2 : List String} {r : RE} (hsub : ∀ x ∈ E2, x ∈ E)
    (h : ExclInterior E r) : ExclInterior E2 r := by
  intro t fuel p g q g' ty k o hty hchr h1 h2 h3 hm
  exact h t fuel p g q g' ty k o (hsub ty hty) hchr h1 h2 h3 hm

/-- Characters strictly inside a placeholder interior of a PII-table type are
word characters. -/

lemma interior_wordAt (t : List Char) (ty : String) (hty : ty ∈ piiNames) (k o : Nat)
    (hchr : ∀ z, z < (placeholderL ty k).length →
        t.get? (o + z) = (placeholderL ty k).get? z)
    (x : Nat) (hx1 : o + 1 ≤ x) (hx2 : x < o + 1 + (midOf ty k).length) :
    wordAt t x = true := by
  have hz : x - o - 1 < (midOf ty k).length := by omega
  have h1 := hchr (x - o) (by rw [placeholderL_length]; omega)
  rw [show o + (x - o) = x by omega] at h1
  rw [show x - o = (x - o - 1) + 1 by omega, placeholderL_get_mid ty k _ hz] at h1
  unfold wordAt
  rw [h1]
  rcases hg : (midOf ty k).get? (x - o - 1) with _ | c
  · rw [List.get?_eq_none] at hg
    omega
  · exact mid_word ty hty k c (List.get?_mem hg)

/-- A boundary-anchored match inside an interior must start right after the
opening bracket. -/

lemma interior_start (t : List Char) (ty : String) (hty : ty ∈ piiNames) (k o : Nat)
    (hchr : ∀ z, z < (placeholderL ty k).length →
        t.get? (o + z) = (placeholderL ty k).get? z)
    (p q : Nat) (hp : o + 1 ≤ p) (hq : q ≤ o + 1 + (midOf ty k).length) (hpq : p < q)
    (hb : boundaryAt t p = true) : p = o + 1 := by
  by_contra hne
  have hp2 : o + 2 ≤ p := by omega
  have hw1 : wordAt t (p - 1) = true :=
    interior_wordAt t ty hty k o hchr (p - 1) (by omega) (by omega)
  have hw2 : wordAt t p = true :=
    interior_wordAt t ty hty k o hchr p (by omega) (by omega)
  unfold boundaryAt at hb
  rw [if_neg (by omega), hw1, hw2] at hb
  simp at hb

/-- The character right after the opening bracket is the first letter of the
uppercased type name. -/

lemma interior_first_char (t : List Char) (ty : String) (hty : ty ∈ piiNames) (k o : Nat)
    (hchr : ∀ z, z < (placeholderL ty k).length →
        t.get? (o + z) = (placeholderL ty k).get? z) :
    t.get? (o + 1) = some (headUp ty) := by
  have h1 := hchr 1 (by rw [placeholderL_length]; omega)
  rw [show (1 : Nat) = 0 + 1 from rfl, placeholderL_get_mid ty k 0 (by
    have := midOf_length_lb ty k
    have := piiNames_ne_nil ty hty
    have : 1 ≤ ty.data.length := by
      rcases he : ty.data with _ | ⟨c, cs⟩
      · exact absurd he (by assumption)
      · simp
    omega)] at h1
  rw [h1, midOf_get_zero ty (piiNames_ne_nil ty hty) k]

/-- Interior exclusion via the first consumed character. -/

lemma exclInterior_first (E : List String) (r : RE) (Q : Char → Bool)
    (hb : ∀ (t : List Char) fuel p g q g', (q, g') ∈ mrun t fuel r p g →
        boundaryAt t p = true)
    (hf : FirstOK Q r)
    (hE : ∀ ty ∈ E, ty ∈ piiNames ∧ Q (headUp ty) = false) :
    ExclInterior E r := by
  intro t fuel p g q g' ty k o hty hchr h1 h2 h3 hm
  obtain ⟨htyp, hQ⟩ := hE ty hty
  have hp : p = o + 1 :=
    interior_start t ty htyp k o hchr p q h1 h2 h3 (hb t fuel p g q g' hm)
  obtain ⟨c, hc, hQc⟩ := mrun_first t Q fuel r p g q g' hf hm h3
  rw [hp, interior_first_char t ty htyp k o hchr] at hc
  injection hc with hc
  rw [hc, hQc] at hQ
  cases hQ

/-- Interior exclusion via a mandatory non-word character. -/

lemma exclInterior_must (E : List String) (r : RE) (Q : Char → Bool)
    (hmQ : MustSat Q r)
    (hQ : ∀ c, Q c = true → isWordChar c = false)
    (hE : ∀ ty ∈ E, ty ∈ piiNames) :
    ExclInterior E r := by
  intro t fuel p g q g' ty k o hty hchr h1 h2 h3 hm
  obtain ⟨i, c, hpi, hiq, hic, hQc⟩ := mrun_must t Q fuel r p g q g' hmQ hm
  have hw : wordAt t i = true :=
    interior_wordAt t ty (hE ty hty) k o hchr i (by omega) (by omega)
  unfold wordAt at hw
  rw [hic] at hw
  simp only [] at hw
  rw [hQ c hQc] at hw
  cases hw

/-! ## Interior exclusion instances for the seven categories -/

lemma excl_credit : ExclInterior ["ssn"] creditCardPattern :=
  exclInterior_first _ _ firstDigitB
    (fun t fuel p g q g' hm => (mrun_seq_wordB t _ fuel p g q g' hm).1)
    firstOK_credit (by decide)

lemma excl_phone : ExclInterior ["ssn", "credit_card"] phonePattern :=
  exclInterior_first _ _ firstPhone
    (fun t fuel p g q g' hm => (mrun_seq_wordB t _ fuel p g q g' hm).1)
    firstOK_phone (by decide)

lemma excl_email : ExclInterior ["ssn", "credit_card", "phone"] emailPattern :=
  exclInterior_must _ _ (fun c => c == '@') mustAt_email
    (by
      intro c h
      rw [of_decide_eq_true h]
      decide)
    (by decide)

lemma excl_account :
    ExclInterior ["ssn", "credit_card", "phone", "email"] accountPattern :=
  exclInterior_first _ _ firstAccount
    (fun t fuel p g q g' hm => (mrun_seq_wordB t _ fuel p g q g' hm).1)
    firstOK_account (by decide)

lemma excl_address :
    ExclInterior ["ssn", "credit_card", "phone", "email", "account_number",
      "routing_number"] addressPattern :=
  exclInterior_must _ _ isPySpace mustSpace_address
    (by
      intro c h
      simp only [isPySpace, Bool.or_eq_true, decide_eq_true_eq] at h
      rcases h with ((((h | h) | h) | h) | h) | h <;> subst h <;> decide)
    (by decide)

lemma excl_routing :
    ExclInterior ["ssn", "credit_card", "phone", "email", "account_number"]
      routingPattern := by
  intro t fuel p g q g' ty k o hty hchr h1 h2 h3 hm
  have htyp : ty ∈ piiNames := by
    have hall : ∀ x ∈ ["ssn", "credit_card", "phone", "email", "account_number"],
        x ∈ piiNames := by decide
    exact hall ty hty
  obtain ⟨hbnd, f1, hrest⟩ := mrun_seq_wordB t _ fuel p g q g' hm
  have hp : p = o + 1 := interior_start t ty htyp k o hchr p q h1 h2 h3 hbnd
  obtain ⟨f2, m2, gm2, halt, _⟩ := mrun_seq_split t _ _ f1 p g q g' hrest
  obtain ⟨f3, hbr⟩ := mrun_alt_split t _ _ f2 p g m2 gm2 halt
  rcases hbr with hbr | hbr
  · -- branch literal `routing`: the first matched character has lower-case `r`
    obtain ⟨_, hchars⟩ := mrun_ichars t "routing".data f3 p g m2 gm2 hbr
    obtain ⟨c0, hc0, hlow⟩ := hchars 0 (by decide)
    rw [show ("routing".data.get ⟨0, by decide⟩) = 'r' from rfl] at hlow
    rw [show p + 0 = p by omega, hp, interior_first_char t ty htyp k o hchr] at hc0
    injection hc0 with hc0
    have hne : ∀ x ∈ ["ssn", "credit_card", "phone", "email", "account_number"],
        (headUp x).toLower ≠ 'r' := by decide
    rw [← hc0] at hlow
    exact hne ty hty hlow
  · -- branch literal `aba`: the second matched character has lower-case `b`
    obtain ⟨_, hchars⟩ := mrun_ichars t "aba".data f3 p g m2 gm2 hbr
    obtain ⟨c1, hc1, hlow⟩ := hchars 1 (by decide)
    rw [show ("aba".data.get ⟨1, by decide⟩) = 'b' from rfl] at hlow
    have hlenty : 1 < ty.data.length := by
      have hall : ∀ x ∈ ["ssn", "credit_card", "phone", "email", "account_number"],
          1 < x.data.length := by decide
      exact hall ty hty
    have hmid1 : (midOf ty k).get? 1 = (ty.data.map Char.toUpper).get? 1 :=
      midOf_get_name ty k 1 hlenty
    have hlb := midOf_length_lb ty k
    have h2ph := hchr 2 (by rw [placeholderL_length]; omega)
    rw [show (2 : Nat) = 1 + 1 from rfl, placeholderL_get_mid ty k 1 (by omega)] at h2ph
    rw [hp, show o + 1 + 1 = o + 2 by omega] at hc1
    rw [h2ph, hmid1] at hc1
    have hgd : ((ty.data.map Char.toUpper).get? 1).getD 'x' = c1 := by
      rw [hc1]
      rfl
    have hne : ∀ x ∈ ["ssn", "credit_card", "phone", "email", "account_number"],
        (((x.data.map Char.toUpper).get? 1).getD 'x').toLower ≠ 'b' := by decide
    rw [← hgd] at hlow
    exact hne ty hty hlow

lemma setA_cons {κ β : Type} [DecidableEq κ] (kv : κ × β) (rest : List (κ × β))
    (k : κ) (v : β) :
    setA (kv :: rest) k v = if kv.1 = k then (k, v) :: rest else kv :: setA rest k v := rfl

lemma setA_setA {κ β : Type} [DecidableEq κ] (l : List (κ × β)) (k : κ) (v w : β) :
    setA (setA l k v) k w = setA l k w := by
  induction l with
  | nil => simp [setA]
  | cons kv rest ih =>
      rw [setA_cons, setA_cons]
      by_cases hk : kv.1 = k
      · rw [if_pos hk, if_pos hk, setA_cons, if_pos rfl]
      · rw [if_neg hk, if_neg hk, setA_cons, if_neg hk, ih]

lemma chain_first_le :
    ∀ (rest : List RMatch) (m : RMatch),
      List.Chain' (fun a b => a.e ≤ b.s) (m :: rest) →
      (∀ x ∈ rest, x.s < x.e) → ∀ x ∈ rest, m.e ≤ x.s := by
  intro rest
  induction rest with
  | nil => intro m _ _ x hx; exact absurd hx (List.not_mem_nil x)
  | cons r1 rest2 ih =>
      intro m hc hlt x hx
      have h1 : m.e ≤ r1.s := List.chain'_cons.mp hc |>.1
      rcases List.mem_cons.mp hx with rfl | hx
      · exact h1
      · have h2 := ih r1 (List.chain'_cons.mp hc).2 (fun y hy => hlt y (List.mem_cons_of_mem _ hy)) x hx
        have h3 : r1.s < r1.e := hlt r1 (List.mem_cons_self _ _)
        omega

lemma specSplice_take (ty : String) (text : List Char) (prev : Nat) :
    ∀ (ms : List RMatch) (q s : Nat), q ≤ s → s ≤ text.length →
      (∀ m ∈ ms.head?, s ≤ m.s) →
      (specSplice ty text prev ms q).take (s - q) = sliceL text q s := by
  intro ms
  cases ms with
  | nil =>
      intro q s _ _ _
      show (text.drop q).take (s - q) = sliceL text q s
      rfl
  | cons m rest =>
      intro q s hqs hsl hhead
      have hms : s ≤ m.s := hhead m rfl
      show ((sliceL text q m.s ++ _) ++ _).take (s - q) = sliceL text q s
      rw [List.append_assoc, List.take_append_of_le_length (by
        rw [sliceL, List.length_take, List.length_drop]
        omega)]
      rw [sliceL, List.take_take, sliceL]
      congr 1
      omega

lemma specSplice_drop (ty : String) (text : List Char) (prev : Nat) :
    ∀ (ms : List RMatch) (q e : Nat), q ≤ e → e ≤ text.length →
      (∀ m ∈ ms.head?, e ≤ m.s) →
      (specSplice ty text prev ms q).drop (e - q) = specSplice ty text prev ms e := by
  intro ms
  cases ms with
  | nil =>
      intro q e hqe _ _
      show (text.drop q).drop (e - q) = text.drop e
      rw [List.drop_drop]
      congr 1
      omega
  | cons m rest =>
      intro q e hqe hel hhead
      have hms : e ≤ m.s := hhead m rfl
      show ((sliceL text q m.s ++ _) ++ _).drop (e - q) =
        sliceL text e m.s ++ _ ++ _
      rw [List.append_assoc, List.drop_append_of_le_length (by
        rw [sliceL, List.length_take, List.length_drop]
        omega)]
      rw [sliceL, List.drop_take, List.drop_drop]
      rw [show q + (e - q) = e by omega, show m.s - q - (e - q) = m.s - e by omega]
      rw [← List.append_assoc]
      rfl

lemma specMap_keys (ty : String) (text : List Char) (prev : Nat) :
    ∀ (ms : List RMatch) kv, kv ∈ specMap ty text prev ms →
      ∃ c, prev < c ∧ c ≤ prev + ms.length ∧ kv.1 = placeholderL ty c := by
  intro ms
  induction ms with
  | nil => intro kv h; exact absurd h (List.not_mem_nil kv)
  | cons m rest ih =>
      intro kv h
      rw [show specMap ty text prev (m :: rest) = specMap ty text prev rest ++
        [(placeholderL ty (prev + rest.length + 1), sliceL text m.s m.e)] from rfl] at h
      rcases List.mem_append.mp h with h | h
      · obtain ⟨c, h1, h2, h3⟩ := ih kv h
        exact ⟨c, h1, by simp only [List.length_cons]; omega, h3⟩
      · rcases List.mem_singleton.mp h with rfl
        exact ⟨prev + rest.length + 1, by omega,
          by simp only [List.length_cons]; omega, rfl⟩

/-- One masking pass, computed in closed form. -/

lemma maskFoldr_state (ty : String) (text : List Char) :
    ∀ (ms : List RMatch) (st : MaskerState) (prev : Nat),
      (lookupA st.pii_counters ty).getD 0 = prev →
      (∀ c, prev < c → placeholderL ty c ∉ st.masked_mapping.map (·.1)) →
      List.Chain' (fun a b => a.e ≤ b.s) ms →
      (∀ m ∈ ms, m.s < m.e ∧ m.e ≤ text.length) →
      ms.foldr (fun m acc => maskMatch ty text acc m) (st, text, 0) =
        ({ pii_counters := if ms.isEmpty then st.pii_counters
             else setA st.pii_counters ty (prev + ms.length),
           masked_mapping := st.masked_mapping ++ specMap ty text prev ms },
         specSplice ty text prev ms 0, ms.length) := by
  intro ms
  induction ms with
  | nil =>
      intro st prev _ _ _ _
      show (st, text, 0) = _
      simp [specMap, specSplice]
  | cons m rest ih =>
      intro st prev hprev hfresh hchain hbnd
      have hchainrest := hchain.tail
      have hrest := ih st prev hprev hfresh hchainrest
        (fun x hx => hbnd x (List.mem_cons_of_mem _ hx))
      obtain ⟨hse, hel⟩ := hbnd m (List.mem_cons_self _ _)
      have hheadc : ∀ m2 ∈ rest.head?, m.e ≤ m2.s := by
        intro m2 h2
        cases rest with
        | nil => simp at h2
        | cons r1 rest2 =>
            have hm2 : r1 = m2 := by simpa using h2
            subst hm2
            exact (List.chain'_cons.mp hchain).1
      have hlook : (lookupA (if rest.isEmpty then st.pii_counters
          else setA st.pii_counters ty (prev + rest.length)) ty).getD 0
          = prev + rest.length := by
        cases rest with
        | nil => simpa using hprev
        | cons r1 rest2 =>
            rw [if_neg (by simp), lookupA_setA_self]
            rfl
      show maskMatch ty text
        (rest.foldr (fun m acc => maskMatch ty text acc m) (st, text, 0)) m = _
      rw [hrest, maskMatch_eq]
      simp only [Prod.mk.injEq, MaskerState.mk.injEq]
      refine ⟨⟨?_, ?_⟩, ?_, ?_⟩
      · -- counters
        rw [hlook]
        cases rest with
        | nil => simp [setA]
        | cons r1 rest2 =>
            rw [if_neg (by simp), if_neg (by simp), setA_setA]
            rfl
      · -- mapping
        rw [hlook]
        have hnotmem : placeholderL ty (prev + rest.length + 1) ∉
            (st.masked_mapping ++ specMap ty text prev rest).map (·.1) := by
          rw [List.map_append]
          intro hmem
          rcases List.mem_append.mp hmem with hmem | hmem
          · exact hfresh (prev + rest.length + 1) (by omega) hmem
          · obtain ⟨kv, hkv, hkv1⟩ := List.mem_map.mp hmem
            obtain ⟨c2, hc1, hc2, hc3⟩ := specMap_keys ty text prev rest kv hkv
            rw [hc3] at hkv1
            have := placeholderL_inj ty c2 (prev + rest.length + 1) hkv1
            omega
        rw [setA_of_not_mem _ _ _ hnotmem, List.append_assoc]
        rfl
      · -- text
        rw [hlook]
        have ht : (specSplice ty text prev rest 0).take m.s = sliceL text 0 m.s := by
          have := specSplice_take ty text prev rest 0 m.s (by omega) (by omega)
            (fun m2 h2 => le_trans (le_of_lt hse) (hheadc m2 h2))
          simpa using this
        have hd : (specSplice ty text prev rest 0).drop m.e =
            specSplice ty text prev rest m.e := by
          have := specSplice_drop ty text prev rest 0 m.e (by omega) hel hheadc
          simpa using this
        rw [ht, hd]
        rfl
      · rfl

/-! ## Segment surgery performed by one masking pass -/

lemma drop_append_ge (A B : List Char) (n : Nat) (h : A.length ≤ n) :
    (A ++ B).drop n = B.drop (n - A.length) := by
  rw [show n = A.length + (n - A.length) by omega,
    show (A ++ B).drop (A.length + (n - A.length))
      = ((A ++ B).drop A.length).drop (n - A.length) by rw [List.drop_drop],
    List.drop_left]
  congr 1
  omega

lemma take_append_ge (A B : List Char) (n : Nat) (h : A.length ≤ n) :
    (A ++ B).take n = A ++ B.take (n - A.length) := by
  rw [List.take_append_eq_append_take, List.take_of_length_le h]

/-- One masking pass in segment form: the splice of the matches of `r` into a
segmented text yields a new segment list whose fresh keys sit where the
matches were. -/

lemma specSplice_segs (T text : List Char) (ty : String) (r : RE) (prev : Nat)
    (E : List String) (hexcl : ExclInterior E r) (hcls : ClsOK angleFree r) :
    ∀ (ms : List RMatch) (p : Nat) (segs : List Seg) (a : Nat),
      flatS T segs = text.drop p →
      CoversFrom segs a T.length →
      NoAdjGaps segs →
      (∀ q ∈ segKeys segs, q.1 ∈ E) →
      (∀ q ∈ segKeys segs, q.2.2.1 ≤ q.2.2.2 ∧ q.2.2.2 ≤ T.length) →
      List.Chain' (fun x y => x.e ≤ y.s) ms →
      (∀ m ∈ ms, p ≤ m.s ∧ m.s < m.e ∧ m.e ≤ text.length ∧
        (m.e, m.grp) ∈ mrun text (fuelFor text) r m.s none) →
      ∃ segs2 news,
        specSplice ty text prev ms p = flatS T segs2 ∧
        CoversFrom segs2 a T.length ∧
        NoAdjGaps segs2 ∧
        List.Perm (segKeys segs2) (news ++ segKeys segs) ∧
        news.map (fun q => (q.1, q.2.1)) = (ctrList prev ms).map (fun c => (ty, c)) ∧
        (∀ q ∈ news, q.2.2.1 ≤ q.2.2.2 ∧ q.2.2.2 ≤ T.length) ∧
        List.Forall₂ (fun (q : String × Nat × Nat × Nat) (m : RMatch) =>
          sliceL T q.2.2.1 q.2.2.2 = sliceL text m.s m.e) news ms := by
  intro ms
  induction ms with
  | nil =>
      intro p segs a hflat hcov hadj hkeys hqb _ _
      exact ⟨segs, [], hflat.symm, hcov, hadj, by simp, rfl, by simp, List.Forall₂.nil⟩
  | cons m rest ih =>
      intro p segs a hflat hcov hadj hkeys hqb hchain hm
      obtain ⟨hpm, hsm, hme, hmr⟩ := hm m (List.mem_cons_self _ _)
      have hflen : (flatS T segs).length = text.length - p := by
        rw [hflat, List.length_drop]
      have hchf : ∀ x, m.s - p ≤ x → x < m.e - p →
          ∃ c, (flatS T segs).get? x = some c ∧ angleFree c = true := by
        intro x h1 h2
        obtain ⟨c, hc, hfree⟩ := mrun_chars text angleFree (fuelFor text) r m.s none
          m.e m.grp hcls hmr (p + x) (by omega) (by omega)
        refine ⟨c, ?_, hfree⟩
        rw [hflat, List.get?_drop]
        exact hc
      rcases span_locate T segs hadj (m.s - p) (m.e - p) (by omega) (by omega) hchf with
        ⟨pre, gs, ge, post, hseq, hi, hj⟩ | ⟨pre, ty2, k2, s2k, e2k, post, hseq, hi, hj⟩
      · -- the match lies inside a raw gap: split the gap around it
        subst hseq
        obtain ⟨mp, hcpre, hcrest⟩ := coversFrom_split pre _ a T.length hcov
        obtain ⟨hgs, hge, hcpost⟩ := hcrest
        subst hgs
        have hgeT : ge ≤ T.length := coversFrom_le post ge T.length hcpost
        have hls : (sliceL T gs ge).length = ge - gs := sliceL_length T gs ge hgeT hge
        set opre := (flatS T pre).length with hopre
        have hflat2 : flatS T (pre ++ Seg.gap gs ge :: post)
            = flatS T pre ++ (sliceL T gs ge ++ flatS T post) := by
          rw [flatS_append]
          rfl
        set s2 := gs + (m.s - p - opre) with hs2
        set e2 := gs + (m.e - p - opre) with he2
        have hs2e2 : s2 ≤ e2 := by omega
        have he2ge : e2 ≤ ge := by
          rw [hls] at hj
          omega
        -- tail of the text after the match, in segment form
        have hnext : flatS T (Seg.gap e2 ge :: post) = text.drop m.e := by
          have hdt : text.drop m.e = (flatS T (pre ++ Seg.gap gs ge :: post)).drop (m.e - p) := by
            rw [hflat, List.drop_drop]
            congr 1
            omega
          rw [hdt, hflat2, drop_append_ge _ _ _ (by omega),
            List.drop_append_of_le_length (by rw [hls]; omega),
            show flatS T (Seg.gap e2 ge :: post) = sliceL T e2 ge ++ flatS T post from rfl,
            sliceL_drop]
        have hadjrest : NoAdjGaps (Seg.gap e2 ge :: post) := by
          have h2 := (List.chain'_append.mp hadj).2.1
          rcases List.chain'_cons'.mp h2 with ⟨hrel, hpost⟩
          exact List.chain'_cons'.mpr ⟨fun y hy => hrel y hy, hpost⟩
        have hkeyspost : ∀ q ∈ segKeys (Seg.gap e2 ge :: post), q.1 ∈ E := by
          intro q hq
          refine hkeys q ?_
          rw [segKeys_append]
          exact List.mem_append_right _ (by simpa [segKeys] using hq)
        have hqbpost : ∀ q ∈ segKeys (Seg.gap e2 ge :: post),
            q.2.2.1 ≤ q.2.2.2 ∧ q.2.2.2 ≤ T.length := by
          intro q hq
          refine hqb q ?_
          rw [segKeys_append]
          exact List.mem_append_right _ (by simpa [segKeys] using hq)
        have hmrest : ∀ m2 ∈ rest, m.e ≤ m2.s ∧ m2.s < m2.e ∧ m2.e ≤ text.length ∧
            (m2.e, m2.grp) ∈ mrun text (fuelFor text) r m2.s none := by
          intro m2 h2
          have hle := chain_first_le rest m hchain
            (fun x hx => (hm x (List.mem_cons_of_mem _ hx)).2.1) m2 h2
          obtain ⟨_, hb, hc, hd⟩ := hm m2 (List.mem_cons_of_mem _ h2)
          exact ⟨hle, hb, hc, hd⟩
        obtain ⟨segs3, news3, hsp3, hcov3, hadj3, hperm3, hctr3, hqn3, hf3⟩ :=
          ih m.e (Seg.gap e2 ge :: post) e2 hnext ⟨rfl, by omega, hcpost⟩ hadjrest
            hkeyspost hqbpost hchain.tail (fun m2 h2 => hmrest m2 h2)
        refine ⟨pre ++ Seg.gap gs s2 :: Seg.key ty (prev + rest.length + 1) s2 e2 :: segs3,
          (ty, prev + rest.length + 1, s2, e2) :: news3, ?_, ?_, ?_, ?_, ?_, ?_, ?_⟩
        · -- flat equality
          show sliceL text p m.s ++ placeholderL ty (prev + rest.length + 1) ++
              specSplice ty text prev rest m.e = _
          rw [flatS_append,
            show flatS T (Seg.gap gs s2 :: Seg.key ty (prev + rest.length + 1) s2 e2 :: segs3)
              = sliceL T gs s2 ++ (placeholderL ty (prev + rest.length + 1) ++ flatS T segs3)
              from rfl]
          have hpref : sliceL text p m.s = flatS T pre ++ sliceL T gs s2 := by
            have : sliceL text p m.s = (flatS T (pre ++ Seg.gap gs ge :: post)).take (m.s - p) := by
              rw [hflat]
              rfl
            rw [this, hflat2, take_append_ge _ _ _ (by omega),
              List.take_append_of_le_length (by rw [hls]; omega),
              sliceL_take T gs ge _ (by omega)]
          rw [hpref, hsp3]
          simp [List.append_assoc]
        · -- cover
          refine coversFrom_append pre _ a gs T.length hcpre ⟨rfl, by omega, rfl, hs2e2, hcov3⟩
        · -- no adjacent gaps
          rcases List.chain'_append.mp hadj with ⟨hcp, hcg, hcross⟩
          refine List.chain'_append.mpr ⟨hcp, ?_, ?_⟩
          · refine List.chain'_cons.mpr ⟨by simp [isGapB], ?_⟩
            refine List.chain'_cons'.mpr ⟨fun y hy => by simp [isGapB], hadj3⟩
          · intro x hx y hy
            have hy2 : Seg.gap gs s2 = y := by simpa using hy
            subst hy2
            exact hcross x hx (Seg.gap gs ge) rfl
        · -- key permutation
          rw [segKeys_append,
            show segKeys (Seg.gap gs s2 :: Seg.key ty (prev + rest.length + 1) s2 e2 :: segs3)
              = (ty, prev + rest.length + 1, s2, e2) :: segKeys segs3 from rfl,
            segKeys_append,
            show segKeys (Seg.gap gs ge :: post) = segKeys post from rfl]
          refine List.Perm.trans List.perm_middle ?_
          show List.Perm ((ty, prev + rest.length + 1, s2, e2) :: (segKeys pre ++ segKeys segs3))
            (((ty, prev + rest.length + 1, s2, e2) :: news3) ++ (segKeys pre ++ segKeys post))
          refine List.Perm.cons _ ?_
          refine List.Perm.trans (List.Perm.append_left _ hperm3) ?_
          exact List.perm_append_comm_assoc _ _ _
        · -- counters
          show (ty, prev + rest.length + 1) :: news3.map (fun q => (q.1, q.2.1)) = _
          rw [hctr3]
          rfl
        · -- bounds
          intro q hq
          rcases List.mem_cons.mp hq with rfl | hq
          · exact ⟨hs2e2, le_trans he2ge hgeT⟩
          · exact hqn3 q hq
        · -- values
          refine List.Forall₂.cons ?_ hf3
          show sliceL T s2 e2 = sliceL text m.s m.e
          have h1 : sliceL text m.s m.e
              = ((flatS T (pre ++ Seg.gap gs ge :: post)).drop (m.s - p)).take (m.e - m.s) := by
            rw [hflat, List.drop_drop]
            show sliceL text m.s m.e = (text.drop (p + (m.s - p))).take (m.e - m.s)
            rw [show p + (m.s - p) = m.s by omega]
            rfl
          rw [h1, hflat2, drop_append_ge _ _ _ (by omega),
            List.drop_append_of_le_length (by rw [hls]; omega), sliceL_drop,
            List.take_append_of_le_length (by
              rw [sliceL_length T _ ge hgeT (by omega)]
              omega),
            sliceL_take T _ ge _ (by omega)]
          congr 2 <;> omega
      · -- the match would lie inside a placeholder interior: impossible
        exfalso
        have hq2 : (ty2, k2, s2k, e2k) ∈ segKeys segs := by
          rw [hseq]
          exact decomp_mem_segKeys ty2 k2 s2k e2k pre post
        set opre := (flatS T pre).length with hopre
        have hcheq : ∀ z, z < (placeholderL ty2 k2).length →
            text.get? (p + opre + z) = (placeholderL ty2 k2).get? z := by
          intro z hz
          have hfg : (flatS T segs).get? (opre + z) = (placeholderL ty2 k2).get? z := by
            rw [hseq]
            exact flat_get_decomp T pre (.key ty2 k2 s2k e2k) post z hz
          rw [hflat, List.get?_drop] at hfg
          rw [show p + opre + z = p + (opre + z) by omega]
          exact hfg
        exact hexcl text (fuelFor text) m.s none m.e m.grp ty2 k2 (p + opre)
          (hkeys _ hq2) hcheq (by omega) (by omega) hsm hmr

/-! ## Category-level masking invariant -/

lemma ctrList_mem (prev : Nat) :
    ∀ (ms : List RMatch) c, c ∈ ctrList prev ms → prev < c ∧ c ≤ prev + ms.length := by
  intro ms
  induction ms with
  | nil => intro c h; exact absurd h (List.not_mem_nil c)
  | cons m rest ih =>
      intro c h
      rcases List.mem_cons.mp h with rfl | h
      · simp only [List.length_cons]
        omega
      · obtain ⟨h1, h2⟩ := ih c h
        simp only [List.length_cons]
        omega

lemma ctrList_nodup (prev : Nat) : ∀ (ms : List RMatch), (ctrList prev ms).Nodup := by
  intro ms
  induction ms with
  | nil => exact List.nodup_nil
  | cons m rest ih =>
      refine List.nodup_cons.mpr ⟨?_, ih⟩
      intro hmem
      have := ctrList_mem prev rest _ hmem
      omega

lemma specMap_eq_news (ty : String) (T text : List Char) (prev : Nat) :
    ∀ (ms : List RMatch) (news : List (String × Nat × Nat × Nat)),
      news.map (fun q => (q.1, q.2.1)) = (ctrList prev ms).map (fun c => (ty, c)) →
      List.Forall₂ (fun (q : String × Nat × Nat × Nat) (m : RMatch) =>
        sliceL T q.2.2.1 q.2.2.2 = sliceL text m.s m.e) news ms →
      specMap ty text prev ms =
        (news.reverse).map (fun q => (placeholderL q.1 q.2.1, sliceL T q.2.2.1 q.2.2.2)) := by
  intro ms
  induction ms with
  | nil =>
      intro news hmap hf
      cases hf
      rfl
  | cons m rest ih =>
      intro news hmap hf
      cases hf with
      | cons hval hf2 =>
          next q news3 =>
            simp only [List.map_cons, ctrList, List.cons.injEq, Prod.mk.injEq] at hmap
            obtain ⟨⟨hq1, hq2⟩, hmap2⟩ := hmap
            show specMap ty text prev rest ++ [(placeholderL ty (prev + rest.length + 1),
              sliceL text m.s m.e)] = ((q :: news3).reverse).map _
            rw [List.reverse_cons, List.map_append, ih news3 hmap2 hf2]
            simp only [List.map_cons, List.map_nil]
            rw [hq1, hq2, hval]

lemma mem_setA {κ β : Type} [DecidableEq κ] :
    ∀ (l : List (κ × β)) (k : κ) (v : β) kv, kv ∈ setA l k v → kv = (k, v) ∨ kv ∈ l := by
  intro l
  induction l with
  | nil =>
      intro k v kv h
      exact Or.inl (List.mem_singleton.mp h)
  | cons kv0 rest ih =>
      intro k v kv h
      rw [setA_cons] at h
      by_cases hk : kv0.1 = k
      · rw [if_pos hk] at h
        rcases List.mem_cons.mp h with rfl | h
        · exact Or.inl rfl
        · exact Or.inr (List.mem_cons_of_mem _ h)
      · rw [if_neg hk] at h
        rcases List.mem_cons.mp h with rfl | h
        · exact Or.inr (List.mem_cons_self _ _)
        · rcases ih k v kv h with h | h
          · exact Or.inl h
          · exact Or.inr (List.mem_cons_of_mem _ h)

/-- One `maskStep` preserves the masking invariant, extending the processed
category list. -/

lemma maskStep_inv (T : List Char) (ty : String) (r : RE) (E : List String)
    (hE : ∀ x ∈ E, x ∈ piiNames) (htyp : ty ∈ piiNames) (htyE : ty ∉ E)
    (hcls : ClsOK angleFree r) (hmust : MustSat (fun _ => true) r)
    (hexcl : ExclInterior E r)
    (acc : MaskerState × List Char × List String × Nat)
    (hinv : MaskInv T E acc.1 acc.2.1) :
    MaskInv T (E ++ [ty]) (maskStep acc (ty, r)).1 (maskStep acc (ty, r)).2.1 := by
  obtain ⟨segs, quads, htext, hcov, hadj, hkeys, hqb, hmap, hperm, hnodup, hctr⟩ := hinv
  obtain ⟨st, text, det, cnt⟩ := acc
  simp only at htext hcov hadj hkeys hqb hmap hperm hnodup hctr
  by_cases hempty : (finditer text r).isEmpty
  · -- no matches: unchanged
    have hstep : maskStep (st, text, det, cnt) (ty, r) = (st, text, det, cnt) := by
      unfold maskStep
      rw [if_pos hempty]
    rw [hstep]
    exact ⟨segs, quads, htext, hcov, hadj,
      fun q hq => List.mem_append_left _ (hkeys q hq), hqb, hmap, hperm, hnodup,
      fun kv hkv => List.mem_append_left _ (hctr kv hkv)⟩
  · -- matches: run the pass
    have hmsound : ∀ m ∈ finditer text r, m.s < m.e ∧ m.e ≤ text.length ∧
        (m.e, m.grp) ∈ mrun text (fuelFor text) r m.s none := by
      intro m hmm
      obtain ⟨hrun, hse, heb⟩ := finditer_sound text r m hmm
      obtain ⟨i, c, h1, h2, _, _⟩ :=
        mrun_must text (fun _ => true) (fuelFor text) r m.s none m.e m.grp hmust hrun
      exact ⟨by omega, heb, hrun⟩
    set prev := (lookupA st.pii_counters ty).getD 0 with hprev
    have hfresh : ∀ c, prev < c →
        placeholderL ty c ∉ st.masked_mapping.map (·.1) := by
      intro c _ hmem
      rw [hmap] at hmem
      obtain ⟨kv, hkv, hkv1⟩ := List.mem_map.mp hmem
      obtain ⟨q, hq, rfl⟩ := List.mem_map.mp hkv
      have hq1E : q.1 ∈ E := hkeys q (hperm.mem_iff.mp hq)
      have := placeholder_inj_names q.1 ty q.2.1 c (hE q.1 hq1E) htyp hkv1
      rw [← this.1] at htyE
      exact htyE hq1E
    have hfold := maskFoldr_state ty text (finditer text r) st prev rfl hfresh
      (finditer_sep text r) (fun m hmm => ⟨(hmsound m hmm).1, (hmsound m hmm).2.1⟩)
    obtain ⟨segs2, news, hsp, hcov2, hadj2, hperm2, hctrmap, hqn2, hf2⟩ :=
      specSplice_segs T text ty r prev E hexcl hcls (finditer text r) 0 segs 0
        (by rw [htext, List.drop_zero]) hcov hadj hkeys hqb (finditer_sep text r)
        (fun m hmm => ⟨Nat.zero_le _, (hmsound m hmm).1, (hmsound m hmm).2.1,
          (hmsound m hmm).2.2⟩)
    have hstep : maskStep (st, text, det, cnt) (ty, r) =
        ((maskCategory ty r st text).1, (maskCategory ty r st text).2.1,
          det ++ [ty], cnt + (maskCategory ty r st text).2.2) := by
      unfold maskStep
      rw [if_neg hempty]
    have hcat : maskCategory ty r st text =
        ({ pii_counters := if (finditer text r).isEmpty then st.pii_counters
             else setA st.pii_counters ty (prev + (finditer text r).length),
           masked_mapping := st.masked_mapping ++ specMap ty text prev (finditer text r) },
         specSplice ty text prev (finditer text r) 0, (finditer text r).length) := by
      unfold maskCategory
      rw [List.foldl_reverse]
      exact hfold
    rw [hstep, hcat]
    refine ⟨segs2, quads ++ news.reverse, ?_, hcov2, hadj2, ?_, ?_, ?_, ?_, ?_, ?_⟩
    · exact hsp
    · intro q hq
      rcases List.mem_append.mp (hperm2.mem_iff.mp hq) with hq | hq
      · have : (q.1, q.2.1) ∈ news.map (fun q => (q.1, q.2.1)) := List.mem_map_of_mem _ hq
        rw [hctrmap] at this
        obtain ⟨c, _, hc⟩ := List.mem_map.mp this
        rw [show q.1 = ty from (Prod.mk.injEq _ _ _ _).mp hc.symm |>.1]
        exact List.mem_append_right _ (List.mem_singleton.mpr rfl)
      · exact List.mem_append_left _ (hkeys q hq)
    · intro q hq
      rcases List.mem_append.mp (hperm2.mem_iff.mp hq) with hq | hq
      · exact hqn2 q hq
      · exact hqb q hq
    · show st.masked_mapping ++ specMap ty text prev (finditer text r) = _
      rw [hmap, specMap_eq_news ty T text prev (finditer text r) news hctrmap hf2,
        ← List.map_append]
    · refine List.Perm.trans (List.Perm.append (List.Perm.refl quads)
        (List.reverse_perm news)) ?_
      refine List.Perm.trans (List.Perm.append hperm (List.Perm.refl news)) ?_
      refine List.Perm.trans List.perm_append_comm hperm2.symm
    · rw [List.map_append]
      refine List.Nodup.append ?_ ?_ ?_
      · exact hnodup
      · rw [List.map_reverse, List.nodup_reverse]
        rw [hctrmap]
        refine List.Nodup.map ?_ (ctrList_nodup prev _)
        intro a b hab
        exact ((Prod.mk.injEq _ _ _ _).mp hab).2
      · intro x hx hx2
        rw [List.map_reverse, List.mem_reverse, hctrmap] at hx2
        obtain ⟨c, _, hc⟩ := List.mem_map.mp hx2
        obtain ⟨q, hq, hqx⟩ := List.mem_map.mp hx
        have hq1E : q.1 ∈ E := hkeys q (hperm.mem_iff.mp hq)
        have heq : q.1 = ty := ((Prod.mk.injEq _ _ _ _).mp (hqx.trans hc.symm)).1
        rw [heq] at hq1E
        exact htyE hq1E
    · intro kv hkv
      simp only at hkv
      rw [if_neg hempty] at hkv
      rcases mem_setA st.pii_counters ty _ kv hkv with rfl | hkv
      · exact List.mem_append_right _ (List.mem_singleton.mpr rfl)
      · exact List.mem_append_left _ (hctr kv hkv)

/-! ## The whole masking pass -/

set_option maxHeartbeats 2000000 in

lemma mask_text_inv (T : List Char) :
    MaskInv T ["ssn", "credit_card", "phone", "email", "account_number",
        "routing_number", "address"]
      (mask_text initMasker T).2.2 (mask_text initMasker T).1 := by
  have h0 : MaskInv T [] { initMasker with pii_counters := [] } T := by
    refine ⟨[Seg.gap 0 T.length], [], ?_, ⟨rfl, Nat.zero_le _, rfl⟩,
      List.chain'_singleton _, ?_, ?_, rfl, List.Perm.nil, List.nodup_nil, ?_⟩
    · show T = sliceL T 0 T.length ++ []
      rw [List.append_nil, sliceL_zero_len]
    · intro q hq
      exact absurd hq (by simp [segKeys])
    · intro q hq
      exact absurd hq (by simp [segKeys])
    · intro kv hkv
      exact absurd hkv (List.not_mem_nil kv)
  have h1 := maskStep_inv T "ssn" ssnPattern [] (by decide) (by decide) (by decide)
    clsOK_ssn mustTrue_ssn (exclInterior_nil _)
    ({ initMasker with pii_counters := [] }, T, [], 0) h0
  have h2 := maskStep_inv T "credit_card" creditCardPattern ["ssn"] (by decide)
    (by decide) (by decide) clsOK_credit mustTrue_credit excl_credit _ h1
  have h3 := maskStep_inv T "phone" phonePattern ["ssn", "credit_card"] (by decide)
    (by decide) (by decide) clsOK_phone mustTrue_phone excl_phone _ h2
  have h4 := maskStep_inv T "email" emailPattern ["ssn", "credit_card", "phone"]
    (by decide) (by decide) (by decide) clsOK_email mustTrue_email excl_email _ h3
  have h5 := maskStep_inv T "account_number" accountPattern
    ["ssn", "credit_card", "phone", "email"] (by decide) (by decide) (by decide)
    clsOK_account mustTrue_account excl_account _ h4
  have h6 := maskStep_inv T "routing_number" routingPattern
    ["ssn", "credit_card", "phone", "email", "account_number"] (by decide) (by decide)
    (by decide) clsOK_routing mustTrue_routing excl_routing _ h5
  have h7 := maskStep_inv T "address" addressPattern
    ["ssn", "credit_card", "phone", "email", "account_number", "routing_number"]
    (by decide) (by decide) (by decide) clsOK_address mustTrue_address excl_address _ h6
  have hfold : maskFoldResult initMasker T =
      maskStep (maskStep (maskStep (maskStep (maskStep (maskStep (maskStep
        ({ initMasker with pii_counters := [] }, T, [], 0) ("ssn", ssnPattern))
        ("credit_card", creditCardPattern))
        ("phone", phonePattern)) ("email", emailPattern))
        ("account_number", accountPattern)) ("routing_number", routingPattern))
        ("address", addressPattern) := by
    simp only [maskFoldResult, pii_patterns, List.foldl_cons, List.foldl_nil]
  have hmt1 : (mask_text initMasker T).1 = (maskFoldResult initMasker T).2.1 := by
    simp only [mask_text]
  have hmt2 : (mask_text initMasker T).2.2 = (maskFoldResult initMasker T).1 := by
    simp only [mask_text]
  rw [hmt1, hmt2, hfold]
  exact h7

lemma mergeG_gap_eq (s e : Nat) (rest : List Seg) :
    mergeG (.gap s e :: rest) =
      match mergeG rest with
      | .gap _ e2 :: rest2 => .gap s e2 :: rest2
      | other => .gap s e :: other := rfl

lemma mergeG_spec (T : List Char) :
    ∀ (segs : List Seg) (a b : Nat), CoversFrom segs a b →
      flatS T (mergeG segs) = flatS T segs ∧ CoversFrom (mergeG segs) a b ∧
      segKeys (mergeG segs) = segKeys segs ∧ NoAdjGaps (mergeG segs) := by
  intro segs
  induction segs with
  | nil =>
      intro a b hcov
      exact ⟨rfl, hcov, rfl, List.chain'_nil⟩
  | cons sg rest ih =>
      intro a b hcov
      cases sg with
      | key ty k s e =>
          obtain ⟨hs, hse, hcov2⟩ := hcov
          obtain ⟨hf, hc, hk, hadj⟩ := ih e b hcov2
          refine ⟨?_, ⟨hs, hse, hc⟩, ?_, ?_⟩
          · show placeholderL ty k ++ flatS T (mergeG rest) = placeholderL ty k ++ flatS T rest
            rw [hf]
          · show (ty, k, s, e) :: segKeys (mergeG rest) = (ty, k, s, e) :: segKeys rest
            rw [hk]
          · refine List.chain'_cons'.mpr ⟨?_, hadj⟩
            intro y hy
            intro hgg
            exact absurd hgg.1 (by simp [isGapB])
      | gap s e =>
          obtain ⟨hs, hse, hcov2⟩ := hcov
          obtain ⟨hf, hc, hk, hadj⟩ := ih e b hcov2
          rw [mergeG_gap_eq]
          rcases hmg : mergeG rest with _ | ⟨sg2, rest2⟩
          · rw [hmg] at hf hc hk hadj
            refine ⟨?_, ⟨hs, hse, hc⟩, ?_, ?_⟩
            · show sliceL T s e ++ flatS T [] = sliceL T s e ++ flatS T rest
              rw [← hf]
            · show segKeys [] = segKeys (Seg.gap s e :: rest)
              rw [show segKeys (Seg.gap s e :: rest) = segKeys rest from rfl, ← hk]
            · exact List.chain'_singleton _
          · rw [hmg] at hf hc hk hadj
            cases sg2 with
            | gap s2 e2 =>
                obtain ⟨hs2, hse2, hc2⟩ := hc
                refine ⟨?_, ⟨hs, by omega, hc2⟩, ?_, ?_⟩
                · show sliceL T s e2 ++ flatS T rest2 = sliceL T s e ++ flatS T rest
                  rw [← hf]
                  show sliceL T s e2 ++ flatS T rest2
                    = sliceL T s e ++ (sliceL T s2 e2 ++ flatS T rest2)
                  rw [hs2, ← List.append_assoc,
                    sliceL_append_adjacent T s e e2 (by omega) (by omega)]
                · show segKeys rest2 = segKeys (Seg.gap s e :: rest)
                  rw [show segKeys (Seg.gap s e :: rest) = segKeys rest from rfl, ← hk]
                  rfl
                · rcases List.chain'_cons'.mp hadj with ⟨hrel, hrest2⟩
                  exact List.chain'_cons'.mpr ⟨fun y hy => hrel y hy, hrest2⟩
            | key ty2 k2 s2 e2 =>
                refine ⟨?_, ⟨hs, hse, hc⟩, ?_, ?_⟩
                · show sliceL T s e ++ flatS T (Seg.key ty2 k2 s2 e2 :: rest2)
                    = sliceL T s e ++ flatS T rest
                  rw [← hf]
                · show segKeys (Seg.key ty2 k2 s2 e2 :: rest2) = segKeys (Seg.gap s e :: rest)
                  rw [show segKeys (Seg.gap s e :: rest) = segKeys rest from rfl, ← hk]
                · refine List.chain'_cons'.mpr ⟨?_, hadj⟩
                  intro y hy
                  have hyk : y = Seg.key ty2 k2 s2 e2 := by simpa using hy.symm
                  intro hgg
                  rw [hyk] at hgg
                  exact absurd hgg.2 (by simp [isGapB])

/-! ## `str.replace` with a unique occurrence -/

lemma replaceAllAux_cons (pat sub : List Char) (f : Nat) (c : Char) (rest : List Char) :
    replaceAllAux pat sub (f + 1) (c :: rest) =
      if pat.isPrefixOf (c :: rest) then
        sub ++ replaceAllAux pat sub f ((c :: rest).drop pat.length)
      else c :: replaceAllAux pat sub f rest := rfl

lemma replaceAllAux_no_occ (pat sub : List Char) :
    ∀ (fuel : Nat) (t : List Char), t.length ≤ fuel → occursIn pat t = false →
      replaceAllAux pat sub fuel t = t := by
  intro fuel
  induction fuel with
  | zero =>
      intro t ht _
      cases t with
      | nil => rfl
      | cons c rest => simp at ht
  | succ f ih =>
      intro t ht hocc
      cases t with
      | nil => rfl
      | cons c rest =>
          unfold occursIn at hocc
          rw [Bool.or_eq_false_iff] at hocc
          rw [replaceAllAux_cons,
            if_neg (by rw [hocc.1]; exact Bool.false_ne_true),
            ih rest (by simp at ht; omega) hocc.2]

lemma replaceAllAux_unique (pat sub B : List Char) (hne : pat ≠ []) :
    ∀ (A : List Char) (fuel : Nat), A.length + pat.length + B.length ≤ fuel →
      (∀ i, i < A.length → pat.isPrefixOf ((A ++ (pat ++ B)).drop i) = false) →
      occursIn pat B = false →
      replaceAllAux pat sub fuel (A ++ (pat ++ B)) = A ++ (sub ++ B) := by
  intro A
  induction A with
  | nil =>
      intro fuel hfuel _ hB
      rcases pat with _ | ⟨pc, ptl⟩
      · exact absurd rfl hne
      · simp only [List.length_nil, List.length_cons] at hfuel
        cases fuel with
        | zero => omega
        | succ f =>
            rw [List.nil_append, List.cons_append, replaceAllAux_cons,
              if_pos (by
                rw [← List.cons_append, List.isPrefixOf_iff_prefix]
                exact List.prefix_append _ B),
              show (pc :: (ptl ++ B)).drop (pc :: ptl).length = B by
                rw [← List.cons_append, List.drop_left],
              replaceAllAux_no_occ (pc :: ptl) sub f B (by omega) hB]
            rfl
  | cons a A2 ih =>
      intro fuel hfuel hA hB
      cases fuel with
      | zero => simp at hfuel
      | succ f =>
          rw [List.cons_append, replaceAllAux_cons,
            if_neg (by
              have h0 := hA 0 (by simp)
              rw [List.drop_zero, List.cons_append] at h0
              rw [h0]
              exact Bool.false_ne_true),
            ih f (by simp at hfuel ⊢; omega) (fun i hi => by
              have hi1 := hA (i + 1) (by simp; omega)
              rw [List.cons_append] at hi1
              simpa using hi1) hB]
          rfl

lemma replaceAll_unique (A pat sub B : List Char) (hne : pat ≠ [])
    (hA : ∀ i, i < A.length → pat.isPrefixOf ((A ++ (pat ++ B)).drop i) = false)
    (hB : occursIn pat B = false) :
    replaceAll (A ++ (pat ++ B)) pat sub = A ++ (sub ++ B) := by
  unfold replaceAll
  exact replaceAllAux_unique pat sub B hne A _
    (by simp only [List.length_append]; omega) hA hB

/-! ## Locating placeholder occurrences in a partially unmasked text -/

lemma placeholderL_get_some (ty : String) (k : Nat) (z : Nat)
    (hz : z < (placeholderL ty k).length) :
    ∃ c, (placeholderL ty k).get? z = some c := by
  rcases hg : (placeholderL ty k).get? z with _ | c
  · rw [List.get?_eq_none] at hg
    omega
  · exact ⟨c, rfl⟩

lemma placeholderL_get_last2 (ty : String) (k : Nat) :
    (placeholderL ty k).get? ((placeholderL ty k).length - 1) = some '>' := by
  rw [placeholderL_length,
    show (midOf ty k).length + 2 - 1 = (midOf ty k).length + 1 by omega,
    placeholderL_get_last]

/-- Any occurrence of a placeholder of a PII-table type in a flattened,
gap-normalised segment list is the exact image of one of its key segments. -/

lemma occ_locate (T : List Char)
    (hph : ∀ ty2 ∈ piiNames, ∀ n, occursIn (placeholderL ty2 n) T = false)
    (ty : String) (k : Nat) (hty : ty ∈ piiNames) :
    ∀ (segs : List Seg) (a i : Nat),
      (∀ q ∈ segKeys segs, q.1 ∈ piiNames) →
      CoversFrom segs a T.length → NoAdjGaps segs →
      (placeholderL ty k).isPrefixOf ((flatS T segs).drop i) = true →
      ∃ pre s e post, segs = pre ++ .key ty k s e :: post ∧
        i = (flatS T pre).length := by
  intro segs
  induction segs with
  | nil =>
      intro a i _ _ _ hp
      rw [show flatS T [] = [] from rfl, List.drop_nil, placeholderL_decomp] at hp
      simp [List.isPrefixOf] at hp
  | cons sg rest ih =>
      intro a i hkeys hcov hadj hp
      have hLpos : 0 < (placeholderL ty k).length := by
        rw [placeholderL_length]
        omega
      by_cases hi : (segStr T sg).length ≤ i
      · -- occurrence within the tail
        rw [show flatS T (sg :: rest) = segStr T sg ++ flatS T rest from rfl,
          drop_append_ge _ _ _ hi] at hp
        have hcovrest : ∃ a2, CoversFrom rest a2 T.length := by
          cases sg with
          | gap s e => exact ⟨e, hcov.2.2⟩
          | key ty2 k2 s e => exact ⟨e, hcov.2.2⟩
        obtain ⟨a2, hcov2⟩ := hcovrest
        have hkeys2 : ∀ q ∈ segKeys rest, q.1 ∈ piiNames := by
          intro q hq
          refine hkeys q ?_
          cases sg with
          | gap s e => exact hq
          | key ty2 k2 s e => exact List.mem_cons_of_mem _ hq
        obtain ⟨pre, s, e, post, hdec, hpos⟩ :=
          ih a2 (i - (segStr T sg).length) hkeys2 hcov2 hadj.tail hp
        refine ⟨sg :: pre, s, e, post, by rw [hdec]; rfl, ?_⟩
        rw [show flatS T (sg :: pre) = segStr T sg ++ flatS T pre from rfl,
          List.length_append]
        omega
      · push_neg at hi
        have hchar : ∀ z, z < (placeholderL ty k).length →
            (flatS T (sg :: rest)).get? (i + z) = (placeholderL ty k).get? z := by
          intro z hz
          have := isPrefixOf_get? hp z hz
          rw [List.get?_drop] at this
          exact this
        have hlen : (placeholderL ty k).length ≤ (flatS T (sg :: rest)).length - i := by
          have := isPrefixOf_length hp
          rw [List.length_drop] at this
          omega
        cases sg with
        | gap gs ge =>
            by_cases hfit : i + (placeholderL ty k).length ≤ (sliceL T gs ge).length
            · -- entirely inside the raw slice: a placeholder occurs in T
              exfalso
              have hpre2 : (placeholderL ty k).isPrefixOf ((sliceL T gs ge).drop i) = true := by
                rw [show flatS T (Seg.gap gs ge :: rest)
                    = sliceL T gs ge ++ flatS T rest from rfl,
                  List.drop_append_of_le_length (by omega)] at hp
                refine isPrefixOf_append_left hp ?_
                rw [List.length_drop]
                omega
              have hocc : occursIn (placeholderL ty k) (sliceL T gs ge) = true :=
                (occursIn_iff _ _).mpr ⟨i, hpre2⟩
              have := occursIn_slice _ T gs ge hocc
              rw [hph ty hty k] at this
              cases this
            · -- straddles the end of the gap: the next segment starts with '<'
              exfalso
              push_neg at hfit
              have hslen : (segStr T (Seg.gap gs ge)).length = (sliceL T gs ge).length := rfl
              set L := (placeholderL ty k).length with hL
              set z := (sliceL T gs ge).length - i with hzdef
              have hz : z < L := by omega
              have h1 := hchar z hz
              rw [show flatS T (Seg.gap gs ge :: rest)
                  = sliceL T gs ge ++ flatS T rest from rfl,
                List.get?_append_right (by omega),
                show i + z - (sliceL T gs ge).length = 0 by omega] at h1
              cases rest with
              | nil =>
                  rw [show flatS T [] = [] from rfl] at h1
                  obtain ⟨c, hc⟩ := placeholderL_get_some ty k z hz
                  rw [hc] at h1
                  simp at h1
              | cons sg2 rest2 =>
                  cases sg2 with
                  | gap s2 e2 =>
                      rcases hadj with _ | ⟨hrel, _⟩
                      exact hrel ⟨rfl, rfl⟩
                  | key ty2 k2 s2 e2 =>
                      rw [show flatS T (Seg.key ty2 k2 s2 e2 :: rest2)
                          = placeholderL ty2 k2 ++ flatS T rest2 from rfl,
                        List.get?_append (by rw [placeholderL_length]; omega),
                        placeholderL_get_zero] at h1
                      have hz0 := (placeholder_char_pos ty hty k z '<' h1.symm).1 rfl
                      omega
        | key ty2 k2 s2 e2 =>
            have hty2 : ty2 ∈ piiNames := hkeys (ty2, k2, s2, e2) (List.mem_cons_self _ _)
            have hslen : (segStr T (Seg.key ty2 k2 s2 e2)).length
                = (placeholderL ty2 k2).length := rfl
            set L := (placeholderL ty k).length with hL
            set L2 := (placeholderL ty2 k2).length with hL2
            have hL2pos : 2 ≤ L2 := by
              rw [hL2, placeholderL_length]
              omega
            have hchar2 : ∀ z, z < L2 → i + z < L2 →
            (flatS T (Seg.key ty2 k2 s2 e2 :: rest)).get? (i + z)
                = (placeholderL ty2 k2).get? (i + z) := by
              intro z hz hiz
              rw [show flatS T (Seg.key ty2 k2 s2 e2 :: rest)
                  = placeholderL ty2 k2 ++ flatS T rest from rfl,
                List.get?_append (by omega)]
            rcases Nat.eq_zero_or_pos i with rfl | hipos
            · -- aligned with the placeholder: it must be the same one
              have hfirst : ∀ z, z < L → z < L2 →
                  (placeholderL ty k).get? z = (placeholderL ty2 k2).get? z := by
                intro z hz hz2
                have ha := hchar z hz
                have hb := hchar2 z hz2 (by omega)
                rw [show (0 : Nat) + z = z by omega] at ha hb
                rw [← ha, hb]
              have hLeq : L = L2 := by
                by_cases hle : L ≤ L2
                · -- the closing bracket of our placeholder sits inside the other
                  have hz : L - 1 < L := by omega
                  have h1 := hfirst (L - 1) hz (by omega)
                  rw [hL, placeholderL_get_last2] at h1
                  have := (placeholder_char_pos ty2 hty2 k2 (L - 1) '>' h1.symm).2 rfl
                  omega
                · push_neg at hle
                  have hz2 : L2 - 1 < L2 := by omega
                  have h1 := hfirst (L2 - 1) (by omega) hz2
                  rw [hL2, placeholderL_get_last2] at h1
                  have := (placeholder_char_pos ty hty k (L2 - 1) '>' h1).2 rfl
                  omega
              have hpheq : placeholderL ty k = placeholderL ty2 k2 := by
                apply List.ext_get?
                intro n
                by_cases hn : n < L
                · exact hfirst n hn (by omega)
                · rw [List.get?_eq_none.mpr (by omega), List.get?_eq_none.mpr (by omega)]
              obtain ⟨hty_eq, hk_eq⟩ :=
                placeholder_inj_names ty ty2 k k2 hty hty2 hpheq
              subst hty_eq
              subst hk_eq
              exact ⟨[], s2, e2, rest, rfl, rfl⟩
            · -- starting strictly inside the other placeholder: impossible
              exfalso
              have h0 := hchar 0 (by omega)
              rw [Nat.add_zero, placeholderL_get_zero] at h0
              have hiL2 : i < L2 := by omega
              have hb := hchar2 0 (by omega) (by omega)
              rw [Nat.add_zero] at hb
              rw [hb] at h0
              have := (placeholder_char_pos ty2 hty2 k2 i '<' h0).1 rfl
              omega

/-! ## Uniqueness of key decompositions and the unmasking fold -/

lemma name_mem_of_decomp (ty : String) (k s e : Nat) (pre post : List Seg) :
    (ty, k) ∈ (segKeys (pre ++ .key ty k s e :: post)).map (fun q => (q.1, q.2.1)) := by
  rw [segKeys_append, List.map_append]
  refine List.mem_append_right _ ?_
  rw [show segKeys (Seg.key ty k s e :: post) = (ty, k, s, e) :: segKeys post from rfl,
    List.map_cons]
  exact List.mem_cons_self _ _

lemma names_tail_nodup (sg : Seg) (rest : List Seg)
    (h : ((segKeys (sg :: rest)).map (fun q => (q.1, q.2.1))).Nodup) :
    ((segKeys rest).map (fun q => (q.1, q.2.1))).Nodup := by
  cases sg with
  | gap s e => exact h
  | key ty k s e =>
      rw [show segKeys (Seg.key ty k s e :: rest) = (ty, k, s, e) :: segKeys rest from rfl,
        List.map_cons] at h
      exact (List.nodup_cons.mp h).2

lemma decomp_unique :
    ∀ (pre1 segs pre2 post1 post2 : List Seg) (ty : String) (k s1 e1 s2 e2 : Nat),
      ((segKeys segs).map (fun q => (q.1, q.2.1))).Nodup →
      segs = pre1 ++ .key ty k s1 e1 :: post1 →
      segs = pre2 ++ .key ty k s2 e2 :: post2 →
      pre1 = pre2 := by
  intro pre1
  induction pre1 with
  | nil =>
      intro segs pre2 post1 post2 ty k s1 e1 s2 e2 hnd h1 h2
      cases pre2 with
      | nil => rfl
      | cons sg2 pre2t =>
          exfalso
          rw [List.nil_append] at h1
          rw [List.cons_append] at h2
          rw [h1] at h2 hnd
          obtain ⟨hsg, htail⟩ := List.cons.inj h2
          rw [show segKeys (Seg.key ty k s1 e1 :: post1)
              = (ty, k, s1, e1) :: segKeys post1 from rfl, List.map_cons] at hnd
          have hnotin := (List.nodup_cons.mp hnd).1
          rw [htail] at hnotin
          exact hnotin (name_mem_of_decomp ty k s2 e2 pre2t post2)
  | cons sg1 pre1t ih =>
      intro segs pre2 post1 post2 ty k s1 e1 s2 e2 hnd h1 h2
      cases pre2 with
      | nil =>
          exfalso
          rw [List.nil_append] at h2
          rw [List.cons_append] at h1
          rw [h2] at h1 hnd
          obtain ⟨hsg, htail⟩ := List.cons.inj h1
          rw [show segKeys (Seg.key ty k s2 e2 :: post2)
              = (ty, k, s2, e2) :: segKeys post2 from rfl, List.map_cons] at hnd
          have hnotin := (List.nodup_cons.mp hnd).1
          rw [htail] at hnotin
          exact hnotin (name_mem_of_decomp ty k s1 e1 pre1t post1)
      | cons sg2 pre2t =>
          rw [List.cons_append] at h1 h2
          rw [h1] at h2
          obtain ⟨hsg, htail⟩ := List.cons.inj h2
          subst hsg
          have hnd2 : ((segKeys (pre1t ++ .key ty k s1 e1 :: post1)).map
              (fun q => (q.1, q.2.1))).Nodup := by
            rw [h1] at hnd
            exact names_tail_nodup sg1 _ hnd
          rw [ih (pre1t ++ .key ty k s1 e1 :: post1) pre2t post1 post2 ty k s1 e1 s2 e2
            hnd2 rfl htail]

/-- The unmasking fold restores the original text when the mapping entries
correspond exactly to the key segments. -/

lemma unmask_fold (T : List Char)
    (hph : ∀ ty ∈ piiNames, ∀ n, occursIn (placeholderL ty n) T = false) :
    ∀ (quads : List (String × Nat × Nat × Nat)) (segs : List Seg),
      (∀ q ∈ segKeys segs, q.1 ∈ piiNames) →
      CoversFrom segs 0 T.length → NoAdjGaps segs →
      (∀ q ∈ segKeys segs, q.2.2.1 ≤ q.2.2.2 ∧ q.2.2.2 ≤ T.length) →
      List.Perm quads (segKeys segs) →
      ((segKeys segs).map (fun q => (q.1, q.2.1))).Nodup →
      (quads.map (fun q =>
        (placeholderL q.1 q.2.1, sliceL T q.2.2.1 q.2.2.2))).foldl
          (fun t kv => replaceAll t kv.1 kv.2) (flatS T segs) = T := by
  intro quads
  induction quads with
  | nil =>
      intro segs hkeys hcov hadj hqb hperm hnd
      have hsk : segKeys segs = [] := hperm.symm.eq_nil
      rw [List.map_nil, List.foldl_nil,
        flatS_all_gaps T segs 0 T.length hcov (Nat.zero_le _) (le_refl _) hsk,
        sliceL_zero_len]
  | cons q quads2 ih =>
      intro segs hkeys hcov hadj hqb hperm hnd
      have hqmem : q ∈ segKeys segs := hperm.mem_iff.mp (List.mem_cons_self _ _)
      obtain ⟨pre, post, hdec⟩ := mem_segKeys_decomp segs q hqmem
      have hq1 : q.1 ∈ piiNames := hkeys q hqmem
      have hqb1 := hqb q hqmem
      have hflat : flatS T segs =
          flatS T pre ++ (placeholderL q.1 q.2.1 ++ flatS T post) := by
        rw [hdec, flatS_append]
        rfl
      have hsk : segKeys segs = segKeys pre ++ q :: segKeys post := by
        rw [hdec, segKeys_append]
        rfl
      have hndq : (q.1, q.2.1) ∉ (segKeys post).map (fun q => (q.1, q.2.1)) := by
        rw [hsk, List.map_append, List.map_cons] at hnd
        have := (List.nodup_append.mp hnd).2.1
        exact (List.nodup_cons.mp this).1
      -- sub-invariants on `post`
      obtain ⟨mp, hcpre, hcmid⟩ := coversFrom_split pre _ 0 T.length (hdec ▸ hcov)
      obtain ⟨hqs, hqse, hcpost⟩ := hcmid
      have hadjmid : NoAdjGaps (Seg.key q.1 q.2.1 q.2.2.1 q.2.2.2 :: post) :=
        (List.chain'_append.mp (hdec ▸ hadj)).2.1
      have hadjpost : NoAdjGaps post := hadjmid.tail
      have hkeyspost : ∀ q2 ∈ segKeys post, q2.1 ∈ piiNames := by
        intro q2 hq2
        refine hkeys q2 ?_
        rw [hsk]
        exact List.mem_append_right _ (List.mem_cons_of_mem _ hq2)
      -- the replacement hits exactly the image of this key
      have hB : occursIn (placeholderL q.1 q.2.1) (flatS T post) = false := by
        rcases hx : occursIn (placeholderL q.1 q.2.1) (flatS T post) with _ | _
        · rfl
        · exfalso
          obtain ⟨j, hpj⟩ := (occursIn_iff _ _).mp hx
          obtain ⟨pre2, s2, e2, post2, hdec2, _⟩ :=
            occ_locate T hph q.1 q.2.1 hq1 post q.2.2.2 j hkeyspost hcpost hadjpost hpj
          rw [hdec2] at hndq
          exact hndq (name_mem_of_decomp q.1 q.2.1 s2 e2 pre2 post2)
      have hA : ∀ i, i < (flatS T pre).length →
          (placeholderL q.1 q.2.1).isPrefixOf
            ((flatS T pre ++ (placeholderL q.1 q.2.1 ++ flatS T post)).drop i) = false := by
        intro i hi
        rcases hx : (placeholderL q.1 q.2.1).isPrefixOf
            ((flatS T pre ++ (placeholderL q.1 q.2.1 ++ flatS T post)).drop i) with _ | _
        · rfl
        · exfalso
          rw [← hflat] at hx
          obtain ⟨pre2, s2, e2, post2, hdec2, hpos2⟩ :=
            occ_locate T hph q.1 q.2.1 hq1 segs 0 i hkeys hcov hadj hx
          have hpre12 : pre = pre2 :=
            decomp_unique pre segs pre2 post post2 q.1 q.2.1 q.2.2.1 q.2.2.2 s2 e2
              hnd hdec hdec2
          rw [hpos2, ← hpre12] at hi
          omega
      have hstep : replaceAll (flatS T segs) (placeholderL q.1 q.2.1)
          (sliceL T q.2.2.1 q.2.2.2) =
          flatS T pre ++ (sliceL T q.2.2.1 q.2.2.2 ++ flatS T post) := by
        rw [hflat]
        exact replaceAll_unique _ _ _ _
          (by
            intro hnil
            have := congrArg List.length hnil
            rw [placeholderL_length] at this
            simp at this) hA hB
      have hgapflat : flatS T pre ++ (sliceL T q.2.2.1 q.2.2.2 ++ flatS T post)
          = flatS T (pre ++ Seg.gap q.2.2.1 q.2.2.2 :: post) := by
        rw [flatS_append]
        rfl
      have hcovgap : CoversFrom (pre ++ Seg.gap q.2.2.1 q.2.2.2 :: post) 0 T.length :=
        coversFrom_append pre _ 0 mp T.length hcpre ⟨hqs, hqse, hcpost⟩
      obtain ⟨hmf, hmc, hmk, hma⟩ :=
        mergeG_spec T (pre ++ Seg.gap q.2.2.1 q.2.2.2 :: post) 0 T.length hcovgap
      have hskgap : segKeys (pre ++ Seg.gap q.2.2.1 q.2.2.2 :: post)
          = segKeys pre ++ segKeys post := by
        rw [segKeys_append]
        rfl
      rw [List.map_cons, List.foldl_cons]
      show (quads2.map (fun q =>
        (placeholderL q.1 q.2.1, sliceL T q.2.2.1 q.2.2.2))).foldl
          (fun t kv => replaceAll t kv.1 kv.2)
          (replaceAll (flatS T segs) (placeholderL q.1 q.2.1)
            (sliceL T q.2.2.1 q.2.2.2)) = T
      rw [hstep, hgapflat, ← hmf]
      refine ih (mergeG (pre ++ Seg.gap q.2.2.1 q.2.2.2 :: post)) ?_ hmc hma ?_ ?_ ?_
      · intro q2 hq2
        rw [hmk, hskgap] at hq2
        refine hkeys q2 ?_
        rw [hsk]
        rcases List.mem_append.mp hq2 with h | h
        · exact List.mem_append_left _ h
        · exact List.mem_append_right _ (List.mem_cons_of_mem _ h)
      · intro q2 hq2
        rw [hmk, hskgap] at hq2
        refine hqb q2 ?_
        rw [hsk]
        rcases List.mem_append.mp hq2 with h | h
        · exact List.mem_append_left _ h
        · exact List.mem_append_right _ (List.mem_cons_of_mem _ h)
      · rw [hmk, hskgap]
        have hp2 : List.Perm (q :: quads2) (q :: (segKeys pre ++ segKeys post)) := by
          refine hperm.trans ?_
          rw [hsk]
          exact List.perm_middle
        exact hp2.cons_inv
      · rw [hmk, hskgap, List.map_append]
        rw [hsk, List.map_append, List.map_cons] at hnd
        refine List.Nodup.append ?_ ?_ ?_
        · exact (List.nodup_append.mp hnd).1
        · exact (List.nodup_cons.mp (List.nodup_append.mp hnd).2.1).2
        · intro x hx hx2
          exact (List.nodup_append.mp hnd).2.2 hx (List.mem_cons_of_mem _ hx2)

/-! ## The redaction round trip (claim C9) -/

lemma no_angle_no_placeholder (t : List Char) (hno : '<' ∉ t) (ty : String) (n : Nat) :
    occursIn (placeholderL ty n) t = false := by
  rcases hx : occursIn (placeholderL ty n) t with _ | _
  · rfl
  · exfalso
    obtain ⟨i, hp⟩ := (occursIn_iff _ _).mp hx
    have h0 := isPrefixOf_get? hp 0 (by rw [placeholderL_length]; omega)
    rw [List.get?_drop, placeholderL_get_zero, Nat.add_zero] at h0
    exact hno (List.get?_mem h0)

/-- C9: on a fresh `PIIMasker` instance, for every text that contains no
substring of placeholder form `<TYPE_n>`, `unmask_text` applied to the masked
text produced by `mask_text` restores the original text exactly. -/

theorem C9_mask_unmask_roundtrip (text : List Char)
    (hph : ∀ ty ∈ piiNames, ∀ n, occursIn (placeholderL ty n) text = false) :
    unmask_text (mask_text initMasker text).2.2 (mask_text initMasker text).1 = text := by
  obtain ⟨segs, quads, htext, hcov, hadj, hkeys, hqb, hmap, hperm, hnodup, _⟩ :=
    mask_text_inv text
  have hkeys2 : ∀ q ∈ segKeys segs, q.1 ∈ piiNames := by
    intro q hq
    have hsub : ∀ x ∈ ["ssn", "credit_card", "phone", "email", "account_number",
        "routing_number", "address"], x ∈ piiNames := by decide
    exact hsub q.1 (hkeys q hq)
  have hnd2 : ((segKeys segs).map (fun q => (q.1, q.2.1))).Nodup :=
    ((hperm.map (fun q => (q.1, q.2.1))).nodup_iff).mp hnodup
  show (mask_text initMasker text).2.2.masked_mapping.foldl
      (fun t kv => replaceAll t kv.1 kv.2) (mask_text initMasker text).1 = text
  rw [hmap, htext]
  exact unmask_fold text hph quads segs hkeys2 hcov hadj hqb hperm hnd2

/-- The round trip at a concrete input holding an SSN and a phone number. -/

theorem C9_witness :
    unmask_text (mask_text initMasker
        ("My SSN is 123-45-6789 and phone (555) 123-4567".data)).2.2
      (mask_text initMasker
        ("My SSN is 123-45-6789 and phone (555) 123-4567".data)).1
      = "My SSN is 123-45-6789 and phone (555) 123-4567".data :=
  C9_mask_unmask_roundtrip _ (fun ty _ n => no_angle_no_placeholder _ (by decide) ty n)
